import Mathlib

/-!
# Verification of the raster-to-vector-to-gcode pipeline

A shallow embedding, in Lean 4, of the algorithmic core of the
`raster-to-vector-to-gcode` repository:

* `GcodeGenerator` (motion-program codec: `generate`, `getHeader`, `toMm`,
  `optimizePathOrder`, `parseGcode`) from the G-code generator module;
* `AITracer` (skeletonization `skeletonize` / `zhangSuenPass1` /
  `zhangSuenPass2`, path extraction `extractSkeletonPaths` / `tracePath`,
  and Douglas-Peucker `simplifyPath`) from `src/aiTracer.js`.

Modelling conventions:

* JavaScript numbers are modelled as exact rationals (`ℚ`); pixel
  coordinates in the tracer are integers (`ℤ`).  Square roots appear in the
  source only inside monotone comparisons (`Math.sqrt a < Math.sqrt b` with
  `a b ≥ 0`), so distances are compared through their squares.
* JavaScript strings are modelled as `List Char`; `String.prototype.split`,
  `trim`, `includes`, `startsWith`, the coordinate regexes
  `/X(-?\d+\.?\d*)/i`, `/Y(-?\d+\.?\d*)/i`, `/F(\d+\.?\d*)/i`, `parseFloat`
  and `Number.prototype.toFixed(2)` are implemented below on `List Char`
  following the ECMAScript semantics on the value ranges the program uses.
* `new Date().toISOString().split('T')[0]` is an external reading; the
  emitted date string is an explicit argument `date` of `getHeader` and
  `generate`.
* The `Settings` module stores `bedWidth`, `bedHeight`, `feedRate` and
  `travelRate` as integers (its UI layer applies `parseInt`), so the
  machine configuration carries them as `ℕ`.
* Fabric.js path objects reaching `generate` are, per the specification,
  flattened paths: command lists of absolute `M`/`L` points with unit
  scale and zero offset, for which `pathToPoints` is the identity on the
  point list (each `M`/`L` command pushes `transformPoint x y 1 1 0 0 =
  (x, y)`).  Paths are therefore modelled as `List Pt`.
-/

set_option maxHeartbeats 1000000

/-- A planar point with rational coordinates (JS `{x, y}`). -/
structure Pt where
  x : ℚ
  y : ℚ
deriving DecidableEq, Repr, Inhabited

/-- Kind of a toolpath move: pen-down drawing or pen-up travel. -/
inductive MoveKind where
  | draw
  | travel
deriving DecidableEq, Repr, Inhabited

/-- A parsed toolpath move (JS object `{type, from, to, feedRate}`). -/
structure ToolpathMove where
  kind : MoveKind
  fromPt : Pt
  toPt : Pt
  feedRate : ℚ
deriving DecidableEq, Repr, Inhabited

/-- Machine configuration (the `Settings` object fields used by the
codec).  `bedWidth`, `bedHeight`, `feedRate`, `travelRate` are integers
(the settings UI parses them with `parseInt`); the pen commands are
literal strings. -/
structure MachineConfig where
  bedWidth : ℕ
  bedHeight : ℕ
  feedRate : ℕ
  travelRate : ℕ
  penUpCmd : List Char
  penDownCmd : List Char
  curveResolution : ℕ
  simplifyTolerance : ℚ
deriving DecidableEq, Repr

/-- Shorthand: the character list of a string literal. -/
def strL (t : String) : List Char := t.data

/-- Decimal digit character of `n % 10`. -/
def digitCh (n : ℕ) : Char := Char.ofNat (48 + n % 10)

/-- Decimal representation, auxiliary: `fuel` bounds the number of
digits (any `fuel > log10 n` gives the full representation). -/
def natStrGo : ℕ → ℕ → List Char
  | 0, _ => []
  | fuel + 1, n => if n < 10 then [digitCh n] else natStrGo fuel (n / 10) ++ [digitCh (n % 10)]

/-- Decimal representation of a natural number (the JS stringification of
a nonnegative integer, as interpolated by a template literal). -/
def natStr (n : ℕ) : List Char := natStrGo (n + 1) n

/-- Two-digit, zero-padded decimal representation of `n < 100` (the
fractional part written by `toFixed(2)`). -/
def twoDigits (n : ℕ) : List Char := [digitCh (n / 10), digitCh n]

/-- `toFixed(2)` of a nonnegative rational: the integer `n` minimizing
`|n / 100 - q|` (ties to the larger `n`), printed with two decimals. -/
def fixed2Abs (q : ℚ) : List Char :=
  let n : ℕ := (⌊q * 100 + 1 / 2⌋).toNat
  natStr (n / 100) ++ '.' :: twoDigits (n % 100)

/-- ECMAScript `Number.prototype.toFixed(2)`: a leading sign for negative
inputs, then the two-decimal representation of the absolute value. -/
def fixed2 (q : ℚ) : List Char :=
  if q < 0 then '-' :: fixed2Abs (-q) else fixed2Abs q

/-- The rational value that `toFixed(2)` output denotes: `q` rounded to
the hundredths grid (ties away from the sign of `q` toward larger
absolute printed digits per the ECMAScript rule). -/
def round2 (q : ℚ) : ℚ :=
  if q < 0 then -((⌊-q * 100 + 1 / 2⌋ : ℚ) / 100)
  else (⌊q * 100 + 1 / 2⌋ : ℚ) / 100

/-- Numeric value of a list of decimal digit characters (most significant
first), accumulated onto `acc`. -/
def digitsVal (acc : ℕ) : List Char → ℕ
  | [] => acc
  | c :: rest => digitsVal (acc * 10 + (c.toNat - 48)) rest

/-- Value of a fractional digit string: `d₁d₂…dₖ ↦ 0.d₁d₂…dₖ`. -/
def fracVal : List Char → ℚ
  | [] => 0
  | c :: rest => ((c.toNat - 48 : ℕ) + fracVal rest) / 10

/-- `parseFloat` on an unsigned number string: an integer digit run and
an optional `.`-separated fraction. -/
def parseFloatNN (cs : List Char) : ℚ :=
  let intPart := cs.takeWhile Char.isDigit
  let rest := cs.dropWhile Char.isDigit
  if rest.head? = some '.' then
    (digitsVal 0 intPart : ℚ) + fracVal (rest.tail.takeWhile Char.isDigit)
  else (digitsVal 0 intPart : ℚ)

/-- `parseFloat` on the capture of the coordinate regexes: an optional
sign, then an unsigned number string. -/
def parseFloatQ (cs : List Char) : ℚ :=
  match cs with
  | c :: rest => if c = '-' then -(parseFloatNN rest) else parseFloatNN (c :: rest)
  | [] => parseFloatNN []

/-- JS `String.prototype.trim`: drop whitespace from both ends. -/
def jsTrim (cs : List Char) : List Char :=
  ((cs.dropWhile Char.isWhitespace).reverse.dropWhile Char.isWhitespace).reverse

/-- Does `hay` start with `needle`? -/
def startsSeq : List Char → List Char → Bool
  | _, [] => true
  | [], _ :: _ => false
  | c :: hs, d :: ns => c = d && startsSeq hs ns

/-- JS `String.prototype.includes`: does `needle` occur contiguously in
`hay`? -/
def subSeq (hay needle : List Char) : Bool :=
  match hay with
  | [] => startsSeq [] needle
  | _ :: rest => startsSeq hay needle || subSeq rest needle

/-- The unsigned part of the coordinate regexes at a fixed position:
at least one digit (greedily), an optional dot, and greedy digits. -/
def numCore (ds : List Char) : Option (List Char) :=
  let intPart := ds.takeWhile Char.isDigit
  if intPart.isEmpty then none
  else if (ds.dropWhile Char.isDigit).head? = some '.' then
    some (intPart ++ '.' :: (ds.dropWhile Char.isDigit).tail.takeWhile Char.isDigit)
  else some intPart

/-- The numeric tail of the coordinate regexes at a fixed position:
`-?\d+\.?\d*` (sign only when `allowNeg`), with the regex's backtracking
semantics — a consumed sign must be followed by at least one digit, or
the match at this position fails. -/
def numCapture (allowNeg : Bool) (cs : List Char) : Option (List Char) :=
  match cs with
  | c :: rest =>
    if c = '-' ∧ allowNeg = true then (numCore rest).map ('-' :: ·)
    else numCore (c :: rest)
  | [] => none

/-- First match of `/T(-?\d+\.?\d*)/i` in `cs`, where `T` ranges over the
two case variants in `tok`; returns the captured number string. -/
def findNum (tok : Char → Bool) (allowNeg : Bool) : List Char → Option (List Char)
  | [] => none
  | c :: rest =>
    if tok c then
      match numCapture allowNeg rest with
      | some cap => some cap
      | none => findNum tok allowNeg rest
    else findNum tok allowNeg rest

/-- `trimmed.match(/X(-?\d+\.?\d*)/i)`, capture only. -/
def findX (cs : List Char) : Option (List Char) :=
  findNum (fun c => c = 'X' || c = 'x') true cs

/-- `trimmed.match(/Y(-?\d+\.?\d*)/i)`, capture only. -/
def findY (cs : List Char) : Option (List Char) :=
  findNum (fun c => c = 'Y' || c = 'y') true cs

/-- `trimmed.match(/F(\d+\.?\d*)/i)`, capture only. -/
def findF (cs : List Char) : Option (List Char) :=
  findNum (fun c => c = 'F' || c = 'f') false cs

/-- JS `gcode.split('\n')`, auxiliary: `acc` is the reversed current
line. -/
def splitLinesAux : List Char → List Char → List (List Char)
  | [], acc => [acc.reverse]
  | c :: rest, acc =>
    if c = '\n' then acc.reverse :: splitLinesAux rest []
    else splitLinesAux rest (c :: acc)

/-- JS `gcode.split('\n')`. -/
def splitLines (cs : List Char) : List (List Char) := splitLinesAux cs []

example : natStr 3070 = strL "3070" := by with_unfolding_all decide
example : fixed2 (5/4) = strL "1.25" := by with_unfolding_all decide
example : fixed2 (-1/400) = strL "-0.00" := by with_unfolding_all decide
example : fixed2 0 = strL "0.00" := by with_unfolding_all decide
example : parseFloatQ (strL "-12.75") = -51/4 := by with_unfolding_all decide
example : jsTrim (strL "  G1 X0  ") = strL "G1 X0" := by decide
example : subSeq (strL "G92 X0 Y0 Z0 ; set") (strL "Z0") = true := by decide
example : findX (strL "G0 X-3.25 Y7 F600") = some (strL "-3.25") := by decide
example : findF (strL "G1 X1.00 F3000") = some (strL "3000") := by decide
example : splitLines (strL "a\nbc\n") = [strL "a", strL "bc", []] := by decide

/-! ## The G-code generator (`GcodeGenerator`) -/

/-- A single newline character, the line separator of the emitted text. -/
def nl : List Char := ['\n']

/-- `toMm`: canvas pixels to millimetres, `(pixels / canvasSize) * bed`
with the default `canvasSize = 800` and `bed = settings.bedWidth` used by
`generate`. -/
def toMm (cfg : MachineConfig) (pixels : ℚ) : ℚ :=
  pixels / 800 * (cfg.bedWidth : ℚ)

/-- Squared Euclidean distance.  The source compares
`Math.sqrt (dx²+dy²)` values; square root is strictly monotone on
nonnegative reals, so comparisons are modelled on the squares. -/
def distSq (p1 p2 : Pt) : ℚ :=
  (p2.x - p1.x) * (p2.x - p1.x) + (p2.y - p1.y) * (p2.y - p1.y)

/-- `pathToPoints` on a flattened path (absolute `M`/`L` commands, unit
scale, zero offset) is the identity on its point list. -/
def pathToPoints (p : List Pt) : List Pt := p

/-- The scan of `optimizePathOrder`'s inner `for` loop: starting from
accumulator `(nearestIndex, nearestDist)` (with `none` as `Infinity`) and
position counter `i`, find the first strict minimizer of the distance
from `cur` to each remaining path's first point, skipping paths with no
points. -/
def nearestScan (cur : Pt) : List (List Pt) → ℕ → ℕ × Option ℚ → ℕ × Option ℚ
  | [], _, best => best
  | p :: rest, i, (bi, bd) =>
    let points := pathToPoints p
    match points with
    | [] => nearestScan cur rest (i + 1) (bi, bd)
    | q :: _ =>
      let startDist := distSq cur q
      match bd with
      | none => nearestScan cur rest (i + 1) (i, some startDist)
      | some d =>
        if startDist < d then nearestScan cur rest (i + 1) (i, some startDist)
        else nearestScan cur rest (i + 1) (bi, bd)

/-- One selection step: index chosen by the scan (`0` when everything was
skipped, as in the source where `nearestIndex` stays `0`). -/
def nearestIndex (cur : Pt) (remaining : List (List Pt)) : ℕ :=
  (nearestScan cur remaining 0 (0, none)).1

/-- The `while (remaining.length > 0)` loop of `optimizePathOrder`:
`fuel` is an upper bound on the number of iterations (each iteration
splices out exactly one element, so `remaining.length` suffices). -/
def orderGo (fuel : ℕ) (remaining : List (List Pt)) (cur : Pt) : List (List Pt) :=
  match fuel, remaining with
  | 0, _ => []
  | _, [] => []
  | fuel + 1, remaining =>
    let i := nearestIndex cur remaining
    let nearest := remaining.getD i []
    let rest := remaining.eraseIdx i
    let points := pathToPoints nearest
    let cur2 := match points.getLast? with
      | some q => q
      | none => cur
    nearest :: orderGo fuel rest cur2

/-- `optimizePathOrder`: nearest-neighbour ordering of the paths,
starting from position `(0, 0)`; lists of length `≤ 1` are returned
unchanged. -/
def optimizePathOrder (paths : List (List Pt)) : List (List Pt) :=
  if paths.length ≤ 1 then paths
  else orderGo paths.length paths (Pt.mk 0 0)

/-- Join a list of emitted lines, each followed by `'\\n'`: the emitted
text is the concatenation of its lines, every one of which the source
terminates with a newline. -/
def joinNl (ls : List (List Char)) : List Char :=
  (ls.map (· ++ nl)).flatten

/-- The lines of `getHeader`'s template literal, with the date string
(from `new Date().toISOString().split('T')[0]`) passed explicitly. -/
def headerLines (date : List Char) (cfg : MachineConfig) : List (List Char) :=
  [strL "; ============================================",
   strL "; Void-Satellite CNC Plotter",
   strL "; Generated: " ++ date,
   strL "; Work Area: " ++ natStr cfg.bedWidth ++ strL "mm × " ++
     natStr cfg.bedHeight ++ strL "mm",
   strL "; Feed Rate: " ++ natStr cfg.feedRate ++ strL " mm/min",
   strL "; Travel Rate: " ++ natStr cfg.travelRate ++ strL " mm/min",
   strL "; ============================================",
   [],
   strL "G21 ; mm mode",
   strL "G90 ; absolute positioning",
   strL "G92 X0 Y0 Z0 ; set current position as origin",
   strL "; G28 ; uncomment to home first"]

/-- `getHeader` as emitted text. -/
def getHeader (date : List Char) (cfg : MachineConfig) : List Char :=
  joinNl (headerLines date cfg)

/-- The `G0 …` travel line emitted before a path: rapid to its first
point at the travel rate. -/
def travelLine (cfg : MachineConfig) (pt : Pt) : List Char :=
  strL "G0 X" ++ fixed2 (toMm cfg pt.x) ++ strL " Y" ++ fixed2 (toMm cfg pt.y) ++
    strL " F" ++ natStr cfg.travelRate ++ strL " ; travel to start"

/-- The `G1 …` draw line emitted for one interior path point. -/
def drawLine (cfg : MachineConfig) (pt : Pt) : List Char :=
  strL "G1 X" ++ fixed2 (toMm cfg pt.x) ++ strL " Y" ++ fixed2 (toMm cfg pt.y) ++
    strL " F" ++ natStr cfg.feedRate

/-- The lines emitted for one path (`for (const pathObj of orderedPaths)`
loop body): a blank line and the `; --- Path k ---` comment, and — when
the path has at least two points — pen-up, travel to the start, pen-down,
and one draw line per subsequent point (paths with fewer than two points
hit `continue` right after the comment). -/
def blockLines (cfg : MachineConfig) (k : ℕ) (points : List Pt) : List (List Char) :=
  [[], strL "; --- Path " ++ natStr k ++ strL " ---"] ++
  (if points.length < 2 then []
   else
    match points with
    | [] => []
    | start :: restPts =>
      [cfg.penUpCmd ++ strL " ; pen up",
       travelLine cfg start,
       cfg.penDownCmd ++ strL " ; pen down"] ++
      restPts.map (drawLine cfg))

/-- The per-path emission loop: `k` is the running `pathIndex`, which the
source increments only for paths that were actually emitted. -/
def emitLines (cfg : MachineConfig) : ℕ → List (List Pt) → List (List Char)
  | _, [] => []
  | k, points :: rest =>
    blockLines cfg k (pathToPoints points) ++
      emitLines cfg (if (pathToPoints points).length < 2 then k else k + 1) rest

/-- The fixed program epilogue: pen up, rapid to the origin, end
marker. -/
def endLines (cfg : MachineConfig) : List (List Char) :=
  [[], strL "; --- End ---",
   cfg.penUpCmd ++ strL " ; pen up",
   strL "G0 X0 Y0 F" ++ natStr cfg.travelRate ++ strL " ; return home",
   strL "M2 ; end program"]

/-- `generate`: the complete emitted motion program for the given paths.
The empty-input branch returns header plus a comment and the end marker;
otherwise the header, the per-path blocks over the nearest-neighbour
ordering, and the epilogue. -/
def generate (date : List Char) (cfg : MachineConfig) (paths : List (List Pt)) : List Char :=
  if paths.length = 0 then
    joinNl (headerLines date cfg ++
      [[], strL "; No paths to generate", [], strL "M2 ; end program"])
  else
    joinNl (headerLines date cfg ++
      emitLines cfg 1 (optimizePathOrder paths) ++ endLines cfg)

/-! ### The parser (`parseGcode`) -/

/-- Parser state: running position, pen flag, running feed rate. -/
structure ParseSt where
  x : ℚ
  y : ℚ
  penDown : Bool
  feedRate : ℚ
deriving DecidableEq, Repr

/-- Processing of a single line of `parseGcode`'s `for` loop: skip blank
and comment lines; update the pen flag from the literal height/state
tokens; update the feed rate from an `F` token; and, if an `X` or `Y`
token is present, emit one move from the previous to the updated
position. -/
def parseLine (st : ParseSt) (line : List Char) : ParseSt × List ToolpathMove :=
  let trimmed := jsTrim line
  if trimmed.isEmpty || startsSeq trimmed (strL ";") then (st, [])
  else
    let pen :=
      if subSeq trimmed (strL "Z5") || subSeq trimmed (strL "Z 5") ||
          subSeq trimmed (strL "S0") then false
      else if subSeq trimmed (strL "Z0") || subSeq trimmed (strL "Z 0") ||
          subSeq trimmed (strL "S90") then true
      else st.penDown
    let fr := match findF trimmed with
      | some cap => parseFloatQ cap
      | none => st.feedRate
    match findX trimmed, findY trimmed with
    | none, none => (ParseSt.mk st.x st.y pen fr, [])
    | ox, oy =>
      let newX := match ox with
        | some cap => parseFloatQ cap
        | none => st.x
      let newY := match oy with
        | some cap => parseFloatQ cap
        | none => st.y
      (ParseSt.mk newX newY pen fr,
        [ToolpathMove.mk (if pen then MoveKind.draw else MoveKind.travel)
          (Pt.mk st.x st.y) (Pt.mk newX newY) fr])

/-- Fold of `parseLine` over the split lines, collecting moves. -/
def parseRun (st : ParseSt) : List (List Char) → List ToolpathMove
  | [] => []
  | line :: rest =>
    let (st2, ms) := parseLine st line
    ms ++ parseRun st2 rest

/-- The state after processing a list of lines. -/
def parseRunSt (st : ParseSt) : List (List Char) → ParseSt
  | [] => st
  | line :: rest => parseRunSt (parseLine st line).1 rest

/-- `parseGcode`: split on newlines and process each line, starting at
the origin with the pen up and the configured feed rate. -/
def parseGcode (cfg : MachineConfig) (gcode : List Char) : List ToolpathMove :=
  parseRun (ParseSt.mk 0 0 false (cfg.feedRate : ℚ)) (splitLines gcode)

/-! ### Specification-side descriptions of the emitted toolpath

The definitions below transcribe the specification's words for the
round-trip contract ("one travel move to each path's first point, then
draw moves to its subsequent points, and a final travel move back to the
origin", endpoints to 2-decimal formatting precision) and for the
nearest-neighbour ordering; they are compared against the parser's output
in the theorems. -/

/-- A path point as it reappears after the round trip: scaled to
millimetres and rounded to the 2-decimal formatting grid. -/
def roundPt (cfg : MachineConfig) (p : Pt) : Pt :=
  Pt.mk (round2 (toMm cfg p.x)) (round2 (toMm cfg p.y))

/-- Draw moves for the points of one path after its first, chained from
`cur`, at the configured feed rate. -/
def specDraws (cfg : MachineConfig) : Pt → List Pt → List ToolpathMove
  | _, [] => []
  | cur, p :: rest =>
    ToolpathMove.mk MoveKind.draw cur (roundPt cfg p) (cfg.feedRate : ℚ) ::
      specDraws cfg (roundPt cfg p) rest

/-- Per-path move groups: one travel move to the path's first point at
the travel rate, then draw moves to its subsequent points, positions
chained across paths. -/
def specBlocks (cfg : MachineConfig) : Pt → List (List Pt) → List ToolpathMove
  | _, [] => []
  | cur, [] :: rest => specBlocks cfg cur rest
  | cur, (p0 :: ps) :: rest =>
    (ToolpathMove.mk MoveKind.travel cur (roundPt cfg p0) (cfg.travelRate : ℚ) ::
        specDraws cfg (roundPt cfg p0) ps) ++
      specBlocks cfg (roundPt cfg (ps.getLastD p0)) rest

/-- The pen position reached after all per-path move groups. -/
def specFinalPos (cfg : MachineConfig) : Pt → List (List Pt) → Pt
  | cur, [] => cur
  | cur, [] :: rest => specFinalPos cfg cur rest
  | _, (p0 :: ps) :: rest => specFinalPos cfg (roundPt cfg (ps.getLastD p0)) rest

/-- The toolpath that parsing an emitted (non-empty) program yields: the
zero-length draw move produced by the header's `G92 X0 Y0 Z0` line, the
per-path travel/draw groups, and the final travel back to the origin. -/
def expectedToolpath (cfg : MachineConfig) (orderedPaths : List (List Pt)) :
    List ToolpathMove :=
  ToolpathMove.mk MoveKind.draw (Pt.mk 0 0) (Pt.mk 0 0) (cfg.feedRate : ℚ) ::
    (specBlocks cfg (Pt.mk 0 0) orderedPaths ++
      [ToolpathMove.mk MoveKind.travel (specFinalPos cfg (Pt.mk 0 0) orderedPaths)
        (Pt.mk 0 0) (cfg.travelRate : ℚ)])

/-- First point of a path (specification side; paths are nonempty where
this is used). -/
def firstPt (p : List Pt) : Pt := p.headD (Pt.mk 0 0)

/-- Last point of a path (specification side). -/
def lastPt (p : List Pt) : Pt := p.getLastD (Pt.mk 0 0)

/-- Index of the first occurrence of the minimum of a list of rationals
(`0` on the empty list): the specification's "minimum Euclidean distance
…, ties broken by the earliest position". -/
def firstMinIdx : List ℚ → ℕ
  | [] => 0
  | [_] => 0
  | d :: rest =>
    let k := firstMinIdx rest
    if d ≤ rest.getD k 0 then 0 else k + 1

/-- The specification's description of the ordering pass: repeatedly
select, among the remaining paths, the earliest one whose first point is
at minimum Euclidean distance from the current position; append it; move
the current position to its last point; remove it. -/
def nnSpecGo (fuel : ℕ) (remaining : List (List Pt)) (cur : Pt) : List (List Pt) :=
  match fuel, remaining with
  | 0, _ => []
  | _, [] => []
  | fuel + 1, remaining =>
    let i := firstMinIdx (remaining.map fun p => distSq cur (firstPt p))
    let chosen := remaining.getD i []
    chosen :: nnSpecGo fuel (remaining.eraseIdx i) (lastPt chosen)

/-- Specification-side nearest-neighbour order, from the origin. -/
def nnOrderSpec (paths : List (List Pt)) : List (List Pt) :=
  nnSpecGo paths.length paths (Pt.mk 0 0)

/-- Does a line of text make `parseGcode` emit a move?  True exactly for
non-blank, non-comment lines whose trimmed text matches an `X` or `Y`
coordinate token. -/
def isMoveLine (cs : List Char) : Bool :=
  !(jsTrim cs).isEmpty && !startsSeq (jsTrim cs) (strL ";") &&
    ((findX (jsTrim cs)).isSome || (findY (jsTrim cs)).isSome)

/-! ## The tracer (`AITracer`)

The binary raster is index-addressed exactly as in the source
(`img[y * width + x]`); it is modelled as a total function `ℤ → ℕ`
(the reads the walk performs are bounds-checked in the source before
the index is formed, and the thinning scans stay one pixel away from
the border). -/

/-- A raster: linear pixel index to sample value. -/
def Img : Type := ℤ → ℕ

/-- The interior scan range of a dimension `d`: the values
`1, …, d - 2` of `for (let v = 1; v < d - 1; v++)`. -/
def scanRange (d : ℤ) : List ℤ :=
  (List.range (d - 2).toNat).map fun i => (i : ℤ) + 1

/-- All interior pixels in scan order (`y` outer, `x` inner). -/
def scanCoords (w h : ℤ) : List (ℤ × ℤ) :=
  (scanRange h).flatMap fun y => (scanRange w).map fun x => (x, y)

/-- `getNeighbors`: the 8-neighbour values `P2 … P9`, clockwise from
north. -/
def neighborsT (img : Img) (x y w : ℤ) : List ℕ :=
  [img ((y - 1) * w + x), img ((y - 1) * w + x + 1), img (y * w + x + 1),
   img ((y + 1) * w + x + 1), img ((y + 1) * w + x), img ((y + 1) * w + x - 1),
   img (y * w + x - 1), img ((y - 1) * w + x - 1)]

/-- `countTransitions`: the number of `0 → 1` steps walking clockwise
around the neighbour ring. -/
def countTransitions (ns : List ℕ) : ℕ :=
  ((List.range 8).filter fun i => ns.getD i 0 = 0 ∧ ns.getD ((i + 1) % 8) 0 = 1).length

/-- `countNeighbors`: the number of foreground neighbours. -/
def countNeighborsT (ns : List ℕ) : ℕ := ns.foldl (· + ·) 0

/-- Pass-1 removal condition of Zhang-Suen thinning. -/
def zhangSuenPass1 (img : Img) (x y w : ℤ) : Prop :=
  let n := neighborsT img x y w
  let b := countNeighborsT n
  let a := countTransitions n
  2 ≤ b ∧ b ≤ 6 ∧ a = 1 ∧
    n.getD 0 0 * n.getD 2 0 * n.getD 4 0 = 0 ∧
    n.getD 2 0 * n.getD 4 0 * n.getD 6 0 = 0

instance (img : Img) (x y w : ℤ) : Decidable (zhangSuenPass1 img x y w) := by
  unfold zhangSuenPass1; infer_instance

/-- Pass-2 removal condition of Zhang-Suen thinning. -/
def zhangSuenPass2 (img : Img) (x y w : ℤ) : Prop :=
  let n := neighborsT img x y w
  let b := countNeighborsT n
  let a := countTransitions n
  2 ≤ b ∧ b ≤ 6 ∧ a = 1 ∧
    n.getD 0 0 * n.getD 2 0 * n.getD 6 0 = 0 ∧
    n.getD 0 0 * n.getD 4 0 * n.getD 6 0 = 0

instance (img : Img) (x y w : ℤ) : Decidable (zhangSuenPass2 img x y w) := by
  unfold zhangSuenPass2; infer_instance

/-- Pass 1 candidate collection (`toRemove1`): the indices, in scan
order, of foreground interior pixels satisfying the pass-1 condition on
the pre-pass image. -/
def pass1Remove (img : Img) (w h : ℤ) : List ℤ :=
  (scanCoords w h).filterMap fun p =>
    if img (p.2 * w + p.1) = 1 ∧ zhangSuenPass1 img p.1 p.2 w then some (p.2 * w + p.1)
    else none

/-- Pass 2 candidate collection (`toRemove2`). -/
def pass2Remove (img : Img) (w h : ℤ) : List ℤ :=
  (scanCoords w h).filterMap fun p =>
    if img (p.2 * w + p.1) = 1 ∧ zhangSuenPass2 img p.1 p.2 w then some (p.2 * w + p.1)
    else none

/-- Set the collected candidate pixels to background. -/
def removeAll (img : Img) (idxs : List ℤ) : Img :=
  fun i => if i ∈ idxs then 0 else img i

/-- One iteration of the thinning loop body: collect-then-remove pass 1,
collect-then-remove pass 2 on the updated image, and the `changed`
flag. -/
def thinIter (img : Img) (w h : ℤ) : Img × Bool :=
  let r1 := pass1Remove img w h
  let img1 := removeAll img r1
  let r2 := pass2Remove img1 w h
  let img2 := removeAll img1 r2
  (img2, !r1.isEmpty || !r2.isEmpty)

/-- The image after one iteration. -/
def nextImg (img : Img) (w h : ℤ) : Img := (thinIter img w h).1

/-- Did one iteration remove anything? -/
def thinChanged (img : Img) (w h : ℤ) : Bool := (thinIter img w h).2

/-- The `while (changed && iterations < maxIterations)` loop: at most
`fuel` further iterations; stops early when an iteration removes
nothing (returning the image from before that iteration, which the
iteration left untouched). -/
def skelLoop (w h : ℤ) : ℕ → Img → Img
  | 0, img => img
  | fuel + 1, img =>
    let r := thinIter img w h
    if r.2 then skelLoop w h fuel r.1 else img

/-- `skeletonize`: Zhang-Suen thinning with the iteration cap 100. -/
def skeletonize (img : Img) (w h : ℤ) : Img := skelLoop w h 100 img

/-! ### A raster family shrinking once per iteration for 200 iterations

A solid square of side 405 inside a 407 × 407 raster.  One thinning
iteration carves a square annulus: pass 1 removes the south and east
edges and the four corners of the current square, pass 2 the north and
west edges and the remaining south-east corner, so after `i` iterations
the raster is the solid square `[1+i, 405-i]²` minus its south-east
corner pixel.  The loop therefore hits the 100-iteration cap twice in a
row: `skeletonize` maps the square to the stage-100 shape, and a second
`skeletonize` continues to the stage-200 shape. -/

/-- Raster width/height of the counterexample. -/
def wSq : ℤ := 407

/-- Pixel value of the stage-`i` shape at coordinates `(x, y)`:
the solid square `[1+i, 405-i]²`, minus its south-east corner once
`i ≥ 1`. -/
def shapeAt (i : ℕ) (x y : ℤ) : ℕ :=
  if 1 + (i : ℤ) ≤ x ∧ x ≤ 405 - (i : ℤ) ∧ 1 + (i : ℤ) ≤ y ∧ y ≤ 405 - (i : ℤ) ∧
      ¬(1 ≤ i ∧ x = 405 - (i : ℤ) ∧ y = 405 - (i : ℤ)) then 1
  else 0

/-- The stage-`i` shape as a raster. -/
def shapeImg (i : ℕ) : Img := fun idx => shapeAt i (idx % wSq) (idx / wSq)

/-- Pixel value of the intermediate shape left by pass 1 of iteration
`i + 1`: the square `[1+i, 404-i]²` minus its north-west corner. -/
def midAt (i : ℕ) (x y : ℤ) : ℕ :=
  if 1 + (i : ℤ) ≤ x ∧ x ≤ 404 - (i : ℤ) ∧ 1 + (i : ℤ) ≤ y ∧ y ≤ 404 - (i : ℤ) ∧
      ¬(x = 1 + (i : ℤ) ∧ y = 1 + (i : ℤ)) then 1
  else 0

/-- The intermediate shape as a raster. -/
def midImg (i : ℕ) : Img := fun idx => midAt i (idx % wSq) (idx / wSq)

/-- The solid 405 × 405 square with a one-pixel background border: the
initial raster of the counterexample (the stage-0 shape). -/
def solidSquare : Img := shapeImg 0

/-! ### Douglas-Peucker simplification (`simplifyPath`) -/

/-- `getSqSegDist`: squared distance from `p` to the segment
`(p1, p2)`, with clamping of the projection parameter. -/
def getSqSegDist (p p1 p2 : Pt) : ℚ :=
  let dx0 := p2.x - p1.x
  let dy0 := p2.y - p1.y
  let xy : ℚ × ℚ :=
    if dx0 ≠ 0 ∨ dy0 ≠ 0 then
      let t := ((p.x - p1.x) * dx0 + (p.y - p1.y) * dy0) / (dx0 * dx0 + dy0 * dy0)
      if 1 < t then (p2.x, p2.y)
      else if 0 < t then (p1.x + dx0 * t, p1.y + dy0 * t)
      else (p1.x, p1.y)
    else (p1.x, p1.y)
  let dx := p.x - xy.1
  let dy := p.y - xy.2
  dx * dx + dy * dy

/-- The scan of `simplifyDP`'s `for` loop over `(first, last)`: running
maximum (initialized to the squared tolerance) and the index of its first
strict exceeder, over the interior indices `idxs`. -/
def dpScan (pts : List Pt) (p1 p2 : Pt) (idxs : List ℕ) (init : ℚ × Option ℕ) :
    ℚ × Option ℕ :=
  idxs.foldl
    (fun acc i =>
      let d := getSqSegDist (pts.getD i (Pt.mk 0 0)) p1 p2
      if acc.1 < d then (d, some i) else acc)
    init

/-- The recursive core of `simplifyDP`: the interior points pushed onto
`simplified` for the range `(first, last)`.  `fuel` bounds the recursion
depth; every recursive call strictly shrinks `last - first`, so any
`fuel ≥ last - first` computes the full recursion. -/
def dpRun (pts : List Pt) (sqTol : ℚ) : ℕ → ℕ → ℕ → List Pt
  | 0, _, _ => []
  | fuel + 1, first, last =>
    let scan := dpScan pts (pts.getD first (Pt.mk 0 0)) (pts.getD last (Pt.mk 0 0))
      (List.range' (first + 1) (last - first - 1)) (sqTol, none)
    if sqTol < scan.1 then
      match scan.2 with
      | some index =>
        (if 1 < index - first then dpRun pts sqTol fuel first index else []) ++
          pts.getD index (Pt.mk 0 0) ::
            (if 1 < last - index then dpRun pts sqTol fuel index last else [])
      | none => []
    else []

/-- `simplifyPath`: Douglas-Peucker under tolerance `tol`; sequences of
length at most 2 are returned unchanged, otherwise the first point, the
recursively kept interior points, and the last point. -/
def simplifyPath (pts : List Pt) (tol : ℚ) : List Pt :=
  if pts.length ≤ 2 then pts
  else
    (pts.getD 0 (Pt.mk 0 0) :: dpRun pts (tol * tol) pts.length 0 (pts.length - 1)) ++
      [pts.getD (pts.length - 1) (Pt.mk 0 0)]

/-! ### Path extraction (`extractSkeletonPaths`, `tracePath`) -/

/-- `count8Neighbors`. -/
def count8Neighbors (img : Img) (x y w : ℤ) : ℕ :=
  countNeighborsT (neighborsT img x y w)

/-- The fixed clockwise direction search order of `tracePath`. -/
def traceDirs : List (ℤ × ℤ) :=
  [(0, -1), (1, -1), (1, 0), (1, 1), (0, 1), (-1, 1), (-1, 0), (-1, -1)]

/-- First unvisited in-bounds foreground neighbour of `(x, y)`, in the
fixed direction order. -/
def findNb (skel : Img) (w h : ℤ) (v : Finset ℤ) (x y : ℤ) : Option (ℤ × ℤ) :=
  traceDirs.findSome? fun d =>
    let nx := x + d.1
    let ny := y + d.2
    if 0 ≤ nx ∧ nx < w ∧ 0 ≤ ny ∧ ny < h ∧ skel (ny * w + nx) = 1 ∧
        (ny * w + nx) ∉ v then some (nx, ny)
    else none

/-- The walk of `tracePath` (`while (maxLength-- > 0)`): mark the
current pixel visited, append it, move to the first unvisited
foreground neighbour; stop on a visited pixel, on no neighbour, or when
the step budget runs out.  Returns the raw path and the updated visited
set. -/
def traceGo (skel : Img) (w h : ℤ) : ℕ → ℤ → ℤ → Finset ℤ → List (ℤ × ℤ) →
    List (ℤ × ℤ) × Finset ℤ
  | 0, _, _, v, acc => (acc.reverse, v)
  | fuel + 1, x, y, v, acc =>
    if y * w + x ∈ v then (acc.reverse, v)
    else
      let v2 := insert (y * w + x) v
      let acc2 := (x, y) :: acc
      match findNb skel w h v2 x y with
      | some p => traceGo skel w h fuel p.1 p.2 v2 acc2
      | none => (acc2.reverse, v2)

/-- A traced pixel as a rational point. -/
def pixelPt (p : ℤ × ℤ) : Pt := Pt.mk (p.1 : ℚ) (p.2 : ℚ)

/-- `tracePath`: walk from the start pixel (step cap 10000), then
simplify with tolerance 1.5. -/
def tracePath (skel : Img) (w h : ℤ) (sx sy : ℤ) (v : Finset ℤ) :
    List Pt × Finset ℤ :=
  let r := traceGo skel w h 10000 sx sy v []
  (simplifyPath (r.1.map pixelPt) (3 / 2), r.2)

/-- The endpoint scan: interior foreground pixels with exactly one
foreground neighbour. -/
def endpointsOf (skel : Img) (w h : ℤ) : List (ℤ × ℤ) :=
  (scanCoords w h).filter fun p =>
    skel (p.2 * w + p.1) = 1 ∧ count8Neighbors skel p.1 p.2 w = 1

/-- One extraction phase: trace from each start pixel that passes its
guard (phase 2 additionally re-checks foreground), keep paths of length
at least 5, thread the shared visited set. -/
def extractPhase (skel : Img) (w h : ℤ) (checkFg : Bool) :
    List (ℤ × ℤ) → Finset ℤ → List (List Pt) → Finset ℤ × List (List Pt)
  | [], v, acc => (v, acc)
  | p :: rest, v, acc =>
    if (checkFg → skel (p.2 * w + p.1) = 1) ∧ (p.2 * w + p.1) ∉ v then
      let r := tracePath skel w h p.1 p.2 v
      if 5 ≤ r.1.length then extractPhase skel w h checkFg rest r.2 (acc ++ [r.1])
      else extractPhase skel w h checkFg rest r.2 acc
    else extractPhase skel w h checkFg rest v acc

/-- `extractSkeletonPaths`: trace from endpoints first, then from the
remaining unvisited foreground pixels (closed loops), sharing one
visited set. -/
def extractSkeletonPaths (skel : Img) (w h : ℤ) : List (List Pt) :=
  let ph1 := extractPhase skel w h false (endpointsOf skel w h) ∅ []
  let ph2 := extractPhase skel w h true (scanCoords w h) ph1.1 ph1.2
  ph2.2

/-! ### Concrete instances used in the scenario theorems -/

/-- The default machine configuration of the `Settings` module
(`bedWidth 914, bedHeight 610, feedRate 3000, travelRate 6000,
penUpCmd "G0 Z5", penDownCmd "G1 Z0", curveResolution 10,
simplifyTolerance 2`). -/
def cfgDefault : MachineConfig :=
  ⟨914, 610, 3000, 6000, strL "G0 Z5", strL "G1 Z0", 10, 2⟩

/-- The configuration of the emission scenario: `feedRate 3000,
travelRate 6000, bedWidth 100`, default pen commands. -/
def cfgScenario : MachineConfig :=
  ⟨100, 610, 3000, 6000, strL "G0 Z5", strL "G1 Z0", 10, 2⟩

/-- A date reading. -/
def dateA : List Char := strL "2026-10-12"

/-- A later date reading. -/
def dateB : List Char := strL "2026-10-13"

/-- The two paths of the emission scenario. -/
def pathsScenario : List (List Pt) :=
  [[Pt.mk 0 0, Pt.mk 10 0], [Pt.mk 0 10, Pt.mk 10 10]]

/-- A single two-point path. -/
def pathsOne : List (List Pt) := [[Pt.mk 0 0, Pt.mk 8 0]]

/-- The empty raster. -/
def zeroImg : Img := fun _ => 0

/-! ## Lemma toolkit: text splitting and the parse fold -/

theorem splitLinesAux_append (p r : List Char) (hp : '\n' ∉ p) (acc : List Char) :
    splitLinesAux (p ++ '\n' :: r) acc = (acc.reverse ++ p) :: splitLinesAux r [] := by
  induction p generalizing acc with
  | nil => simp [splitLinesAux]
  | cons c cs ih =>
    have hc : ¬(c = '\n') := fun h => hp (h ▸ List.mem_cons_self c cs)
    have hcs : '\n' ∉ cs := fun h => hp (List.mem_cons_of_mem c h)
    simp only [List.cons_append, splitLinesAux, if_neg hc, List.append_eq]
    rw [ih hcs]
    simp

theorem splitLines_cons_of_not_mem (p r : List Char) (hp : '\n' ∉ p) :
    splitLines (p ++ '\n' :: r) = p :: splitLines r := by
  unfold splitLines
  rw [splitLinesAux_append p r hp]
  simp

theorem splitLines_joinNl (ls : List (List Char)) (r : List Char)
    (h : ∀ l ∈ ls, '\n' ∉ l) :
    splitLines (joinNl ls ++ r) = ls ++ splitLines r := by
  induction ls with
  | nil => simp [joinNl]
  | cons l rest ih =>
    have : joinNl (l :: rest) ++ r = l ++ '\n' :: (joinNl rest ++ r) := by
      simp [joinNl, nl]
    rw [this, splitLines_cons_of_not_mem _ _ (h l (List.mem_cons_self l rest)),
      ih fun x hx => h x (List.mem_cons_of_mem l hx)]
    simp

theorem parseRun_append (st : ParseSt) (l1 l2 : List (List Char)) :
    parseRun st (l1 ++ l2) = parseRun st l1 ++ parseRun (parseRunSt st l1) l2 := by
  induction l1 generalizing st with
  | nil => simp [parseRun, parseRunSt]
  | cons l rest ih => simp [parseRun, parseRunSt, ih]

theorem parseRunSt_append (st : ParseSt) (l1 l2 : List (List Char)) :
    parseRunSt st (l1 ++ l2) = parseRunSt (parseRunSt st l1) l2 := by
  induction l1 generalizing st with
  | nil => simp [parseRunSt]
  | cons l rest ih => simp [parseRunSt, ih]

/-! ## Lemma toolkit: `trim`, `includes`, and the coordinate regexes -/

theorem jsTrim_nil : jsTrim [] = [] := rfl

theorem dropWhile_append_last (p : Char → Bool) (a : List Char) (c : Char)
    (hc : p c = false) :
    (a ++ [c]).dropWhile p = a.dropWhile p ++ [c] := by
  induction a with
  | nil => simp [List.dropWhile, hc]
  | cons d ds ih =>
    by_cases hd : p d
    · simp [List.dropWhile_cons_of_pos, hd, ih]
    · simp [List.dropWhile_cons_of_neg, hd]

theorem jsTrim_cons (c : Char) (cs : List Char) (hc : c.isWhitespace = false) :
    jsTrim (c :: cs) = c :: (cs.reverse.dropWhile Char.isWhitespace).reverse := by
  unfold jsTrim
  rw [List.dropWhile_cons_of_neg (by simp [hc])]
  rw [show (c :: cs).reverse = cs.reverse ++ [c] by simp]
  rw [dropWhile_append_last _ _ _ hc]
  simp

theorem jsTrim_eq_self (l : List Char)
    (h1 : ∀ c, l.head? = some c → c.isWhitespace = false)
    (h2 : ∀ c, l.getLast? = some c → c.isWhitespace = false) :
    jsTrim l = l := by
  rcases l with _ | ⟨c, cs⟩
  · rfl
  · rw [jsTrim_cons c cs (h1 c rfl)]
    rcases hcs : cs.reverse with _ | ⟨d, ds⟩
    · simp at hcs
      simp [hcs]
    · have hd : cs.getLast? = some d := by
        rw [← List.head?_reverse, hcs]
        rfl
      have : (c :: cs).getLast? = some d := by
        rw [List.getLast?_cons, hd]
        rfl
      rw [List.dropWhile_cons_of_neg (by simp [h2 d this])]
      rw [← hcs]
      simp

theorem startsSeq_mem (hay : List Char) (c : Char) (ns : List Char)
    (h : startsSeq hay (c :: ns) = true) : hay.head? = some c := by
  rcases hay with _ | ⟨d, ds⟩
  · simp [startsSeq] at h
  · simp only [startsSeq, Bool.and_eq_true, decide_eq_true_eq] at h
    simp [h.1]

theorem subSeq_head_mem (hay : List Char) (c : Char) (ns : List Char)
    (h : subSeq hay (c :: ns) = true) : c ∈ hay := by
  induction hay with
  | nil => simp [subSeq, startsSeq] at h
  | cons d ds ih =>
    rw [subSeq, Bool.or_eq_true] at h
    rcases h with h | h
    · have := startsSeq_mem _ _ _ h
      simp only [List.head?_cons, Option.some.injEq] at this
      simp [this]
    · exact List.mem_cons_of_mem d (ih h)

theorem subSeq_eq_false (hay : List Char) (c : Char) (h : c ∉ hay) :
    ∀ ns, subSeq hay (c :: ns) = false := by
  intro ns
  rcases hs : subSeq hay (c :: ns) with _ | _
  · rfl
  · exact absurd (subSeq_head_mem hay c ns hs) h

theorem penTokens_false (l : List Char) (hZ : 'Z' ∉ l) (hS : 'S' ∉ l) :
    subSeq l (strL "Z5") = false ∧ subSeq l (strL "Z 5") = false ∧
    subSeq l (strL "S0") = false ∧ subSeq l (strL "Z0") = false ∧
    subSeq l (strL "Z 0") = false ∧ subSeq l (strL "S90") = false :=
  ⟨subSeq_eq_false _ _ hZ _, subSeq_eq_false _ _ hZ _, subSeq_eq_false _ _ hS _,
   subSeq_eq_false _ _ hZ _, subSeq_eq_false _ _ hZ _, subSeq_eq_false _ _ hS _⟩

theorem parseLine_comment (st : ParseSt) (rest : List Char) :
    parseLine st (';' :: rest) = (st, []) := by
  have hsemi : (';' : Char).isWhitespace = false := by decide
  obtain ⟨t, ht⟩ : ∃ t, jsTrim (';' :: rest) = ';' :: t :=
    ⟨_, jsTrim_cons ';' rest hsemi⟩
  unfold parseLine
  rw [ht]
  simp [startsSeq, strL]

theorem parseLine_empty (st : ParseSt) : parseLine st [] = (st, []) := rfl

/-! ### Scanning lemmas for the coordinate regexes -/

theorem findNum_cons_not (tok : Char → Bool) (neg : Bool) (c : Char) (r : List Char)
    (h : tok c = false) : findNum tok neg (c :: r) = findNum tok neg r := by
  simp [findNum, h]

theorem findNum_append_not (tok : Char → Bool) (neg : Bool) (l r : List Char)
    (h : ∀ c ∈ l, tok c = false) :
    findNum tok neg (l ++ r) = findNum tok neg r := by
  induction l with
  | nil => rfl
  | cons c cs ih =>
    rw [List.cons_append, findNum_cons_not _ _ _ _ (h c (List.mem_cons_self c cs))]
    exact ih fun d hd => h d (List.mem_cons_of_mem c hd)

theorem takeWhile_digits_append (ds r : List Char)
    (h1 : ∀ c ∈ ds, c.isDigit = true)
    (h2 : ∀ c, r.head? = some c → c.isDigit = false) :
    (ds ++ r).takeWhile Char.isDigit = ds ∧ (ds ++ r).dropWhile Char.isDigit = r := by
  induction ds with
  | nil =>
    rcases r with _ | ⟨c, cs⟩
    · exact ⟨rfl, rfl⟩
    · have := h2 c rfl
      constructor
      · simp [List.takeWhile_cons, this]
      · simp [List.dropWhile_cons, this]
  | cons d ds ih =>
    have hd := h1 d (List.mem_cons_self d ds)
    have hrec := ih fun c hc => h1 c (List.mem_cons_of_mem d hc)
    constructor
    · simp [List.takeWhile_cons, hd, hrec.1]
    · simp [List.dropWhile_cons, hd, hrec.2]

theorem numCore_decimal (ds ds2 r : List Char)
    (hne : ds ≠ [])
    (h1 : ∀ c ∈ ds, c.isDigit = true)
    (h2 : ∀ c ∈ ds2, c.isDigit = true)
    (hr : ∀ c, r.head? = some c → (c.isDigit = false ∧ c ≠ '.')) :
    numCore (ds ++ '.' :: ds2 ++ r) = some (ds ++ '.' :: ds2) := by
  have hdot : ∀ c, ('.' :: ds2 ++ r).head? = some c → c.isDigit = false := by
    intro c hc
    simp only [List.cons_append, List.head?_cons, Option.some.injEq] at hc
    rw [← hc]
    decide
  have key := takeWhile_digits_append ds ('.' :: ds2 ++ r) h1 hdot
  have key2 := takeWhile_digits_append ds2 r h2 fun c hc => (hr c hc).1
  unfold numCore
  rw [show ds ++ '.' :: ds2 ++ r = ds ++ ('.' :: ds2 ++ r) by simp]
  rw [key.1, key.2]
  have hempty : ds.isEmpty = false := by
    rcases ds with _ | _
    · exact absurd rfl hne
    · rfl
  simp only [hempty, Bool.false_eq_true, if_false, List.cons_append, List.head?_cons,
    if_pos rfl, List.tail_cons, reduceIte]
  rw [key2.1]

theorem numCore_int (ds r : List Char)
    (hne : ds ≠ [])
    (h1 : ∀ c ∈ ds, c.isDigit = true)
    (hr : ∀ c, r.head? = some c → (c.isDigit = false ∧ c ≠ '.')) :
    numCore (ds ++ r) = some ds := by
  have key := takeWhile_digits_append ds r h1 fun c hc => (hr c hc).1
  unfold numCore
  rw [key.1, key.2]
  have hempty : ds.isEmpty = false := by
    rcases ds with _ | _
    · exact absurd rfl hne
    · rfl
  have hnodot : (r.head? = some '.') = False := by
    simp only [eq_iff_iff, iff_false]
    intro hc
    exact (hr '.' hc).2 rfl
  simp [hempty, hnodot]

/-! ### Digit strings and their numeric values -/

theorem digitCh_isDigit (n : ℕ) : (digitCh n).isDigit = true := by
  have h : n % 10 < 10 := Nat.mod_lt n (by norm_num)
  unfold digitCh
  generalize n % 10 = m at *
  interval_cases m <;> rfl

theorem digitCh_toNat (n : ℕ) : (digitCh n).toNat = 48 + n % 10 := by
  have h : n % 10 < 10 := Nat.mod_lt n (by norm_num)
  unfold digitCh
  generalize n % 10 = m at *
  interval_cases m <;> rfl

theorem digitCh_not_ws (n : ℕ) : (digitCh n).isWhitespace = false := by
  have h : n % 10 < 10 := Nat.mod_lt n (by norm_num)
  unfold digitCh
  generalize n % 10 = m at *
  interval_cases m <;> rfl

theorem natStrGo_digits (f n : ℕ) : ∀ c ∈ natStrGo f n, c.isDigit = true := by
  induction f generalizing n with
  | zero => intro c hc; simp [natStrGo] at hc
  | succ f ih =>
    intro c hc
    unfold natStrGo at hc
    by_cases h : n < 10
    · rw [if_pos h] at hc
      simp at hc
      rw [hc]; exact digitCh_isDigit n
    · rw [if_neg h] at hc
      rcases List.mem_append.mp hc with h1 | h2
      · exact ih (n / 10) c h1
      · simp at h2
        rw [h2]; exact digitCh_isDigit (n % 10)

theorem natStr_digits (n : ℕ) : ∀ c ∈ natStr n, c.isDigit = true :=
  natStrGo_digits (n + 1) n

theorem natStrGo_ne_nil (f n : ℕ) : natStrGo (f + 1) n ≠ [] := by
  unfold natStrGo
  by_cases h : n < 10
  · simp [h]
  · simp [h]

theorem natStr_ne_nil (n : ℕ) : natStr n ≠ [] := natStrGo_ne_nil n n

theorem digitsVal_nil (acc : ℕ) : digitsVal acc [] = acc := rfl

theorem digitsVal_cons (acc : ℕ) (c : Char) (rest : List Char) :
    digitsVal acc (c :: rest) = digitsVal (acc * 10 + (c.toNat - 48)) rest := rfl

theorem natStrGo_succ (f n : ℕ) : natStrGo (f + 1) n =
    if n < 10 then [digitCh n] else natStrGo f (n / 10) ++ [digitCh (n % 10)] := rfl

theorem digitsVal_append (acc : ℕ) (a b : List Char) :
    digitsVal acc (a ++ b) = digitsVal (digitsVal acc a) b := by
  induction a generalizing acc with
  | nil => rfl
  | cons c cs ih => rw [List.cons_append, digitsVal_cons, digitsVal_cons, ih]

theorem digitsVal_natStrGo (f : ℕ) : ∀ n, n < 10 ^ f → ∀ acc,
    digitsVal acc (natStrGo f n) = acc * 10 ^ (natStrGo f n).length + n := by
  induction f with
  | zero =>
    intro n hn acc
    have hn0 : n = 0 := by simpa using hn
    subst hn0
    show digitsVal acc [] = acc * 10 ^ (List.length []) + 0
    rw [digitsVal_nil]
    simp
  | succ f ih =>
    intro n hn acc
    rw [natStrGo_succ]
    by_cases h : n < 10
    · rw [if_pos h, digitsVal_cons, digitsVal_nil, digitCh_toNat]
      simp only [List.length_cons, List.length_nil, pow_one]
      omega
    · rw [if_neg h]
      have hdiv : n / 10 < 10 ^ f := by
        rw [Nat.div_lt_iff_lt_mul (by norm_num)]
        calc n < 10 ^ (f + 1) := hn
        _ = 10 ^ f * 10 := by ring
      rw [digitsVal_append, ih (n / 10) hdiv acc, digitsVal_cons, digitsVal_nil,
        digitCh_toNat]
      simp only [List.length_append, List.length_cons, List.length_nil]
      rw [pow_succ, ← mul_assoc]
      generalize acc * 10 ^ (natStrGo f (n / 10)).length = A
      omega

theorem digitsVal_natStr (n : ℕ) : digitsVal 0 (natStr n) = n := by
  have h : n < 10 ^ (n + 1) := by
    calc n < 2 ^ n := Nat.lt_two_pow n
    _ ≤ 10 ^ n := Nat.pow_le_pow_left (by norm_num) n
    _ ≤ 10 ^ (n + 1) := Nat.pow_le_pow_right (by norm_num) (Nat.le_succ n)
  have := digitsVal_natStrGo (n + 1) n h 0
  simpa [natStr] using this

theorem fracVal_nil : fracVal [] = 0 := rfl

theorem fracVal_cons (c : Char) (rest : List Char) :
    fracVal (c :: rest) = ((c.toNat - 48 : ℕ) + fracVal rest) / 10 := rfl

theorem fracVal_twoDigits (m : ℕ) (h : m < 100) :
    fracVal (twoDigits m) = (m : ℚ) / 100 := by
  have e1 : ((digitCh (m / 10)).toNat - 48 : ℕ) = m / 10 := by
    rw [digitCh_toNat]; omega
  have e2 : ((digitCh m).toNat - 48 : ℕ) = m % 10 := by
    rw [digitCh_toNat]; omega
  have hq : (m : ℚ) = 10 * ((m / 10 : ℕ) : ℚ) + ((m % 10 : ℕ) : ℚ) := by
    have hm : (10 * (m / 10) + m % 10 : ℕ) = m := by omega
    exact_mod_cast (congrArg (Nat.cast (R := ℚ)) hm).symm
  unfold twoDigits
  rw [fracVal_cons, fracVal_cons, fracVal_nil, e1, e2, hq]
  ring

theorem char_ne_of_digit (c d : Char) (h : c.isDigit = true) (hd : d.isDigit = false) :
    c ≠ d := by
  intro he
  rw [he, hd] at h
  exact Bool.false_ne_true h

theorem takeWhile_digits_self (ds : List Char) (h : ∀ c ∈ ds, c.isDigit = true) :
    ds.takeWhile Char.isDigit = ds ∧ ds.dropWhile Char.isDigit = [] := by
  have := takeWhile_digits_append ds [] h (by intro c hc; simp at hc)
  simpa using this

theorem parseFloatNN_decimal (ds ds2 : List Char)
    (h1 : ∀ c ∈ ds, c.isDigit = true) (h2 : ∀ c ∈ ds2, c.isDigit = true) :
    parseFloatNN (ds ++ '.' :: ds2) = (digitsVal 0 ds : ℚ) + fracVal ds2 := by
  have hdot : ∀ c, ('.' :: ds2).head? = some c → c.isDigit = false := by
    intro c hc
    simp only [List.head?_cons, Option.some.injEq] at hc
    rw [← hc]; decide
  have key := takeWhile_digits_append ds ('.' :: ds2) h1 hdot
  have key2 := takeWhile_digits_self ds2 h2
  unfold parseFloatNN
  rw [key.1, key.2]
  simp only [List.head?_cons, if_pos rfl, List.tail_cons, reduceIte]
  rw [key2.1]

theorem parseFloatNN_int (ds : List Char) (h1 : ∀ c ∈ ds, c.isDigit = true) :
    parseFloatNN ds = (digitsVal 0 ds : ℚ) := by
  have key := takeWhile_digits_self ds h1
  unfold parseFloatNN
  rw [key.1, key.2]
  simp

theorem parseFloatQ_of_digit_head (cs : List Char)
    (h : ∀ c, cs.head? = some c → c.isDigit = true) :
    parseFloatQ cs = parseFloatNN cs := by
  rcases cs with _ | ⟨c, rest⟩
  · rfl
  · have hc : c.isDigit = true := h c rfl
    have : ¬(c = '-') := char_ne_of_digit c '-' hc (by decide)
    simp [parseFloatQ, this]

theorem parseFloatQ_natStr (n : ℕ) : parseFloatQ (natStr n) = (n : ℚ) := by
  have hd := natStr_digits n
  have hnn : natStr n ≠ [] := natStr_ne_nil n
  rw [parseFloatQ_of_digit_head]
  · rw [parseFloatNN_int _ hd, digitsVal_natStr]
  · intro c hc
    exact hd c (List.mem_of_mem_head? hc)

theorem natStr_head_digit (n : ℕ) :
    ∀ c, (natStr n).head? = some c → c.isDigit = true := by
  intro c hc
  exact natStr_digits n c (List.mem_of_mem_head? hc)

theorem twoDigits_digits (m : ℕ) : ∀ c ∈ twoDigits m, c.isDigit = true := by
  intro c hc
  unfold twoDigits at hc
  rcases List.mem_cons.mp hc with h | h
  · rw [h]; exact digitCh_isDigit _
  · rw [List.mem_singleton.mp h]; exact digitCh_isDigit _

theorem parseFloatNN_fixed2Abs (q : ℚ) :
    parseFloatNN (fixed2Abs q) = ((⌊q * 100 + 1 / 2⌋.toNat : ℕ) : ℚ) / 100 := by
  unfold fixed2Abs
  rw [parseFloatNN_decimal _ _ (natStr_digits _) (twoDigits_digits _)]
  rw [digitsVal_natStr, fracVal_twoDigits _ (Nat.mod_lt _ (by norm_num))]
  generalize ⌊q * 100 + 1 / 2⌋.toNat = n
  have hq : (n : ℚ) = 100 * ((n / 100 : ℕ) : ℚ) + ((n % 100 : ℕ) : ℚ) := by
    have hm : (100 * (n / 100) + n % 100 : ℕ) = n := by omega
    exact_mod_cast (congrArg (Nat.cast (R := ℚ)) hm).symm
  rw [hq]
  ring

theorem fixed2Abs_head_digit (q : ℚ) :
    ∀ c, (fixed2Abs q).head? = some c → c.isDigit = true := by
  intro c hc
  unfold fixed2Abs at hc
  rw [List.head?_append_of_ne_nil _ (natStr_ne_nil _)] at hc
  exact natStr_head_digit _ c hc

theorem parseFloatQ_fixed2 (q : ℚ) : parseFloatQ (fixed2 q) = round2 q := by
  unfold fixed2 round2
  by_cases h : q < 0
  · rw [if_pos h, if_pos h]
    have : parseFloatQ ('-' :: fixed2Abs (-q)) = -(parseFloatNN (fixed2Abs (-q))) := by
      simp [parseFloatQ]
    rw [this, parseFloatNN_fixed2Abs]
    have hnn : (0 : ℤ) ≤ ⌊-q * 100 + 1 / 2⌋ := by
      apply Int.floor_nonneg.mpr
      nlinarith
    have hcast : ((⌊-q * 100 + 1 / 2⌋.toNat : ℕ) : ℚ) = ((⌊-q * 100 + 1 / 2⌋ : ℤ) : ℚ) := by
      exact_mod_cast congrArg (fun z : ℤ => (z : ℚ)) (Int.toNat_of_nonneg hnn)
    rw [hcast]
  · rw [if_neg h, if_neg h]
    rw [parseFloatQ_of_digit_head _ (fixed2Abs_head_digit q), parseFloatNN_fixed2Abs]
    have hnn : (0 : ℤ) ≤ ⌊q * 100 + 1 / 2⌋ := by
      apply Int.floor_nonneg.mpr
      push_neg at h
      nlinarith
    have hcast : ((⌊q * 100 + 1 / 2⌋.toNat : ℕ) : ℚ) = ((⌊q * 100 + 1 / 2⌋ : ℤ) : ℚ) := by
      exact_mod_cast congrArg (fun z : ℤ => (z : ℚ)) (Int.toNat_of_nonneg hnn)
    rw [hcast]

theorem fixed2Abs_chars (q : ℚ) :
    ∀ c ∈ fixed2Abs q, c.isDigit = true ∨ c = '.' := by
  intro c hc
  unfold fixed2Abs at hc
  rcases List.mem_append.mp hc with h | h
  · exact Or.inl (natStr_digits _ c h)
  · rcases List.mem_cons.mp h with h1 | h1
    · exact Or.inr h1
    · exact Or.inl (twoDigits_digits _ c h1)

theorem fixed2_chars (q : ℚ) :
    ∀ c ∈ fixed2 q, c.isDigit = true ∨ c = '.' ∨ c = '-' := by
  intro c hc
  unfold fixed2 at hc
  by_cases h : q < 0
  · rw [if_pos h] at hc
    rcases List.mem_cons.mp hc with h1 | h1
    · exact Or.inr (Or.inr h1)
    · rcases fixed2Abs_chars _ c h1 with h2 | h2
      · exact Or.inl h2
      · exact Or.inr (Or.inl h2)
  · rw [if_neg h] at hc
    rcases fixed2Abs_chars _ c hc with h2 | h2
    · exact Or.inl h2
    · exact Or.inr (Or.inl h2)

/-! ### Reading the emitted move lines back -/

theorem not_mem_fixed2 (c : Char) (q : ℚ) (h1 : c.isDigit = false) (h2 : c ≠ '.')
    (h3 : c ≠ '-') : c ∉ fixed2 q := by
  intro hm
  rcases fixed2_chars q c hm with h | h | h
  · rw [h] at h1; exact Bool.noConfusion h1
  · exact h2 h
  · exact h3 h

theorem not_mem_natStr (c : Char) (n : ℕ) (h1 : c.isDigit = false) : c ∉ natStr n := by
  intro hm
  have := natStr_digits n c hm
  rw [this] at h1
  exact Bool.noConfusion h1

theorem tok_false_of_digit (c t1 t2 : Char) (h : c.isDigit = true)
    (h1 : t1.isDigit = false) (h2 : t2.isDigit = false) :
    (c = t1 || c = t2 : Bool) = false := by
  have e1 : ¬(c = t1) := char_ne_of_digit c t1 h h1
  have e2 : ¬(c = t2) := char_ne_of_digit c t2 h h2
  simp [e1, e2]

theorem numCapture_cons (neg : Bool) (c : Char) (rest : List Char) :
    numCapture neg (c :: rest) =
      if c = '-' ∧ neg = true then (numCore rest).map ('-' :: ·)
      else numCore (c :: rest) := rfl

theorem findNum_cons_tok (tok : Char → Bool) (neg : Bool) (c : Char) (r : List Char)
    (h : tok c = true) (cap : List Char) (hcap : numCapture neg r = some cap) :
    findNum tok neg (c :: r) = some cap := by
  unfold findNum
  rw [h, hcap]
  simp

theorem numCapture_natStr (n : ℕ) (neg : Bool) (tail : List Char)
    (htail : ∀ c, tail.head? = some c → (c.isDigit = false ∧ c ≠ '.')) :
    numCapture neg (natStr n ++ tail) = some (natStr n) := by
  rcases hn : natStr n with _ | ⟨d, ds⟩
  · exact absurd hn (natStr_ne_nil n)
  · have hd : d.isDigit = true := natStr_digits n d (hn ▸ List.mem_cons_self d ds)
    have hdm : ¬(d = '-') := char_ne_of_digit d '-' hd (by decide)
    rw [List.cons_append, numCapture_cons]
    rw [if_neg (by intro hand; exact hdm hand.1)]
    rw [← List.cons_append, ← hn]
    exact numCore_int _ _ (hn ▸ natStr_ne_nil n) (natStr_digits n) htail

theorem numCapture_fixed2 (a : ℚ) (tail : List Char)
    (htail : ∀ c, tail.head? = some c → (c.isDigit = false ∧ c ≠ '.')) :
    numCapture true (fixed2 a ++ tail) = some (fixed2 a) := by
  have core : ∀ q : ℚ, numCore (fixed2Abs q ++ tail) = some (fixed2Abs q) := by
    intro q
    unfold fixed2Abs
    have := numCore_decimal (natStr (⌊q * 100 + 1 / 2⌋.toNat / 100))
      (twoDigits (⌊q * 100 + 1 / 2⌋.toNat % 100)) tail (natStr_ne_nil _)
      (natStr_digits _) (twoDigits_digits _) htail
    rw [← this]
  unfold fixed2
  by_cases h : a < 0
  · rw [if_pos h, List.cons_append, numCapture_cons]
    rw [if_pos ⟨rfl, rfl⟩, core]
    rfl
  · rw [if_neg h]
    rcases hn : fixed2Abs a with _ | ⟨d, ds⟩
    · have : (fixed2Abs a).head? = none := by rw [hn]; rfl
      unfold fixed2Abs at this
      rw [List.head?_append_of_ne_nil _ (natStr_ne_nil _)] at this
      rcases hm : natStr (⌊a * 100 + 1 / 2⌋.toNat / 100) with _ | _
      · exact absurd hm (natStr_ne_nil _)
      · rw [hm] at this; exact Option.noConfusion this
    · have hd : d.isDigit = true := by
        apply fixed2Abs_head_digit a
        rw [hn]; rfl
      have hdm : ¬(d = '-') := char_ne_of_digit d '-' hd (by decide)
      rw [List.cons_append, numCapture_cons]
      rw [if_neg (by intro hand; exact hdm hand.1)]
      rw [← List.cons_append, ← hn, core]

theorem fixed2_tok_false (q : ℚ) (t1 t2 : Char)
    (h1 : t1.isDigit = false) (h2 : t2.isDigit = false)
    (hd1 : t1 ≠ '.') (hd2 : t2 ≠ '.') (hm1 : t1 ≠ '-') (hm2 : t2 ≠ '-') :
    ∀ c ∈ fixed2 q, (c = t1 || c = t2 : Bool) = false := by
  intro c hc
  rcases fixed2_chars q c hc with h | h | h
  · exact tok_false_of_digit c t1 t2 h h1 h2
  · rw [h]; simp [Ne.symm hd1, Ne.symm hd2]
  · rw [h]; simp [Ne.symm hm1, Ne.symm hm2]

theorem natStr_tok_false (n : ℕ) (t1 t2 : Char)
    (h1 : t1.isDigit = false) (h2 : t2.isDigit = false) :
    ∀ c ∈ natStr n, (c = t1 || c = t2 : Bool) = false := by
  intro c hc
  exact tok_false_of_digit c t1 t2 (natStr_digits n c hc) h1 h2

theorem travelLine_assoc (cfg : MachineConfig) (p : Pt) :
    travelLine cfg p = strL "G0 X" ++ (fixed2 (toMm cfg p.x) ++ (strL " Y" ++
      (fixed2 (toMm cfg p.y) ++ (strL " F" ++ (natStr cfg.travelRate ++
        strL " ; travel to start"))))) := by
  simp [travelLine, List.append_assoc]

theorem drawLine_assoc (cfg : MachineConfig) (p : Pt) :
    drawLine cfg p = strL "G1 X" ++ (fixed2 (toMm cfg p.x) ++ (strL " Y" ++
      (fixed2 (toMm cfg p.y) ++ (strL " F" ++ natStr cfg.feedRate)))) := by
  simp [drawLine, List.append_assoc]

theorem head_space_stop : ∀ cc : Char, ∀ r : List Char,
    ((' ' :: r : List Char).head? = some cc) → cc.isDigit = false ∧ cc ≠ '.' := by
  intro cc r hcc
  simp only [List.head?_cons, Option.some.injEq] at hcc
  rw [← hcc]
  exact ⟨by decide, by decide⟩

theorem head_nil_stop : ∀ cc : Char, (([] : List Char).head? = some cc) →
    cc.isDigit = false ∧ cc ≠ '.' := by
  intro cc hcc
  exact Option.noConfusion hcc

theorem head_append_stop (l r : List Char) (hl : l ≠ [])
    (h : ∀ cc, l.head? = some cc → cc.isDigit = false ∧ cc ≠ '.') :
    ∀ cc, ((l ++ r).head? = some cc) → cc.isDigit = false ∧ cc ≠ '.' := by
  intro cc hcc
  rw [List.head?_append_of_ne_nil _ hl] at hcc
  exact h cc hcc

/-- `findX`, `findY` and `findF` on a travel line. -/
theorem find_travelLine (cfg : MachineConfig) (p : Pt) :
    findX (travelLine cfg p) = some (fixed2 (toMm cfg p.x)) ∧
    findY (travelLine cfg p) = some (fixed2 (toMm cfg p.y)) ∧
    findF (travelLine cfg p) = some (natStr cfg.travelRate) := by
  rw [travelLine_assoc]
  have hY : ∀ cc, (strL " Y" ++ (fixed2 (toMm cfg p.y) ++ (strL " F" ++
      (natStr cfg.travelRate ++ strL " ; travel to start")))).head? = some cc →
      cc.isDigit = false ∧ cc ≠ '.' :=
    head_append_stop _ _ (by decide) (fun cc h => head_space_stop cc _ h)
  have hF : ∀ cc, (strL " F" ++ (natStr cfg.travelRate ++
      strL " ; travel to start")).head? = some cc →
      cc.isDigit = false ∧ cc ≠ '.' :=
    head_append_stop _ _ (by decide) (fun cc h => head_space_stop cc _ h)
  have hSemi : ∀ cc, (strL " ; travel to start").head? = some cc →
      cc.isDigit = false ∧ cc ≠ '.' := by
    intro cc hcc
    simp only [strL] at hcc
    simp only [show (String.data " ; travel to start").head? = some ' ' from rfl,
      Option.some.injEq] at hcc
    rw [← hcc]
    exact ⟨by decide, by decide⟩
  refine ⟨?_, ?_, ?_⟩
  · show findNum _ _ (strL "G0 X" ++ _) = _
    rw [show (strL "G0 X" : List Char) = strL "G0 " ++ ['X'] from rfl, List.append_assoc]
    rw [findNum_append_not _ _ _ _ (by decide), List.cons_append]
    exact findNum_cons_tok _ _ _ _ (by decide) _ (numCapture_fixed2 _ _ hY)
  · show findNum _ _ (strL "G0 X" ++ _) = _
    rw [findNum_append_not _ _ _ _ (by decide)]
    rw [findNum_append_not _ _ _ _ (fixed2_tok_false _ 'Y' 'y' (by decide) (by decide)
      (by decide) (by decide) (by decide) (by decide))]
    rw [show (strL " Y" : List Char) = [' '] ++ ['Y'] from rfl, List.append_assoc]
    rw [findNum_append_not _ _ _ _ (by decide), List.cons_append]
    exact findNum_cons_tok _ _ _ _ (by decide) _ (numCapture_fixed2 _ _ hF)
  · show findNum _ _ (strL "G0 X" ++ _) = _
    rw [findNum_append_not _ _ _ _ (by decide)]
    rw [findNum_append_not _ _ _ _ (fixed2_tok_false _ 'F' 'f' (by decide) (by decide)
      (by decide) (by decide) (by decide) (by decide))]
    rw [findNum_append_not _ _ _ _ (by decide)]
    rw [findNum_append_not _ _ _ _ (fixed2_tok_false _ 'F' 'f' (by decide) (by decide)
      (by decide) (by decide) (by decide) (by decide))]
    rw [show (strL " F" : List Char) = [' '] ++ ['F'] from rfl, List.append_assoc]
    rw [findNum_append_not _ _ _ _ (by decide), List.cons_append]
    exact findNum_cons_tok _ _ _ _ (by decide) _ (numCapture_natStr _ _ _ hSemi)

/-- `findX`, `findY` and `findF` on a draw line. -/
theorem find_drawLine (cfg : MachineConfig) (p : Pt) :
    findX (drawLine cfg p) = some (fixed2 (toMm cfg p.x)) ∧
    findY (drawLine cfg p) = some (fixed2 (toMm cfg p.y)) ∧
    findF (drawLine cfg p) = some (natStr cfg.feedRate) := by
  rw [drawLine_assoc]
  have hY : ∀ cc, (strL " Y" ++ (fixed2 (toMm cfg p.y) ++ (strL " F" ++
      natStr cfg.feedRate))).head? = some cc → cc.isDigit = false ∧ cc ≠ '.' :=
    head_append_stop _ _ (by decide) (fun cc h => head_space_stop cc _ h)
  have hF : ∀ cc, (strL " F" ++ natStr cfg.feedRate).head? = some cc →
      cc.isDigit = false ∧ cc ≠ '.' :=
    head_append_stop _ _ (by decide) (fun cc h => head_space_stop cc _ h)
  refine ⟨?_, ?_, ?_⟩
  · show findNum _ _ (strL "G1 X" ++ _) = _
    rw [show (strL "G1 X" : List Char) = strL "G1 " ++ ['X'] from rfl, List.append_assoc]
    rw [findNum_append_not _ _ _ _ (by decide), List.cons_append]
    exact findNum_cons_tok _ _ _ _ (by decide) _ (numCapture_fixed2 _ _ hY)
  · show findNum _ _ (strL "G1 X" ++ _) = _
    rw [findNum_append_not _ _ _ _ (by decide)]
    rw [findNum_append_not _ _ _ _ (fixed2_tok_false _ 'Y' 'y' (by decide) (by decide)
      (by decide) (by decide) (by decide) (by decide))]
    rw [show (strL " Y" : List Char) = [' '] ++ ['Y'] from rfl, List.append_assoc]
    rw [findNum_append_not _ _ _ _ (by decide), List.cons_append]
    exact findNum_cons_tok _ _ _ _ (by decide) _ (numCapture_fixed2 _ _ hF)
  · show findNum _ _ (strL "G1 X" ++ _) = _
    rw [findNum_append_not _ _ _ _ (by decide)]
    rw [findNum_append_not _ _ _ _ (fixed2_tok_false _ 'F' 'f' (by decide) (by decide)
      (by decide) (by decide) (by decide) (by decide))]
    rw [findNum_append_not _ _ _ _ (by decide)]
    rw [findNum_append_not _ _ _ _ (fixed2_tok_false _ 'F' 'f' (by decide) (by decide)
      (by decide) (by decide) (by decide) (by decide))]
    rw [show (strL " F" : List Char) = [' '] ++ ['F'] from rfl, List.append_assoc]
    rw [findNum_append_not _ _ _ _ (by decide), List.cons_append]
    have hcap := numCapture_natStr cfg.feedRate false [] (fun cc h => Option.noConfusion h)
    exact findNum_cons_tok _ _ _ _ (by decide) _ (by simpa using hcap)

/-- The return-home line, in association-normal form. -/
theorem homeLine_assoc (cfg : MachineConfig) :
    strL "G0 X0 Y0 F" ++ natStr cfg.travelRate ++ strL " ; return home" =
      strL "G0 X0 Y0 F" ++ (natStr cfg.travelRate ++ strL " ; return home") := by
  simp [List.append_assoc]

/-- `findX`, `findY` and `findF` on the return-home line. -/
theorem find_homeLine (cfg : MachineConfig) :
    findX (strL "G0 X0 Y0 F" ++ (natStr cfg.travelRate ++ strL " ; return home")) =
      some ['0'] ∧
    findY (strL "G0 X0 Y0 F" ++ (natStr cfg.travelRate ++ strL " ; return home")) =
      some ['0'] ∧
    findF (strL "G0 X0 Y0 F" ++ (natStr cfg.travelRate ++ strL " ; return home")) =
      some (natStr cfg.travelRate) := by
  have hSemi : ∀ cc, (strL " ; return home").head? = some cc →
      cc.isDigit = false ∧ cc ≠ '.' := by
    intro cc hcc
    simp only [show (strL " ; return home").head? = some ' ' from rfl,
      Option.some.injEq] at hcc
    rw [← hcc]
    exact ⟨by decide, by decide⟩
  refine ⟨rfl, rfl, ?_⟩
  · show findNum _ _ (strL "G0 X0 Y0 F" ++ _) = _
    rw [show (strL "G0 X0 Y0 F" : List Char) = strL "G0 X0 Y0 " ++ ['F'] from rfl,
      List.append_assoc]
    rw [findNum_append_not _ _ _ _ (by decide), List.cons_append]
    exact findNum_cons_tok _ _ _ _ (by decide) _ (numCapture_natStr _ _ _ hSemi)

theorem startsSeq_cons_cons (c d : Char) (hs ns : List Char) :
    startsSeq (c :: hs) (d :: ns) = ((c = d : Bool) && startsSeq hs ns) := rfl

theorem startsSeq_semi_false (l : List Char) (c : Char) (h : l.head? = some c)
    (hc : (c = ';' : Bool) = false) : startsSeq l (strL ";") = false := by
  rcases l with _ | ⟨d, ds⟩
  · exact Option.noConfusion h
  · have hd : d = c := by simpa using h
    show startsSeq (d :: ds) (';' :: []) = false
    rw [startsSeq_cons_cons, hd, hc, Bool.false_and]

theorem not_mem_travelLine (cfg : MachineConfig) (p : Pt) (c : Char)
    (hd : c.isDigit = false) (hdot : c ≠ '.') (hm : c ≠ '-')
    (h1 : c ∉ strL "G0 X") (h2 : c ∉ strL " Y") (h3 : c ∉ strL " F")
    (h4 : c ∉ strL " ; travel to start") : c ∉ travelLine cfg p := by
  rw [travelLine_assoc]
  intro hmem
  simp only [List.mem_append] at hmem
  rcases hmem with h | h | h | h | h | h | h
  · exact h1 h
  · exact not_mem_fixed2 c _ hd hdot hm h
  · exact h2 h
  · exact not_mem_fixed2 c _ hd hdot hm h
  · exact h3 h
  · exact not_mem_natStr c _ hd h
  · exact h4 h

theorem not_mem_drawLine (cfg : MachineConfig) (p : Pt) (c : Char)
    (hd : c.isDigit = false) (hdot : c ≠ '.') (hm : c ≠ '-')
    (h1 : c ∉ strL "G1 X") (h2 : c ∉ strL " Y") (h3 : c ∉ strL " F") :
    c ∉ drawLine cfg p := by
  rw [drawLine_assoc]
  intro hmem
  simp only [List.mem_append] at hmem
  rcases hmem with h | h | h | h | h | h
  · exact h1 h
  · exact not_mem_fixed2 c _ hd hdot hm h
  · exact h2 h
  · exact not_mem_fixed2 c _ hd hdot hm h
  · exact h3 h
  · exact not_mem_natStr c _ hd h

theorem not_mem_homeLine (cfg : MachineConfig) (c : Char)
    (hd : c.isDigit = false)
    (h1 : c ∉ strL "G0 X0 Y0 F") (h2 : c ∉ strL " ; return home") :
    c ∉ strL "G0 X0 Y0 F" ++ (natStr cfg.travelRate ++ strL " ; return home") := by
  intro hmem
  simp only [List.mem_append] at hmem
  rcases hmem with h | h | h
  · exact h1 h
  · exact not_mem_natStr c _ hd h
  · exact h2 h

theorem jsTrim_travelLine (cfg : MachineConfig) (p : Pt) :
    jsTrim (travelLine cfg p) = travelLine cfg p := by
  apply jsTrim_eq_self
  · intro c hc
    rw [travelLine_assoc, List.head?_append_of_ne_nil _ (by decide)] at hc
    simp only [show (strL "G0 X").head? = some 'G' from rfl, Option.some.injEq] at hc
    rw [← hc]; decide
  · intro c hc
    rw [travelLine_assoc] at hc
    simp only [List.getLast?_append] at hc
    simp only [show (strL " ; travel to start").getLast? = some 't' from rfl,
      Option.or_some, Option.some.injEq] at hc
    rw [← hc]; decide

theorem digit_not_ws (c : Char) (h : c.isDigit = true) : c.isWhitespace = false := by
  unfold Char.isDigit at h
  have h1 := (Bool.and_eq_true _ _).mp h
  have hge : (48 : UInt32) ≤ c.val := by simpa using h1.1
  rcases hws : c.isWhitespace with _ | _
  · rfl
  · exfalso
    unfold Char.isWhitespace at hws
    simp only [Bool.or_eq_true, decide_eq_true_eq] at hws
    rcases hws with ((h2 | h2) | h2) | h2 <;>
      (rw [h2] at hge; exact absurd hge (by decide))

theorem jsTrim_drawLine (cfg : MachineConfig) (p : Pt) :
    jsTrim (drawLine cfg p) = drawLine cfg p := by
  apply jsTrim_eq_self
  · intro c hc
    rw [drawLine_assoc, List.head?_append_of_ne_nil _ (by decide)] at hc
    simp only [show (strL "G1 X").head? = some 'G' from rfl, Option.some.injEq] at hc
    rw [← hc]; decide
  · intro c hc
    rw [drawLine_assoc] at hc
    simp only [List.getLast?_append] at hc
    rcases hng : natStr cfg.feedRate with _ | ⟨e, es⟩
    · exact absurd hng (natStr_ne_nil _)
    · rw [hng, List.getLast?_eq_getLast (e :: es) (List.cons_ne_nil e es)] at hc
      simp only [Option.or_some, Option.some.injEq] at hc
      have hdig : ((e :: es).getLast (List.cons_ne_nil e es)).isDigit = true := by
        apply natStr_digits cfg.feedRate
        rw [hng]
        exact List.getLast_mem (List.cons_ne_nil e es)
      rw [← hc]
      exact digit_not_ws _ hdig

theorem isEmpty_false_of_head (l : List Char) (c : Char) (h : l.head? = some c) :
    l.isEmpty = false := by
  rcases l with _ | _
  · exact Option.noConfusion h
  · rfl

theorem travelLine_head (cfg : MachineConfig) (p : Pt) :
    (travelLine cfg p).head? = some 'G' := by
  rw [travelLine_assoc, List.head?_append_of_ne_nil _ (by decide)]
  rfl

theorem drawLine_head (cfg : MachineConfig) (p : Pt) :
    (drawLine cfg p).head? = some 'G' := by
  rw [drawLine_assoc, List.head?_append_of_ne_nil _ (by decide)]
  rfl

theorem homeLine_head (cfg : MachineConfig) :
    (strL "G0 X0 Y0 F" ++ (natStr cfg.travelRate ++ strL " ; return home")).head? =
      some 'G' := by
  rw [List.head?_append_of_ne_nil _ (by decide)]
  rfl

theorem jsTrim_homeLine (cfg : MachineConfig) :
    jsTrim (strL "G0 X0 Y0 F" ++ (natStr cfg.travelRate ++ strL " ; return home")) =
      strL "G0 X0 Y0 F" ++ (natStr cfg.travelRate ++ strL " ; return home") := by
  apply jsTrim_eq_self
  · intro c hc
    rw [homeLine_head] at hc
    simp only [Option.some.injEq] at hc
    rw [← hc]; decide
  · intro c hc
    simp only [List.getLast?_append] at hc
    simp only [show (strL " ; return home").getLast? = some 'e' from rfl,
      Option.or_some, Option.some.injEq] at hc
    rw [← hc]; decide

/-- Parsing a travel line: a travel/draw move (by pen state) to the
rounded millimetre coordinates; the feed rate becomes the travel rate. -/
theorem parseLine_travel (cfg : MachineConfig) (st : ParseSt) (p : Pt) :
    parseLine st (travelLine cfg p) =
      (ParseSt.mk (round2 (toMm cfg p.x)) (round2 (toMm cfg p.y)) st.penDown
        (cfg.travelRate : ℚ),
       [ToolpathMove.mk (if st.penDown then MoveKind.draw else MoveKind.travel)
         (Pt.mk st.x st.y) (Pt.mk (round2 (toMm cfg p.x)) (round2 (toMm cfg p.y)))
         (cfg.travelRate : ℚ)]) := by
  have hZ : 'Z' ∉ travelLine cfg p :=
    not_mem_travelLine cfg p 'Z' (by decide) (by decide) (by decide)
      (by decide) (by decide) (by decide) (by decide)
  have hS : 'S' ∉ travelLine cfg p :=
    not_mem_travelLine cfg p 'S' (by decide) (by decide) (by decide)
      (by decide) (by decide) (by decide) (by decide)
  have hfind := find_travelLine cfg p
  have htrim := jsTrim_travelLine cfg p
  have hhead := travelLine_head cfg p
  have hp := penTokens_false _ hZ hS
  simp only [parseLine, htrim, isEmpty_false_of_head _ _ hhead,
    startsSeq_semi_false _ _ hhead (by decide), hp.1, hp.2.1, hp.2.2.1,
    hp.2.2.2.1, hp.2.2.2.2.1, hp.2.2.2.2.2, hfind.1, hfind.2.1, hfind.2.2, parseFloatQ_natStr,
    parseFloatQ_fixed2, Bool.or_false, Bool.false_or, Bool.or_self,
    Bool.false_eq_true, if_false, Option.isSome_some]

/-- Parsing a draw line: a draw/travel move (by pen state) to the
rounded millimetre coordinates; the feed rate becomes the feed rate. -/
theorem parseLine_draw (cfg : MachineConfig) (st : ParseSt) (p : Pt) :
    parseLine st (drawLine cfg p) =
      (ParseSt.mk (round2 (toMm cfg p.x)) (round2 (toMm cfg p.y)) st.penDown
        (cfg.feedRate : ℚ),
       [ToolpathMove.mk (if st.penDown then MoveKind.draw else MoveKind.travel)
         (Pt.mk st.x st.y) (Pt.mk (round2 (toMm cfg p.x)) (round2 (toMm cfg p.y)))
         (cfg.feedRate : ℚ)]) := by
  have hZ : 'Z' ∉ drawLine cfg p :=
    not_mem_drawLine cfg p 'Z' (by decide) (by decide) (by decide)
      (by decide) (by decide) (by decide)
  have hS : 'S' ∉ drawLine cfg p :=
    not_mem_drawLine cfg p 'S' (by decide) (by decide) (by decide)
      (by decide) (by decide) (by decide)
  have hfind := find_drawLine cfg p
  have htrim := jsTrim_drawLine cfg p
  have hhead := drawLine_head cfg p
  have hp := penTokens_false _ hZ hS
  simp only [parseLine, htrim, isEmpty_false_of_head _ _ hhead,
    startsSeq_semi_false _ _ hhead (by decide), hp.1, hp.2.1, hp.2.2.1,
    hp.2.2.2.1, hp.2.2.2.2.1, hp.2.2.2.2.2, hfind.1, hfind.2.1, hfind.2.2, parseFloatQ_natStr,
    parseFloatQ_fixed2, Bool.or_false, Bool.false_or, Bool.or_self,
    Bool.false_eq_true, if_false, Option.isSome_some]

/-- Parsing the return-home line: a move to the origin at the travel
rate. -/
theorem parseLine_home (cfg : MachineConfig) (st : ParseSt) :
    parseLine st (strL "G0 X0 Y0 F" ++ (natStr cfg.travelRate ++ strL " ; return home")) =
      (ParseSt.mk 0 0 st.penDown (cfg.travelRate : ℚ),
       [ToolpathMove.mk (if st.penDown then MoveKind.draw else MoveKind.travel)
         (Pt.mk st.x st.y) (Pt.mk 0 0) (cfg.travelRate : ℚ)]) := by
  have hZ : 'Z' ∉ strL "G0 X0 Y0 F" ++ (natStr cfg.travelRate ++ strL " ; return home") :=
    not_mem_homeLine cfg 'Z' (by decide) (by decide) (by decide)
  have hS : 'S' ∉ strL "G0 X0 Y0 F" ++ (natStr cfg.travelRate ++ strL " ; return home") :=
    not_mem_homeLine cfg 'S' (by decide) (by decide) (by decide)
  have hfind := find_homeLine cfg
  have htrim := jsTrim_homeLine cfg
  have hhead := homeLine_head cfg
  have hp := penTokens_false _ hZ hS
  have hzero : parseFloatQ ['0'] = 0 := by
    show parseFloatNN ['0'] = 0
    unfold parseFloatNN
    simp [digitsVal_cons, digitsVal_nil]
  simp only [parseLine, htrim, isEmpty_false_of_head _ _ hhead,
    startsSeq_semi_false _ _ hhead (by decide), hp.1, hp.2.1, hp.2.2.1,
    hp.2.2.2.1, hp.2.2.2.2.1, hp.2.2.2.2.2, hfind.1, hfind.2.1, hfind.2.2, parseFloatQ_natStr,
    hzero, Bool.or_false, Bool.false_or, Bool.or_self,
    Bool.false_eq_true, if_false, Option.isSome_some]

/-! ### Running the parser over the emitted line lists -/

theorem parseRun_nil (st : ParseSt) : parseRun st [] = [] := rfl

theorem parseRun_cons (st : ParseSt) (l : List Char) (ls : List (List Char)) :
    parseRun st (l :: ls) = (parseLine st l).2 ++ parseRun (parseLine st l).1 ls := rfl

theorem parseRunSt_nil (st : ParseSt) : parseRunSt st [] = st := rfl

theorem parseRunSt_cons (st : ParseSt) (l : List Char) (ls : List (List Char)) :
    parseRunSt st (l :: ls) = parseRunSt (parseLine st l).1 ls := rfl

theorem parseFloatQ_zero : parseFloatQ ['0'] = 0 := by
  show parseFloatNN ['0'] = 0
  unfold parseFloatNN
  simp [digitsVal_cons, digitsVal_nil]

/-- Parsing the `G92 X0 Y0 Z0` origin-set line: the pen flag is switched
on by the literal `Z0` token and a zero-length draw move at the origin is
emitted. -/
theorem parseLine_g92 (st : ParseSt) :
    parseLine st (strL "G92 X0 Y0 Z0 ; set current position as origin") =
      (ParseSt.mk 0 0 true st.feedRate,
       [ToolpathMove.mk MoveKind.draw (Pt.mk st.x st.y) (Pt.mk 0 0) st.feedRate]) := by
  have : parseLine st (strL "G92 X0 Y0 Z0 ; set current position as origin") =
      (ParseSt.mk (parseFloatQ ['0']) (parseFloatQ ['0']) true st.feedRate,
       [ToolpathMove.mk MoveKind.draw (Pt.mk st.x st.y)
         (Pt.mk (parseFloatQ ['0']) (parseFloatQ ['0'])) st.feedRate]) := rfl
  rw [this, parseFloatQ_zero]

/-- Parsing the header: exactly the `G92` zero-length draw move; the
state afterwards sits at the origin with the pen down. -/
theorem parseRun_headerLines (date : List Char) (cfg : MachineConfig) (st : ParseSt) :
    parseRun st (headerLines date cfg) =
      [ToolpathMove.mk MoveKind.draw (Pt.mk st.x st.y) (Pt.mk 0 0) st.feedRate] ∧
    parseRunSt st (headerLines date cfg) = ParseSt.mk 0 0 true st.feedRate := by
  have c1 : ∀ s : ParseSt,
      parseLine s (strL "; ============================================") = (s, []) :=
    fun s => rfl
  have c2 : ∀ s : ParseSt, parseLine s (strL "; Void-Satellite CNC Plotter") = (s, []) :=
    fun s => rfl
  have c3 : ∀ s : ParseSt, parseLine s (strL "; Generated: " ++ date) = (s, []) :=
    fun s => parseLine_comment s _
  have c4 : ∀ s : ParseSt, parseLine s (strL "; Work Area: " ++ (natStr cfg.bedWidth ++
      (strL "mm × " ++ (natStr cfg.bedHeight ++ strL "mm")))) = (s, []) :=
    fun s => parseLine_comment s _
  have c5 : ∀ s : ParseSt, parseLine s (strL "; Feed Rate: " ++ (natStr cfg.feedRate ++
      strL " mm/min")) = (s, []) :=
    fun s => parseLine_comment s _
  have c6 : ∀ s : ParseSt, parseLine s (strL "; Travel Rate: " ++ (natStr cfg.travelRate ++
      strL " mm/min")) = (s, []) :=
    fun s => parseLine_comment s _
  have c7 : ∀ s : ParseSt, parseLine s (strL "; G28 ; uncomment to home first") = (s, []) :=
    fun s => rfl
  have c8 : ∀ s : ParseSt, parseLine s (strL "G21 ; mm mode") = (s, []) := fun s => rfl
  have c9 : ∀ s : ParseSt, parseLine s (strL "G90 ; absolute positioning") = (s, []) :=
    fun s => rfl
  constructor <;>
    simp [headerLines, parseRun_cons, parseRunSt_cons, parseRun_nil, parseRunSt_nil,
      parseLine_empty, c1, c2, c3, c4, c5, c6, c7, c8, c9, parseLine_g92]

/-- Parsing a run of draw lines with the pen down: the chained draw
moves; the state ends at the rounded last point with the feed rate
set. -/
theorem parseRun_drawLines (cfg : MachineConfig) :
    ∀ (ps : List Pt) (st : ParseSt), st.penDown = true → ps ≠ [] →
    parseRun st (ps.map (drawLine cfg)) = specDraws cfg (Pt.mk st.x st.y) ps ∧
    parseRunSt st (ps.map (drawLine cfg)) =
      ParseSt.mk (roundPt cfg (ps.getLastD (Pt.mk 0 0))).x
        (roundPt cfg (ps.getLastD (Pt.mk 0 0))).y true (cfg.feedRate : ℚ) := by
  intro ps
  induction ps with
  | nil => intro st hpen hne; exact absurd rfl hne
  | cons p rest ih =>
    intro st hpen _
    rcases rest with _ | ⟨q, qs⟩
    · constructor
      · rw [List.map_cons, List.map_nil, parseRun_cons, parseLine_draw, parseRun_nil]
        simp [specDraws, roundPt, hpen]
      · rw [List.map_cons, List.map_nil, parseRunSt_cons, parseLine_draw, parseRunSt_nil]
        simp [roundPt, hpen]
    · have hrec := ih (ParseSt.mk (round2 (toMm cfg p.x)) (round2 (toMm cfg p.y))
        st.penDown (cfg.feedRate : ℚ)) (by simpa using hpen) (List.cons_ne_nil q qs)
      constructor
      · rw [List.map_cons, parseRun_cons, parseLine_draw]
        rw [show ((ParseSt.mk (round2 (toMm cfg p.x)) (round2 (toMm cfg p.y)) st.penDown
          (cfg.feedRate : ℚ), [ToolpathMove.mk (if st.penDown then MoveKind.draw
            else MoveKind.travel) (Pt.mk st.x st.y) (Pt.mk (round2 (toMm cfg p.x))
            (round2 (toMm cfg p.y))) (cfg.feedRate : ℚ)]).1) = ParseSt.mk
            (round2 (toMm cfg p.x)) (round2 (toMm cfg p.y)) st.penDown
            (cfg.feedRate : ℚ) from rfl]
        rw [hrec.1]
        simp [specDraws, roundPt, hpen]
      · rw [List.map_cons, parseRunSt_cons, parseLine_draw]
        rw [show ((ParseSt.mk (round2 (toMm cfg p.x)) (round2 (toMm cfg p.y)) st.penDown
          (cfg.feedRate : ℚ), [ToolpathMove.mk (if st.penDown then MoveKind.draw
            else MoveKind.travel) (Pt.mk st.x st.y) (Pt.mk (round2 (toMm cfg p.x))
            (round2 (toMm cfg p.y))) (cfg.feedRate : ℚ)]).1) = ParseSt.mk
            (round2 (toMm cfg p.x)) (round2 (toMm cfg p.y)) st.penDown
            (cfg.feedRate : ℚ) from rfl]
        rw [hrec.2]
        simp [List.getLastD_cons]

/-- Parsing the lines of one emitted path block (default pen commands):
a travel move from the current position to the rounded start, then the
chained draw moves; the state ends on the rounded last point with the
pen down. -/
theorem parseRun_block (cfg : MachineConfig)
    (hup : cfg.penUpCmd = strL "G0 Z5") (hdn : cfg.penDownCmd = strL "G1 Z0")
    (k : ℕ) (p0 : Pt) (ps : List Pt) (hps : ps ≠ []) (st : ParseSt) :
    parseRun st (blockLines cfg k (p0 :: ps)) =
      ToolpathMove.mk MoveKind.travel (Pt.mk st.x st.y) (roundPt cfg p0)
        (cfg.travelRate : ℚ) :: specDraws cfg (roundPt cfg p0) ps ∧
    parseRunSt st (blockLines cfg k (p0 :: ps)) =
      ParseSt.mk (roundPt cfg (ps.getLastD (Pt.mk 0 0))).x
        (roundPt cfg (ps.getLastD (Pt.mk 0 0))).y true (cfg.feedRate : ℚ) := by
  have hlen : ¬((p0 :: ps).length < 2) := by
    rcases ps with _ | _
    · exact absurd rfl hps
    · simp
  have hcmt : ∀ s : ParseSt,
      parseLine s (strL "; --- Path " ++ natStr k ++ strL " ---") = (s, []) := by
    intro s
    have : strL "; --- Path " ++ natStr k ++ strL " ---" =
        ';' :: (strL " --- Path " ++ natStr k ++ strL " ---") := by
      simp [List.append_assoc]
      rfl
    rw [this]
    exact parseLine_comment s _
  have hpu : ∀ s : ParseSt, parseLine s (cfg.penUpCmd ++ strL " ; pen up") =
      (ParseSt.mk s.x s.y false s.feedRate, []) := by
    intro s
    rw [hup]
    rfl
  have hpd : ∀ s : ParseSt, parseLine s (cfg.penDownCmd ++ strL " ; pen down") =
      (ParseSt.mk s.x s.y true s.feedRate, []) := by
    intro s
    rw [hdn]
    rfl
  have hdraws := parseRun_drawLines cfg ps
    (ParseSt.mk (round2 (toMm cfg p0.x)) (round2 (toMm cfg p0.y)) true
      (cfg.travelRate : ℚ)) rfl hps
  unfold blockLines
  rw [if_neg hlen]
  constructor
  · rw [List.cons_append, List.cons_append, parseRun_cons, parseLine_empty,
      parseRun_cons, hcmt]
    simp only [List.nil_append]
    rw [List.cons_append, List.cons_append, List.cons_append, List.nil_append,
      parseRun_cons, hpu, parseRun_cons, parseLine_travel, parseRun_cons, hpd]
    simp only [List.nil_append, Bool.false_eq_true, if_false]
    rw [hdraws.1]
    simp [roundPt]
  · rw [List.cons_append, List.cons_append, parseRunSt_cons, parseLine_empty,
      parseRunSt_cons, hcmt]
    simp only [List.nil_append]
    rw [List.cons_append, List.cons_append, List.cons_append, List.nil_append,
      parseRunSt_cons, hpu, parseRunSt_cons, parseLine_travel, parseRunSt_cons, hpd]
    rw [hdraws.2]

/-- Parsing the program epilogue (default pen commands): exactly the
travel move back to the origin at the travel rate. -/
theorem parseRun_endLines (cfg : MachineConfig)
    (hup : cfg.penUpCmd = strL "G0 Z5") (st : ParseSt) :
    parseRun st (endLines cfg) =
      [ToolpathMove.mk MoveKind.travel (Pt.mk st.x st.y) (Pt.mk 0 0)
        (cfg.travelRate : ℚ)] := by
  have hpu : ∀ s : ParseSt, parseLine s (cfg.penUpCmd ++ strL " ; pen up") =
      (ParseSt.mk s.x s.y false s.feedRate, []) := by
    intro s
    rw [hup]
    rfl
  have hcmt : ∀ s : ParseSt, parseLine s (strL "; --- End ---") = (s, []) := fun s => rfl
  have hm2 : ∀ s : ParseSt, parseLine s (strL "M2 ; end program") = (s, []) := fun s => rfl
  have hhome : ∀ s : ParseSt, parseLine s (strL "G0 X0 Y0 F" ++ natStr cfg.travelRate ++
      strL " ; return home") = (ParseSt.mk 0 0 s.penDown (cfg.travelRate : ℚ),
       [ToolpathMove.mk (if s.penDown then MoveKind.draw else MoveKind.travel)
         (Pt.mk s.x s.y) (Pt.mk 0 0) (cfg.travelRate : ℚ)]) := by
    intro s
    rw [List.append_assoc]
    exact parseLine_home cfg s
  unfold endLines
  rw [parseRun_cons, parseLine_empty, parseRun_cons, hcmt, parseRun_cons, hpu,
    parseRun_cons, hhome, parseRun_cons, hm2, parseRun_nil]
  simp

/-! ### The nearest-neighbour ordering is a permutation -/

theorem cons_eraseIdx_perm {α : Type} (d : α) :
    ∀ (l : List α) (i : ℕ), i < l.length → l.Perm (l.getD i d :: l.eraseIdx i) := by
  intro l
  induction l with
  | nil => intro i hi; simp at hi
  | cons a l ih =>
    intro i hi
    rcases i with _ | i
    · simp
    · have hi' : i < l.length := by simpa using hi
      have hstep := ih i hi'
      exact (List.Perm.cons a hstep).trans
        (List.Perm.swap (l.getD i d) a (l.eraseIdx i))

theorem nearestScan_cons_nil (cur : Pt) (rest : List (List Pt)) (i bi : ℕ)
    (bd : Option ℚ) :
    nearestScan cur ([] :: rest) i (bi, bd) = nearestScan cur rest (i + 1) (bi, bd) := rfl

theorem nearestScan_cons_none (cur : Pt) (q : Pt) (qs : List Pt)
    (rest : List (List Pt)) (i bi : ℕ) :
    nearestScan cur ((q :: qs) :: rest) i (bi, none) =
      nearestScan cur rest (i + 1) (i, some (distSq cur q)) := rfl

theorem nearestScan_cons_some (cur : Pt) (q : Pt) (qs : List Pt)
    (rest : List (List Pt)) (i bi : ℕ) (d : ℚ) :
    nearestScan cur ((q :: qs) :: rest) i (bi, some d) =
      if distSq cur q < d then nearestScan cur rest (i + 1) (i, some (distSq cur q))
      else nearestScan cur rest (i + 1) (bi, some d) := rfl

theorem nearestScan_fst (cur : Pt) :
    ∀ (rem : List (List Pt)) (i bi : ℕ) (bd : Option ℚ),
    (nearestScan cur rem i (bi, bd)).1 = bi ∨
      (i ≤ (nearestScan cur rem i (bi, bd)).1 ∧
        (nearestScan cur rem i (bi, bd)).1 < i + rem.length) := by
  intro rem
  induction rem with
  | nil => intro i bi bd; left; rfl
  | cons p rest ih =>
    intro i bi bd
    rcases p with _ | ⟨q, qs⟩
    · rw [nearestScan_cons_nil]
      rcases ih (i + 1) bi bd with h | h
      · left; exact h
      · right
        simp only [List.length_cons]
        omega
    · rcases bd with _ | d
      · rw [nearestScan_cons_none]
        rcases ih (i + 1) i (some (distSq cur q)) with h | h
        · right
          rw [h]
          simp only [List.length_cons]
          omega
        · right
          simp only [List.length_cons]
          omega
      · rw [nearestScan_cons_some]
        by_cases hlt : distSq cur q < d
        · rw [if_pos hlt]
          rcases ih (i + 1) i (some (distSq cur q)) with h | h
          · right; rw [h]; simp only [List.length_cons]; omega
          · right; simp only [List.length_cons]; omega
        · rw [if_neg hlt]
          rcases ih (i + 1) bi (some d) with h | h
          · left; exact h
          · right; simp only [List.length_cons]; omega

theorem nearestIndex_lt (cur : Pt) (rem : List (List Pt)) (h : rem ≠ []) :
    nearestIndex cur rem < rem.length := by
  unfold nearestIndex
  rcases nearestScan_fst cur rem 0 0 none with h1 | h1
  · rw [h1]
    rcases rem with _ | _
    · exact absurd rfl h
    · simp
  · simpa using h1.2

theorem orderGo_perm : ∀ (fuel : ℕ) (rem : List (List Pt)) (cur : Pt),
    rem.length ≤ fuel → (orderGo fuel rem cur).Perm rem := by
  intro fuel
  induction fuel with
  | zero =>
    intro rem cur hlen
    have : rem = [] := List.length_eq_zero.mp (Nat.le_zero.mp hlen)
    subst this
    exact List.Perm.refl _
  | succ fuel ih =>
    intro rem cur hlen
    rcases rem with _ | ⟨p, rest⟩
    · exact List.Perm.refl _
    · show ((p :: rest).getD (nearestIndex cur (p :: rest)) [] ::
        orderGo fuel ((p :: rest).eraseIdx (nearestIndex cur (p :: rest))) _).Perm _
      have hi := nearestIndex_lt cur (p :: rest) (List.cons_ne_nil p rest)
      have hlen2 : ((p :: rest).eraseIdx (nearestIndex cur (p :: rest))).length ≤ fuel := by
        rw [List.length_eraseIdx_of_lt hi]
        simp only [List.length_cons] at hlen ⊢
        omega
      refine (List.Perm.cons _ (ih _ _ hlen2)).trans
        (cons_eraseIdx_perm [] (p :: rest) _ hi).symm

/-- `optimizePathOrder` returns a permutation of its input. -/
theorem optimizePathOrder_perm (paths : List (List Pt)) :
    (optimizePathOrder paths).Perm paths := by
  unfold optimizePathOrder
  by_cases h : paths.length ≤ 1
  · rw [if_pos h]
  · rw [if_neg h]
    exact orderGo_perm paths.length paths (Pt.mk 0 0) (Nat.le_refl _)

/-! ### Parsing the whole emitted program -/

theorem emitLines_nil (cfg : MachineConfig) (k : ℕ) : emitLines cfg k [] = [] := rfl

theorem emitLines_cons (cfg : MachineConfig) (k : ℕ) (points : List Pt)
    (rest : List (List Pt)) :
    emitLines cfg k (points :: rest) = blockLines cfg k points ++
      emitLines cfg (if points.length < 2 then k else k + 1) rest := rfl

theorem specBlocks_nil (cfg : MachineConfig) (cur : Pt) : specBlocks cfg cur [] = [] := rfl

theorem specBlocks_cons (cfg : MachineConfig) (cur p0 : Pt) (ps : List Pt)
    (rest : List (List Pt)) :
    specBlocks cfg cur ((p0 :: ps) :: rest) =
      (ToolpathMove.mk MoveKind.travel cur (roundPt cfg p0) (cfg.travelRate : ℚ) ::
        specDraws cfg (roundPt cfg p0) ps) ++
      specBlocks cfg (roundPt cfg (ps.getLastD p0)) rest := rfl

theorem specFinalPos_nil (cfg : MachineConfig) (cur : Pt) : specFinalPos cfg cur [] = cur :=
  rfl

theorem specFinalPos_cons (cfg : MachineConfig) (cur p0 : Pt) (ps : List Pt)
    (rest : List (List Pt)) :
    specFinalPos cfg cur ((p0 :: ps) :: rest) =
      specFinalPos cfg (roundPt cfg (ps.getLastD p0)) rest := rfl

theorem getLastD_congr {α : Type} (l : List α) (h : l ≠ []) (a b : α) :
    l.getLastD a = l.getLastD b := by
  rcases l with _ | ⟨c, t⟩
  · exact absurd rfl h
  · rw [List.getLastD_cons, List.getLastD_cons]

/-- Parsing the emitted per-path blocks when every path has at least two
points and the pen commands are the defaults: the specification-side
travel/draw groups, ending at the specification-side final position with
the pen down and the feed rate set. -/
theorem parseRun_emitLines (cfg : MachineConfig)
    (hup : cfg.penUpCmd = strL "G0 Z5") (hdn : cfg.penDownCmd = strL "G1 Z0") :
    ∀ (paths : List (List Pt)), paths ≠ [] → (∀ p ∈ paths, 2 ≤ p.length) →
    ∀ (k : ℕ) (st : ParseSt),
    parseRun st (emitLines cfg k paths) = specBlocks cfg (Pt.mk st.x st.y) paths ∧
    parseRunSt st (emitLines cfg k paths) =
      ParseSt.mk (specFinalPos cfg (Pt.mk st.x st.y) paths).x
        (specFinalPos cfg (Pt.mk st.x st.y) paths).y true (cfg.feedRate : ℚ) := by
  intro paths
  induction paths with
  | nil => intro h; exact absurd rfl h
  | cons p rest ih =>
    intro _ hlen k st
    obtain ⟨p0, ps, rfl⟩ : ∃ p0 ps, p = p0 :: ps := by
      rcases p with _ | ⟨p0, ps⟩
      · have := hlen [] (List.mem_cons_self _ _)
        simp at this
      · exact ⟨p0, ps, rfl⟩
    have hps : ps ≠ [] := by
      have := hlen (p0 :: ps) (List.mem_cons_self _ _)
      rcases ps with _ | _
      · simp at this
      · exact List.cons_ne_nil _ _
    have hlast := getLastD_congr ps hps (Pt.mk 0 0) p0
    have hblk := parseRun_block cfg hup hdn k p0 ps hps st
    rw [emitLines_cons, parseRun_append, parseRunSt_append, hblk.1, hblk.2]
    rcases rest with _ | ⟨r, rs⟩
    · constructor
      · rw [emitLines_nil, parseRun_nil, specBlocks_cons, specBlocks_nil]
      · rw [emitLines_nil, parseRunSt_nil, specFinalPos_cons, specFinalPos_nil, hlast]
    · have hrest := ih (List.cons_ne_nil r rs)
        (fun q hq => hlen q (List.mem_cons_of_mem _ hq))
        (if (p0 :: ps).length < 2 then k else k + 1)
        (ParseSt.mk (roundPt cfg (ps.getLastD (Pt.mk 0 0))).x
          (roundPt cfg (ps.getLastD (Pt.mk 0 0))).y true (cfg.feedRate : ℚ))
      constructor
      · rw [hrest.1, specBlocks_cons, hlast]
      · rw [hrest.2, specFinalPos_cons, hlast]

theorem nl_not_mem_natStr (n : ℕ) : '\n' ∉ natStr n :=
  not_mem_natStr _ _ (by decide)

theorem nl_not_mem_fixed2 (q : ℚ) : '\n' ∉ fixed2 q :=
  not_mem_fixed2 _ _ (by decide) (by decide) (by decide)

theorem nmApp {c : Char} {a b : List Char} (ha : c ∉ a) (hb : c ∉ b) : c ∉ a ++ b :=
  fun h => (List.mem_append.mp h).elim ha hb

theorem nl_not_mem_headerLines (date : List Char) (cfg : MachineConfig)
    (hdate : '\n' ∉ date) : ∀ l ∈ headerLines date cfg, '\n' ∉ l := by
  intro l hl
  unfold headerLines at hl
  simp only [List.mem_cons, List.not_mem_nil, or_false] at hl
  rcases hl with h | h | h | h | h | h | h | h | h | h | h | h <;> subst h
  · decide
  · decide
  · exact nmApp (by decide) hdate
  · exact nmApp (nmApp (nmApp (nmApp (by decide) (nl_not_mem_natStr _))
      (by decide)) (nl_not_mem_natStr _)) (by decide)
  · exact nmApp (nmApp (by decide) (nl_not_mem_natStr _)) (by decide)
  · exact nmApp (nmApp (by decide) (nl_not_mem_natStr _)) (by decide)
  · decide
  · exact List.not_mem_nil _
  · decide
  · decide
  · decide
  · decide

theorem blockLines_small (cfg : MachineConfig) (k : ℕ) (points : List Pt)
    (h : points.length < 2) :
    blockLines cfg k points = [[], strL "; --- Path " ++ natStr k ++ strL " ---"] := by
  unfold blockLines
  rw [if_pos h, List.append_nil]

theorem blockLines_big (cfg : MachineConfig) (k : ℕ) (p0 : Pt) (ps : List Pt)
    (h : ¬((p0 :: ps).length < 2)) :
    blockLines cfg k (p0 :: ps) =
      [] :: (strL "; --- Path " ++ natStr k ++ strL " ---") ::
      (cfg.penUpCmd ++ strL " ; pen up") :: travelLine cfg p0 ::
      (cfg.penDownCmd ++ strL " ; pen down") :: ps.map (drawLine cfg) := by
  unfold blockLines
  rw [if_neg h]
  rfl

theorem nl_not_mem_blockLines (cfg : MachineConfig)
    (hup : cfg.penUpCmd = strL "G0 Z5") (hdn : cfg.penDownCmd = strL "G1 Z0")
    (k : ℕ) (points : List Pt) : ∀ l ∈ blockLines cfg k points, '\n' ∉ l := by
  have hcmt : '\n' ∉ strL "; --- Path " ++ natStr k ++ strL " ---" :=
    nmApp (nmApp (by decide) (nl_not_mem_natStr _)) (by decide)
  intro l hl
  by_cases hc : points.length < 2
  · rw [blockLines_small cfg k points hc] at hl
    rcases List.mem_cons.mp hl with h | hl2
    · subst h; exact List.not_mem_nil _
    rcases List.mem_cons.mp hl2 with h | hl3
    · subst h; exact hcmt
    · exact absurd hl3 (List.not_mem_nil l)
  · rcases points with _ | ⟨p0, ps⟩
    · exact absurd (by decide) hc
    rw [blockLines_big cfg k p0 ps hc] at hl
    rcases List.mem_cons.mp hl with h | hl2
    · subst h; exact List.not_mem_nil _
    rcases List.mem_cons.mp hl2 with h | hl3
    · subst h; exact hcmt
    rcases List.mem_cons.mp hl3 with h | hl4
    · subst h; rw [hup]; exact nmApp (by decide) (by decide)
    rcases List.mem_cons.mp hl4 with h | hl5
    · subst h
      exact not_mem_travelLine cfg p0 '\n' (by decide) (by decide) (by decide)
        (by decide) (by decide) (by decide) (by decide)
    rcases List.mem_cons.mp hl5 with h | hl6
    · subst h; rw [hdn]; exact nmApp (by decide) (by decide)
    · obtain ⟨q, _, rfl⟩ := List.mem_map.mp hl6
      exact not_mem_drawLine cfg q '\n' (by decide) (by decide) (by decide)
        (by decide) (by decide) (by decide)

theorem nl_not_mem_emitLines (cfg : MachineConfig)
    (hup : cfg.penUpCmd = strL "G0 Z5") (hdn : cfg.penDownCmd = strL "G1 Z0") :
    ∀ (paths : List (List Pt)) (k : ℕ), ∀ l ∈ emitLines cfg k paths, '\n' ∉ l := by
  intro paths
  induction paths with
  | nil => intro k l hl; exact absurd hl (List.not_mem_nil l)
  | cons p rest ih =>
    intro k l hl
    rw [emitLines_cons, List.mem_append] at hl
    rcases hl with h | h
    · exact nl_not_mem_blockLines cfg hup hdn k p l h
    · exact ih _ l h

theorem nl_not_mem_endLines (cfg : MachineConfig)
    (hup : cfg.penUpCmd = strL "G0 Z5") : ∀ l ∈ endLines cfg, '\n' ∉ l := by
  intro l hl
  unfold endLines at hl
  simp only [List.mem_cons, List.not_mem_nil, or_false] at hl
  rcases hl with h | h | h | h | h <;> subst h
  · exact List.not_mem_nil _
  · decide
  · rw [hup]; exact nmApp (by decide) (by decide)
  · exact nmApp (nmApp (by decide) (nl_not_mem_natStr _)) (by decide)
  · decide

theorem splitLines_empty : splitLines [] = [[]] := rfl

theorem parseRun_blankTail (st : ParseSt) : parseRun st [[]] = [] := rfl

/-- The full round trip on a non-empty path list whose paths all have at
least two points, with the default pen commands and a newline-free date
string: parsing the emitted program yields exactly the expected toolpath
over the nearest-neighbour ordering. -/
theorem parse_generate (cfg : MachineConfig) (date : List Char)
    (paths : List (List Pt))
    (hup : cfg.penUpCmd = strL "G0 Z5") (hdn : cfg.penDownCmd = strL "G1 Z0")
    (hdate : '\n' ∉ date) (hne : paths ≠ [])
    (hlen : ∀ p ∈ paths, 2 ≤ p.length) :
    parseGcode cfg (generate date cfg paths) =
      expectedToolpath cfg (optimizePathOrder paths) := by
  have hone : ∀ p ∈ optimizePathOrder paths, 2 ≤ p.length := by
    intro p hp
    exact hlen p ((optimizePathOrder_perm paths).mem_iff.mp hp)
  have hone2 : optimizePathOrder paths ≠ [] := by
    intro h
    have := (optimizePathOrder_perm paths).length_eq
    rw [h] at this
    exact hne (List.length_eq_zero.mp this.symm)
  have hL : ∀ l ∈ headerLines date cfg ++
      emitLines cfg 1 (optimizePathOrder paths) ++ endLines cfg, '\n' ∉ l := by
    intro l hl
    rw [List.append_assoc, List.mem_append, List.mem_append] at hl
    rcases hl with h | h | h
    · exact nl_not_mem_headerLines date cfg hdate l h
    · exact nl_not_mem_emitLines cfg hup hdn _ 1 l h
    · exact nl_not_mem_endLines cfg hup l h
  have hgen : generate date cfg paths = joinNl (headerLines date cfg ++
      emitLines cfg 1 (optimizePathOrder paths) ++ endLines cfg) := by
    unfold generate
    rw [if_neg (by simpa using fun h => hne (List.length_eq_zero.mp h))]
  unfold parseGcode
  rw [hgen, show joinNl (headerLines date cfg ++
      emitLines cfg 1 (optimizePathOrder paths) ++ endLines cfg) =
      joinNl (headerLines date cfg ++
        emitLines cfg 1 (optimizePathOrder paths) ++ endLines cfg) ++ [] from
      (List.append_nil _).symm,
    splitLines_joinNl _ _ hL, splitLines_empty]
  rw [List.append_assoc, List.append_assoc]
  rw [parseRun_append]
  have hhead := parseRun_headerLines date cfg (ParseSt.mk 0 0 false (cfg.feedRate : ℚ))
  rw [hhead.1, hhead.2]
  rw [parseRun_append]
  have hemit := parseRun_emitLines cfg hup hdn (optimizePathOrder paths) hone2 hone 1
    (ParseSt.mk 0 0 true (cfg.feedRate : ℚ))
  rw [hemit.1, hemit.2]
  rw [parseRun_append]
  rw [parseRun_endLines cfg hup, parseRun_blankTail, List.append_nil]
  rfl

/-- `generate` on an empty path list, as emitted lines. -/
theorem generate_nil (date : List Char) (cfg : MachineConfig) :
    generate date cfg [] = joinNl (headerLines date cfg ++
      [[], strL "; No paths to generate", [], strL "M2 ; end program"]) := rfl

/-- Parsing the empty-input program: the header's `G92` line still emits
its zero-length draw move, so the toolpath is not empty. -/
theorem parse_generate_nil (cfg : MachineConfig) (date : List Char)
    (hdate : '\n' ∉ date) :
    parseGcode cfg (generate date cfg []) =
      [ToolpathMove.mk MoveKind.draw (Pt.mk 0 0) (Pt.mk 0 0) (cfg.feedRate : ℚ)] := by
  have hL : ∀ l ∈ headerLines date cfg ++
      [[], strL "; No paths to generate", [], strL "M2 ; end program"], '\n' ∉ l := by
    intro l hl
    rcases List.mem_append.mp hl with h | h
    · exact nl_not_mem_headerLines date cfg hdate l h
    · simp only [List.mem_cons, List.not_mem_nil, or_false] at h
      rcases h with h | h | h | h <;> subst h
      · exact List.not_mem_nil _
      · decide
      · exact List.not_mem_nil _
      · decide
  unfold parseGcode
  rw [generate_nil, show joinNl (headerLines date cfg ++
      [[], strL "; No paths to generate", [], strL "M2 ; end program"]) =
      joinNl (headerLines date cfg ++
        [[], strL "; No paths to generate", [], strL "M2 ; end program"]) ++ [] from
      (List.append_nil _).symm,
    splitLines_joinNl _ _ hL, splitLines_empty]
  rw [List.append_assoc, parseRun_append]
  have hhead := parseRun_headerLines date cfg (ParseSt.mk 0 0 false (cfg.feedRate : ℚ))
  rw [hhead.1, hhead.2]
  rfl

theorem specDraws_nil (cfg : MachineConfig) (cur : Pt) : specDraws cfg cur [] = [] := rfl

theorem specDraws_cons (cfg : MachineConfig) (cur p : Pt) (rest : List Pt) :
    specDraws cfg cur (p :: rest) =
      ToolpathMove.mk MoveKind.draw cur (roundPt cfg p) (cfg.feedRate : ℚ) ::
        specDraws cfg (roundPt cfg p) rest := rfl

/-- The parsed toolpath of the concrete emission scenario: six moves, the
drawn endpoints scaled by `100 / 800` and so landing at `1.25`, not
`10.00`. -/
theorem parse_scenario :
    parseGcode cfgScenario (generate dateA cfgScenario pathsScenario) =
      [ToolpathMove.mk MoveKind.draw (Pt.mk 0 0) (Pt.mk 0 0) 3000,
       ToolpathMove.mk MoveKind.travel (Pt.mk 0 0) (Pt.mk 0 0) 6000,
       ToolpathMove.mk MoveKind.draw (Pt.mk 0 0) (Pt.mk (5/4) 0) 3000,
       ToolpathMove.mk MoveKind.travel (Pt.mk (5/4) 0) (Pt.mk 0 (5/4)) 6000,
       ToolpathMove.mk MoveKind.draw (Pt.mk 0 (5/4)) (Pt.mk (5/4) (5/4)) 3000,
       ToolpathMove.mk MoveKind.travel (Pt.mk (5/4) (5/4)) (Pt.mk 0 0) 6000] := by
  rw [parse_generate cfgScenario dateA pathsScenario rfl rfl (by decide) (by decide)
    (by decide)]
  rw [show optimizePathOrder pathsScenario = pathsScenario by
    with_unfolding_all decide]
  have e0 : roundPt cfgScenario (Pt.mk 0 0) = Pt.mk 0 0 := by
    with_unfolding_all decide
  have e1 : roundPt cfgScenario (Pt.mk 10 0) = Pt.mk (5/4) 0 := by
    set_option maxRecDepth 3000 in with_unfolding_all decide
  have e2 : roundPt cfgScenario (Pt.mk 0 10) = Pt.mk 0 (5/4) := by
    set_option maxRecDepth 4500 in with_unfolding_all decide
  have e3 : roundPt cfgScenario (Pt.mk 10 10) = Pt.mk (5/4) (5/4) := by
    set_option maxRecDepth 4500 in with_unfolding_all decide
  have hf : (cfgScenario.feedRate : ℚ) = 3000 := by
    show ((3000 : ℕ) : ℚ) = 3000
    norm_num
  have ht : (cfgScenario.travelRate : ℚ) = 6000 := by
    show ((6000 : ℕ) : ℚ) = 6000
    norm_num
  unfold expectedToolpath pathsScenario
  rw [specBlocks_cons, specDraws_cons, specDraws_nil, specBlocks_cons,
    specDraws_cons, specDraws_nil, specBlocks_nil, specFinalPos_cons,
    specFinalPos_cons, specFinalPos_nil]
  simp only [List.getLastD_cons, List.getLastD_nil]
  rw [e0, e1, e2, e3, hf, ht]
  rfl

/-! ## Claim C1: the round-trip contract -/

/-- C1 (corrected).  For every configuration with the default pen
commands, newline-free date, and non-empty path list whose paths all have
at least two points, parsing the emitted program yields: the zero-length
draw move at the origin produced by the header's `G92 X0 Y0 Z0` line,
then — over the nearest-neighbour ordering `optimizePathOrder paths`, not
the input order — one travel move to each path's first point followed by
draw moves to its subsequent points (endpoints scaled by
`bedWidth / 800` and rounded to 2 decimals), and a final travel move back
to the origin.  The original claim fails on the move count (the `G92`
move is extra) and ties the endpoints to the source paths' order rather
than the emitted ordering. -/
theorem c1_roundtrip (cfg : MachineConfig) (date : List Char)
    (paths : List (List Pt))
    (hup : cfg.penUpCmd = strL "G0 Z5") (hdn : cfg.penDownCmd = strL "G1 Z0")
    (hdate : '\n' ∉ date) (hne : paths ≠ [])
    (hlen : ∀ p ∈ paths, 2 ≤ p.length) :
    parseGcode cfg (generate date cfg paths) =
      expectedToolpath cfg (optimizePathOrder paths) :=
  parse_generate cfg date paths hup hdn hdate hne hlen

/-- Witness for C1 at the concrete two-path scenario. -/
theorem c1_roundtrip_witness :
    cfgScenario.penUpCmd = strL "G0 Z5" ∧ cfgScenario.penDownCmd = strL "G1 Z0" ∧
    '\n' ∉ dateA ∧ pathsScenario ≠ [] ∧ (∀ p ∈ pathsScenario, 2 ≤ p.length) ∧
    parseGcode cfgScenario (generate dateA cfgScenario pathsScenario) =
      expectedToolpath cfgScenario (optimizePathOrder pathsScenario) :=
  ⟨rfl, rfl, by decide, by decide, by decide,
    c1_roundtrip cfgScenario dateA pathsScenario rfl rfl (by decide) (by decide)
      (by decide)⟩

/-- C1 counterexample: one two-point path should, by the original claim,
parse to three moves (travel, draw, final travel home); the parsed
toolpath has four, the header's `G92` draw move being extra. -/
theorem c1_counterexample :
    (parseGcode cfgDefault (generate dateA cfgDefault pathsOne)).length ≠ 3 := by
  rw [parse_generate cfgDefault dateA pathsOne rfl rfl (by decide)
    (by decide) (by decide)]
  set_option maxRecDepth 4000 in with_unfolding_all decide

/-! ## Claim C2: emission with zero paths -/

/-- C2 (corrected).  Emitting with an empty path list yields the header
followed by the `; No paths to generate` comment and the `M2` program-end
marker — but parsing that text yields one zero-length draw move at the
origin (from the header's `G92 X0 Y0 Z0` line), not an empty toolpath. -/
theorem c2_empty_emit (cfg : MachineConfig) (date : List Char)
    (hdate : '\n' ∉ date) :
    generate date cfg [] =
      getHeader date cfg ++ strL "\n; No paths to generate\n\nM2 ; end program\n" ∧
    parseGcode cfg (generate date cfg []) =
      [ToolpathMove.mk MoveKind.draw (Pt.mk 0 0) (Pt.mk 0 0) (cfg.feedRate : ℚ)] := by
  refine ⟨?_, parse_generate_nil cfg date hdate⟩
  rw [generate_nil]
  unfold getHeader joinNl
  rw [List.map_append, List.flatten_append]
  rfl

/-- Witness for C2 at the default configuration. -/
theorem c2_empty_emit_witness :
    '\n' ∉ dateA ∧
    (generate dateA cfgDefault [] =
      getHeader dateA cfgDefault ++ strL "\n; No paths to generate\n\nM2 ; end program\n" ∧
    parseGcode cfgDefault (generate dateA cfgDefault []) =
      [ToolpathMove.mk MoveKind.draw (Pt.mk 0 0) (Pt.mk 0 0) (cfgDefault.feedRate : ℚ)]) :=
  ⟨by decide, c2_empty_emit cfgDefault dateA (by decide)⟩

/-- C2 counterexample: the toolpath parsed from the empty-input program
is not empty. -/
theorem c2_counterexample :
    parseGcode cfgDefault (generate dateA cfgDefault []) ≠ [] := by
  rw [parse_generate_nil cfgDefault dateA (by decide)]
  exact List.cons_ne_nil _ _

/-! ## Claim C3: two-run determinism -/

/-- C3 (corrected).  The emitted text embeds the current date
(`new Date().toISOString().split('T')[0]` in `getHeader`), so two runs on
identical paths and configuration produce byte-identical text only when
the ambient date readings agree; what is invariant across runs is the
parsed toolpath, which is the same for any two newline-free date
readings. -/
theorem c3_determinism (cfg : MachineConfig) (d1 d2 : List Char)
    (paths : List (List Pt))
    (hup : cfg.penUpCmd = strL "G0 Z5") (hdn : cfg.penDownCmd = strL "G1 Z0")
    (h1 : '\n' ∉ d1) (h2 : '\n' ∉ d2) (hne : paths ≠ [])
    (hlen : ∀ p ∈ paths, 2 ≤ p.length) :
    parseGcode cfg (generate d1 cfg paths) = parseGcode cfg (generate d2 cfg paths) := by
  rw [parse_generate cfg d1 paths hup hdn h1 hne hlen,
    parse_generate cfg d2 paths hup hdn h2 hne hlen]

/-- Witness for C3 at the two concrete date readings. -/
theorem c3_determinism_witness :
    '\n' ∉ dateA ∧ '\n' ∉ dateB ∧
    parseGcode cfgDefault (generate dateA cfgDefault pathsOne) =
      parseGcode cfgDefault (generate dateB cfgDefault pathsOne) :=
  ⟨by decide, by decide,
    c3_determinism cfgDefault dateA dateB pathsOne rfl rfl (by decide) (by decide)
      (by decide) (by decide)⟩

/-- C3 counterexample: the same paths and configuration emitted under two
date readings give different bytes — the header's `; Generated:` line
differs. -/
theorem c3_counterexample :
    generate dateA cfgDefault pathsOne ≠ generate dateB cfgDefault pathsOne := by
  set_option maxRecDepth 4000 in with_unfolding_all decide

/-! ## Claim C9: the concrete emission scenario -/

/-- C9 (corrected).  In the scenario (`feedRate 3000`, `travelRate 6000`,
`bedWidth 100`, paths `[[(0,0),(10,0)], [(0,10),(10,10)]]`), the block
emitted for path 1 is the pen-up command, a rapid to `(0.00, 0.00)` at
`F6000`, the pen-down command, then a linear move at `F3000` — but to
`X1.25 Y0.00`, not `X10.00 Y0.00`: `toMm` maps `10` canvas pixels to
`10 / 800 × 100 = 1.25` mm, so the claimed 1:1 px-to-mm scale does not
hold.  Parsing the emitted program reconstructs travel-then-draw moves
with those scaled endpoints (after the header's extra zero-length draw
move). -/
theorem c9_scenario :
    blockLines cfgScenario 1 [Pt.mk 0 0, Pt.mk 10 0] =
      [[], strL "; --- Path 1 ---", strL "G0 Z5 ; pen up",
       strL "G0 X0.00 Y0.00 F6000 ; travel to start", strL "G1 Z0 ; pen down",
       strL "G1 X1.25 Y0.00 F3000"] ∧
    parseGcode cfgScenario (generate dateA cfgScenario pathsScenario) =
      [ToolpathMove.mk MoveKind.draw (Pt.mk 0 0) (Pt.mk 0 0) 3000,
       ToolpathMove.mk MoveKind.travel (Pt.mk 0 0) (Pt.mk 0 0) 6000,
       ToolpathMove.mk MoveKind.draw (Pt.mk 0 0) (Pt.mk (5/4) 0) 3000,
       ToolpathMove.mk MoveKind.travel (Pt.mk (5/4) 0) (Pt.mk 0 (5/4)) 6000,
       ToolpathMove.mk MoveKind.draw (Pt.mk 0 (5/4)) (Pt.mk (5/4) (5/4)) 3000,
       ToolpathMove.mk MoveKind.travel (Pt.mk (5/4) (5/4)) (Pt.mk 0 0) 6000] :=
  ⟨by set_option maxRecDepth 3000 in with_unfolding_all decide, parse_scenario⟩

/-- C9 counterexample: the draw move of path 1 in the parsed toolpath
ends at `(1.25, 0)`, not at the claimed `(10.00, 0)`. -/
theorem c9_counterexample :
    ((parseGcode cfgScenario (generate dateA cfgScenario pathsScenario)).getD 2
      (ToolpathMove.mk MoveKind.travel (Pt.mk 0 0) (Pt.mk 0 0) 0)).toPt ≠
      Pt.mk 10 0 := by
  rw [parse_scenario]
  with_unfolding_all decide

/-! ## Claim C6: Douglas-Peucker endpoint preservation -/

theorem head?_eq_getD (l : List Pt) (h : l ≠ []) :
    l.head? = some (l.getD 0 (Pt.mk 0 0)) := by
  rcases l with _ | ⟨a, t⟩
  · exact absurd rfl h
  · rfl

theorem getLast?_eq_getD : ∀ (l : List Pt), l ≠ [] →
    l.getLast? = some (l.getD (l.length - 1) (Pt.mk 0 0)) := by
  intro l
  induction l with
  | nil => intro h; exact absurd rfl h
  | cons a t ih =>
    intro _
    rcases t with _ | ⟨b, t'⟩
    · rfl
    · rw [List.getLast?_cons_cons, ih (List.cons_ne_nil b t')]
      rfl

/-- C6 (confirmed).  `simplifyPath` returns sequences of length at most 2
unchanged, and always preserves the first and the last point of its
input. -/
theorem c6_endpoints (pts : List Pt) (tol : ℚ) :
    (pts.length ≤ 2 → simplifyPath pts tol = pts) ∧
    (simplifyPath pts tol).head? = pts.head? ∧
    (simplifyPath pts tol).getLast? = pts.getLast? := by
  refine ⟨fun h => by unfold simplifyPath; rw [if_pos h], ?_, ?_⟩ <;>
    by_cases h : pts.length ≤ 2
  · rw [show simplifyPath pts tol = pts by unfold simplifyPath; rw [if_pos h]]
  · have hne : pts ≠ [] := by
      intro hnil
      rw [hnil] at h
      exact h (by decide)
    have : simplifyPath pts tol =
        (pts.getD 0 (Pt.mk 0 0) :: dpRun pts (tol * tol) pts.length 0 (pts.length - 1))
          ++ [pts.getD (pts.length - 1) (Pt.mk 0 0)] := by
      unfold simplifyPath
      rw [if_neg h]
    rw [this, List.cons_append, List.head?_cons, head?_eq_getD pts hne]
  · rw [show simplifyPath pts tol = pts by unfold simplifyPath; rw [if_pos h]]
  · have hne : pts ≠ [] := by
      intro hnil
      rw [hnil] at h
      exact h (by decide)
    have : simplifyPath pts tol =
        (pts.getD 0 (Pt.mk 0 0) :: dpRun pts (tol * tol) pts.length 0 (pts.length - 1))
          ++ [pts.getD (pts.length - 1) (Pt.mk 0 0)] := by
      unfold simplifyPath
      rw [if_neg h]
    rw [this, List.getLast?_concat, getLast?_eq_getD pts hne]

/-- Witness for C6: a three-point dog-leg keeps its endpoints. -/
theorem c6_endpoints_witness :
    (([Pt.mk 0 0, Pt.mk 1 5, Pt.mk 2 0] : List Pt).length ≤ 2 →
      simplifyPath [Pt.mk 0 0, Pt.mk 1 5, Pt.mk 2 0] 1 =
        [Pt.mk 0 0, Pt.mk 1 5, Pt.mk 2 0]) ∧
    (simplifyPath [Pt.mk 0 0, Pt.mk 1 5, Pt.mk 2 0] 1).head? =
      ([Pt.mk 0 0, Pt.mk 1 5, Pt.mk 2 0] : List Pt).head? ∧
    (simplifyPath [Pt.mk 0 0, Pt.mk 1 5, Pt.mk 2 0] 1).getLast? =
      ([Pt.mk 0 0, Pt.mk 1 5, Pt.mk 2 0] : List Pt).getLast? :=
  c6_endpoints [Pt.mk 0 0, Pt.mk 1 5, Pt.mk 2 0] 1

/-! ## Claim C7: nearest-neighbour ordering -/

theorem firstMinIdx_single (d : ℚ) : firstMinIdx [d] = 0 := rfl

theorem firstMinIdx_cons2 (d e : ℚ) (rest : List ℚ) :
    firstMinIdx (d :: e :: rest) =
      if d ≤ (e :: rest).getD (firstMinIdx (e :: rest)) 0 then 0
      else firstMinIdx (e :: rest) + 1 := rfl

/-- The inner scan returns the position of the first minimizer among the
remaining paths' start distances, when it beats the incoming best. -/
theorem nearestScan_min (cur : Pt) :
    ∀ (rem : List (List Pt)), (∀ p ∈ rem, p ≠ []) → rem ≠ [] →
    ∀ (i bi : ℕ) (bd : ℚ),
    (nearestScan cur rem i (bi, some bd)).1 =
      if (rem.map fun p => distSq cur (firstPt p)).getD
          (firstMinIdx (rem.map fun p => distSq cur (firstPt p))) 0 < bd
      then i + firstMinIdx (rem.map fun p => distSq cur (firstPt p))
      else bi := by
  intro rem
  induction rem with
  | nil => intro _ h0; exact absurd rfl h0
  | cons p rest ih =>
    intro hne _ i bi bd
    obtain ⟨q, qs, rfl⟩ : ∃ q qs, p = q :: qs := by
      rcases p with _ | ⟨q, qs⟩
      · exact absurd rfl (hne [] (List.mem_cons_self _ _))
      · exact ⟨q, qs, rfl⟩
    rw [nearestScan_cons_some]
    have hmap : ((q :: qs) :: rest).map (fun p => distSq cur (firstPt p)) =
        distSq cur q :: rest.map (fun p => distSq cur (firstPt p)) := by
      rw [List.map_cons]
      rfl
    rcases rest with _ | ⟨r, rs⟩
    · rw [hmap]
      simp only [List.map_nil, firstMinIdx_single, List.getD_cons_zero, Nat.add_zero]
      by_cases h : distSq cur q < bd
      · rw [if_pos h, if_pos h]
        rfl
      · rw [if_neg h, if_neg h]
        rfl
    · have hrec := ih (fun x hx => hne x (List.mem_cons_of_mem _ hx))
        (List.cons_ne_nil r rs)
      obtain ⟨e, es, hdse⟩ : ∃ e es,
          (r :: rs).map (fun p => distSq cur (firstPt p)) = e :: es :=
        ⟨_, _, List.map_cons _ _ _⟩
      rw [hmap, hdse, firstMinIdx_cons2, ← hdse]
      rw [apply_ite (fun j =>
        (distSq cur q :: (r :: rs).map fun p => distSq cur (firstPt p)).getD j 0)]
      simp only [List.getD_cons_zero, List.getD_cons_succ]
      by_cases h2 : distSq cur q < bd
      · rw [if_pos h2, hrec]
        split_ifs <;> first | omega | linarith
      · rw [if_neg h2, hrec]
        split_ifs <;> first | omega | linarith

/-- `nearestIndex` equals the specification's first-minimum index when
every remaining path is non-empty. -/
theorem nearestIndex_spec (cur : Pt) (rem : List (List Pt))
    (hne : ∀ p ∈ rem, p ≠ []) (h0 : rem ≠ []) :
    nearestIndex cur rem = firstMinIdx (rem.map fun p => distSq cur (firstPt p)) := by
  rcases rem with _ | ⟨p, rest⟩
  · exact absurd rfl h0
  obtain ⟨q, qs, rfl⟩ : ∃ q qs, p = q :: qs := by
    rcases p with _ | ⟨q, qs⟩
    · exact absurd rfl (hne [] (List.mem_cons_self _ _))
    · exact ⟨q, qs, rfl⟩
  show (nearestScan cur ((q :: qs) :: rest) 0 (0, none)).1 = _
  rw [nearestScan_cons_none]
  have hmap : ((q :: qs) :: rest).map (fun p => distSq cur (firstPt p)) =
      distSq cur q :: rest.map (fun p => distSq cur (firstPt p)) := by
    rw [List.map_cons]
    rfl
  rcases rest with _ | ⟨r, rs⟩
  · rfl
  · rw [nearestScan_min cur (r :: rs) (fun x hx => hne x (List.mem_cons_of_mem _ hx))
      (List.cons_ne_nil r rs) 1 0 (distSq cur q)]
    obtain ⟨e, es, hdse⟩ : ∃ e es,
        (r :: rs).map (fun p => distSq cur (firstPt p)) = e :: es :=
      ⟨_, _, List.map_cons _ _ _⟩
    rw [hmap, hdse, firstMinIdx_cons2, ← hdse]
    by_cases h1 : ((r :: rs).map fun p => distSq cur (firstPt p)).getD
        (firstMinIdx ((r :: rs).map fun p => distSq cur (firstPt p))) 0 < distSq cur q
    · rw [if_pos h1, if_neg (by linarith)]
      omega
    · rw [if_neg h1, if_pos (by linarith)]

theorem nnSpecGo_zero (rem : List (List Pt)) (cur : Pt) : nnSpecGo 0 rem cur = [] := by
  rcases rem with _ | ⟨p, rest⟩ <;> rfl

theorem nnSpecGo_nil (fuel : ℕ) (cur : Pt) : nnSpecGo fuel [] cur = [] := by
  rcases fuel with _ | fuel <;> rfl

theorem nnSpecGo_cons (fuel : ℕ) (p : List Pt) (rest : List (List Pt)) (cur : Pt) :
    nnSpecGo (fuel + 1) (p :: rest) cur =
      (p :: rest).getD (firstMinIdx ((p :: rest).map fun x => distSq cur (firstPt x))) []
        :: nnSpecGo fuel
          ((p :: rest).eraseIdx
            (firstMinIdx ((p :: rest).map fun x => distSq cur (firstPt x))))
          (lastPt ((p :: rest).getD
            (firstMinIdx ((p :: rest).map fun x => distSq cur (firstPt x))) [])) := rfl

theorem orderGo_cons (fuel : ℕ) (p : List Pt) (rest : List (List Pt)) (cur : Pt) :
    orderGo (fuel + 1) (p :: rest) cur =
      (p :: rest).getD (nearestIndex cur (p :: rest)) []
        :: orderGo fuel ((p :: rest).eraseIdx (nearestIndex cur (p :: rest)))
          (match ((p :: rest).getD (nearestIndex cur (p :: rest)) []).getLast? with
            | some z => z
            | none => cur) := rfl

theorem lastPt_of_ne_nil (p : List Pt) (cur : Pt) (h : p ≠ []) :
    (match p.getLast? with
      | some z => z
      | none => cur) = lastPt p := by
  rcases hz : p.getLast? with _ | z
  · exact absurd (List.getLast?_eq_none_iff.mp hz) h
  · show z = p.getLastD (Pt.mk 0 0)
    rw [List.getLastD_eq_getLast?, hz]
    rfl

theorem getD_mem_of_lt {α : Type} (l : List α) (i : ℕ) (d : α) (h : i < l.length) :
    l.getD i d ∈ l := by
  rw [List.getD_eq_getElem l d h]
  exact List.getElem_mem h

/-- The ordering loop agrees with the specification's selection rule when
every remaining path is non-empty. -/
theorem orderGo_eq_spec : ∀ (fuel : ℕ) (rem : List (List Pt)) (cur : Pt),
    (∀ p ∈ rem, p ≠ []) → orderGo fuel rem cur = nnSpecGo fuel rem cur := by
  intro fuel
  induction fuel with
  | zero =>
    intro rem cur _
    rw [nnSpecGo_zero]
    rcases rem with _ | ⟨p, rest⟩ <;> rfl
  | succ fuel ih =>
    intro rem cur hne
    rcases rem with _ | ⟨p, rest⟩
    · rfl
    rw [orderGo_cons, nnSpecGo_cons,
      nearestIndex_spec cur (p :: rest) hne (List.cons_ne_nil p rest)]
    have hlt : firstMinIdx ((p :: rest).map fun x => distSq cur (firstPt x)) <
        (p :: rest).length := by
      rw [← nearestIndex_spec cur (p :: rest) hne (List.cons_ne_nil p rest)]
      exact nearestIndex_lt cur (p :: rest) (List.cons_ne_nil p rest)
    have hchosen : (p :: rest).getD
        (firstMinIdx ((p :: rest).map fun x => distSq cur (firstPt x))) [] ≠ [] :=
      hne _ (getD_mem_of_lt _ _ _ hlt)
    rw [lastPt_of_ne_nil _ cur hchosen,
      ih _ _ fun x hx => hne x (List.eraseIdx_subset _ _ hx)]

/-- C7 (confirmed, under non-empty paths).  `optimizePathOrder` returns a
permutation of its input, and when every path has at least one point it
equals the specification's greedy nearest-neighbour order: repeatedly
take the earliest remaining path whose first point is closest to the
current position (squared distances compare like Euclidean ones), move to
its last point, and remove it.  (A path with no points is never selected
by the scan but is still spliced out at index 0 by the source, so the
non-emptiness proviso is needed for the selection-rule half.) -/
theorem c7_ordering (paths : List (List Pt)) (hne : ∀ p ∈ paths, p ≠ []) :
    (optimizePathOrder paths).Perm paths ∧
    optimizePathOrder paths = nnOrderSpec paths := by
  refine ⟨optimizePathOrder_perm paths, ?_⟩
  unfold optimizePathOrder nnOrderSpec
  by_cases h : paths.length ≤ 1
  · rw [if_pos h]
    rcases paths with _ | ⟨p, rest⟩
    · rfl
    rcases rest with _ | ⟨q, rs⟩
    · rw [show ([p] : List (List Pt)).length = 1 from rfl]
      rw [nnSpecGo_cons, nnSpecGo_zero,
        show (List.map (fun x => distSq (Pt.mk 0 0) (firstPt x)) [p]) =
          [distSq (Pt.mk 0 0) (firstPt p)] from rfl, firstMinIdx_single]
      rfl
    · simp at h
  · rw [if_neg h]
    exact orderGo_eq_spec paths.length paths (Pt.mk 0 0) hne

/-- Witness for C7 at the two-path scenario. -/
theorem c7_ordering_witness :
    (∀ p ∈ pathsScenario, p ≠ []) ∧
    ((optimizePathOrder pathsScenario).Perm pathsScenario ∧
      optimizePathOrder pathsScenario = nnOrderSpec pathsScenario) :=
  ⟨by decide, c7_ordering pathsScenario (by decide)⟩

/-! ## Claim C8: parser totality and per-line semantics -/

/-- Single-line semantics of the parser: a line emits one move exactly
when its trimmed text is a non-blank non-comment line with an `X` or `Y`
token; the move runs from the previous position to the updated one, is
tagged by the pen state after the line's pen tokens, and a missing axis
or `F` token leaves that component of the state unchanged. -/
theorem parseLine_semantics (st : ParseSt) (line : List Char) :
    ∃ st2 : ParseSt, parseLine st line = (st2,
        if isMoveLine line then
          [ToolpathMove.mk (if st2.penDown then MoveKind.draw else MoveKind.travel)
            (Pt.mk st.x st.y) (Pt.mk st2.x st2.y) st2.feedRate]
        else []) ∧
      (findX (jsTrim line) = none → st2.x = st.x) ∧
      (findY (jsTrim line) = none → st2.y = st.y) ∧
      (findF (jsTrim line) = none → st2.feedRate = st.feedRate) := by
  by_cases he : ((jsTrim line).isEmpty || startsSeq (jsTrim line) (strL ";")) = true
  · have hML : isMoveLine line = false := by
      unfold isMoveLine
      rcases Bool.or_eq_true_iff.mp he with h | h <;> simp [h]
    refine ⟨st, ?_, fun _ => rfl, fun _ => rfl, fun _ => rfl⟩
    rw [hML]
    unfold parseLine
    rw [if_pos he]
    simp
  · have he2 : (jsTrim line).isEmpty = false ∧
        startsSeq (jsTrim line) (strL ";") = false :=
      Bool.or_eq_false_iff.mp (Bool.eq_false_iff.mpr he)
    rcases hx : findX (jsTrim line) with _ | cx <;>
      rcases hy : findY (jsTrim line) with _ | cy
    · have hML : isMoveLine line = false := by
        unfold isMoveLine
        rw [hx, hy]
        simp
      refine ⟨ParseSt.mk st.x st.y
        (if subSeq (jsTrim line) (strL "Z5") || subSeq (jsTrim line) (strL "Z 5") ||
            subSeq (jsTrim line) (strL "S0") then false
          else if subSeq (jsTrim line) (strL "Z0") || subSeq (jsTrim line) (strL "Z 0") ||
            subSeq (jsTrim line) (strL "S90") then true
          else st.penDown)
        (match findF (jsTrim line) with
          | some cap => parseFloatQ cap
          | none => st.feedRate), ?_, fun _ => rfl, fun _ => rfl, ?_⟩
      · rw [hML]
        simp only [parseLine, he, Bool.false_eq_true, if_false, hx, hy]
      · intro h
        simp only [h]
    · have hML : isMoveLine line = true := by
        unfold isMoveLine
        rw [hx, hy, he2.1, he2.2]
        rfl
      refine ⟨ParseSt.mk st.x (parseFloatQ cy)
        (if subSeq (jsTrim line) (strL "Z5") || subSeq (jsTrim line) (strL "Z 5") ||
            subSeq (jsTrim line) (strL "S0") then false
          else if subSeq (jsTrim line) (strL "Z0") || subSeq (jsTrim line) (strL "Z 0") ||
            subSeq (jsTrim line) (strL "S90") then true
          else st.penDown)
        (match findF (jsTrim line) with
          | some cap => parseFloatQ cap
          | none => st.feedRate), ?_, fun _ => rfl, ?_, ?_⟩
      · rw [hML]
        simp only [parseLine, he, Bool.false_eq_true, if_false, hx, hy]
        simp
      · intro h
        exact absurd h (Option.some_ne_none _)
      · intro h
        simp only [h]
    · have hML : isMoveLine line = true := by
        unfold isMoveLine
        rw [hx, he2.1, he2.2]
        rfl
      refine ⟨ParseSt.mk (parseFloatQ cx) st.y
        (if subSeq (jsTrim line) (strL "Z5") || subSeq (jsTrim line) (strL "Z 5") ||
            subSeq (jsTrim line) (strL "S0") then false
          else if subSeq (jsTrim line) (strL "Z0") || subSeq (jsTrim line) (strL "Z 0") ||
            subSeq (jsTrim line) (strL "S90") then true
          else st.penDown)
        (match findF (jsTrim line) with
          | some cap => parseFloatQ cap
          | none => st.feedRate), ?_, ?_, fun _ => rfl, ?_⟩
      · rw [hML]
        simp only [parseLine, he, Bool.false_eq_true, if_false, hx, hy]
        simp
      · intro h
        exact absurd h (Option.some_ne_none _)
      · intro h
        simp only [h]
    · have hML : isMoveLine line = true := by
        unfold isMoveLine
        rw [hx, he2.1, he2.2]
        rfl
      refine ⟨ParseSt.mk (parseFloatQ cx) (parseFloatQ cy)
        (if subSeq (jsTrim line) (strL "Z5") || subSeq (jsTrim line) (strL "Z 5") ||
            subSeq (jsTrim line) (strL "S0") then false
          else if subSeq (jsTrim line) (strL "Z0") || subSeq (jsTrim line) (strL "Z 0") ||
            subSeq (jsTrim line) (strL "S90") then true
          else st.penDown)
        (match findF (jsTrim line) with
          | some cap => parseFloatQ cap
          | none => st.feedRate), ?_, ?_, ?_, ?_⟩
      · rw [hML]
        simp only [parseLine, he, Bool.false_eq_true, if_false, hx, hy]
        simp
      · intro h
        exact absurd h (Option.some_ne_none _)
      · intro h
        exact absurd h (Option.some_ne_none _)
      · intro h
        simp only [h]

theorem parseLine_moveCount (st : ParseSt) (line : List Char) :
    (parseLine st line).2.length = if isMoveLine line then 1 else 0 := by
  obtain ⟨st2, heq, -⟩ := parseLine_semantics st line
  rw [heq]
  by_cases h : isMoveLine line = true
  · rw [if_pos h, if_pos h]
    rfl
  · rw [if_neg h, if_neg h]
    rfl

theorem parseRun_length : ∀ (lines : List (List Char)) (st : ParseSt),
    (parseRun st lines).length = lines.countP fun l => isMoveLine l := by
  intro lines
  induction lines with
  | nil => intro st; rfl
  | cons l rest ih =>
    intro st
    rw [parseRun_cons, List.length_append, ih, List.countP_cons, parseLine_moveCount]
    by_cases h : isMoveLine l = true
    · rw [if_pos h]
      omega
    · rw [if_neg h]
      omega

/-- C8 (confirmed).  The parser is total — it returns a toolpath with one
move per line whose trimmed text is non-blank, non-comment and matches an
`X` or `Y` token, and no move for any other line; each emitted move runs
from the previous running position to the updated one, is tagged draw
exactly when the pen state (after the line's own pen tokens) is down, and
an axis or feed-rate token missing from the line leaves that component of
the running state unchanged. -/
theorem c8_parse_semantics (cfg : MachineConfig) (text : List Char) (st : ParseSt)
    (line : List Char) :
    (parseGcode cfg text).length = (splitLines text).countP (fun l => isMoveLine l) ∧
    ∃ st2 : ParseSt, parseLine st line = (st2,
        if isMoveLine line then
          [ToolpathMove.mk (if st2.penDown then MoveKind.draw else MoveKind.travel)
            (Pt.mk st.x st.y) (Pt.mk st2.x st2.y) st2.feedRate]
        else []) ∧
      (findX (jsTrim line) = none → st2.x = st.x) ∧
      (findY (jsTrim line) = none → st2.y = st.y) ∧
      (findF (jsTrim line) = none → st2.feedRate = st.feedRate) :=
  ⟨parseRun_length (splitLines text) _, parseLine_semantics st line⟩

/-! ## Claim C5: skeletonization loop and its cap -/

theorem skelLoop_zero (w h : ℤ) (img : Img) : skelLoop w h 0 img = img := rfl

theorem skelLoop_succ (w h : ℤ) (fuel : ℕ) (img : Img) :
    skelLoop w h (fuel + 1) img =
      if (thinIter img w h).2 then skelLoop w h fuel (thinIter img w h).1 else img := rfl

/-- The bounded loop runs some number `k ≤ fuel` of full iterations: each
of the first `k` iterations removes something, and the loop stops either
at the fuel cap or at the first iteration that removes nothing, returning
the state reached at that point. -/
theorem skelLoop_runs (w h : ℤ) : ∀ (fuel : ℕ) (img : Img),
    ∃ k ≤ fuel, skelLoop w h fuel img = Nat.iterate (fun j => nextImg j w h) k img ∧
      (∀ j < k, thinChanged (Nat.iterate (fun j2 => nextImg j2 w h) j img) w h = true) ∧
      (k = fuel ∨
        thinChanged (Nat.iterate (fun j2 => nextImg j2 w h) k img) w h = false) := by
  intro fuel
  induction fuel with
  | zero =>
    intro img
    exact ⟨0, Nat.le_refl 0, rfl, fun j hj => absurd hj (Nat.not_lt_zero j), Or.inl rfl⟩
  | succ fuel ih =>
    intro img
    rw [skelLoop_succ]
    by_cases hc : (thinIter img w h).2 = true
    · rw [if_pos hc]
      obtain ⟨k, hk, heq, hall, hstop⟩ := ih (nextImg img w h)
      refine ⟨k + 1, by omega, ?_, ?_, ?_⟩
      · rw [Function.iterate_succ_apply]
        exact heq
      · intro j hj
        rcases j with _ | j
        · exact hc
        · rw [Function.iterate_succ_apply]
          exact hall j (by omega)
      · rcases hstop with h1 | h1
        · exact Or.inl (by omega)
        · right
          rw [Function.iterate_succ_apply]
          exact h1
    · rw [if_neg hc]
      exact ⟨0, Nat.zero_le _, rfl, fun j hj => absurd hj (Nat.not_lt_zero j),
        Or.inr (Bool.eq_false_iff.mpr hc)⟩

/-- C5 (confirmed).  One iteration collects pass-1 candidates against the
pre-pass image, removes them together, then does the same for pass 2 on
the updated image; `skeletonize` runs `k ≤ 100` such iterations, each of
the first `k` removing at least one pixel, and stops at the cap or at the
first iteration that removes nothing — reaching the cap is not an error,
the raster state reached at that point is returned. -/
theorem c5_termination (img : Img) (w h : ℤ) :
    (∃ k ≤ 100, skeletonize img w h = Nat.iterate (fun j => nextImg j w h) k img ∧
      (∀ j < k, thinChanged (Nat.iterate (fun j2 => nextImg j2 w h) j img) w h = true) ∧
      (k = 100 ∨
        thinChanged (Nat.iterate (fun j2 => nextImg j2 w h) k img) w h = false)) ∧
    nextImg img w h =
      removeAll (removeAll img (pass1Remove img w h))
        (pass2Remove (removeAll img (pass1Remove img w h)) w h) ∧
    thinChanged img w h =
      (!(pass1Remove img w h).isEmpty ||
        !(pass2Remove (removeAll img (pass1Remove img w h)) w h).isEmpty) :=
  ⟨skelLoop_runs w h 100 img, rfl, rfl⟩

/-! ## Claim C4: idempotence only holds below the cap -/

/-- C4 (corrected, first half).  On a raster that one full iteration
leaves unchanged — the claim's "already thinned" raster — `skeletonize`
is the identity.  The second, universal half of the claim
(`skeletonize ∘ skeletonize = skeletonize` for every raster) is false:
a raster can still be changing when the 100-iteration cap stops the
loop, and a second `skeletonize` then continues to erode it (see the
counterexample). -/
theorem c4_stable_identity (img : Img) (w h : ℤ)
    (hstable : thinChanged img w h = false) :
    skeletonize img w h = img := by
  show skelLoop w h (99 + 1) img = img
  rw [skelLoop_succ, show (thinIter img w h).2 = false from hstable]
  rfl

/-- Witness for C4 on the empty raster. -/
theorem c4_stable_identity_witness :
    thinChanged zeroImg 5 5 = false ∧ skeletonize zeroImg 5 5 = zeroImg :=
  ⟨by decide, c4_stable_identity zeroImg 5 5 (by decide)⟩

/-! ### Membership in the removal lists, at raster size 407 -/

theorem mem_scanRange407 (v : ℤ) : v ∈ scanRange 407 ↔ 1 ≤ v ∧ v ≤ 405 := by
  unfold scanRange
  constructor
  · intro h
    obtain ⟨k, hk, he⟩ := List.mem_map.mp h
    simp at hk
    obtain ⟨a, ha, rfl⟩ := hk
    omega
  · rintro ⟨h1, h2⟩
    refine List.mem_map.mpr ⟨(v - 1).toNat, ?_, by omega⟩
    simp
    omega

theorem mem_scanCoords407 (p : ℤ × ℤ) :
    p ∈ scanCoords 407 407 ↔ 1 ≤ p.1 ∧ p.1 ≤ 405 ∧ 1 ≤ p.2 ∧ p.2 ≤ 405 := by
  unfold scanCoords
  rw [List.mem_flatMap]
  constructor
  · rintro ⟨y, hy, hp⟩
    rw [List.mem_map] at hp
    obtain ⟨x, hx, rfl⟩ := hp
    rw [mem_scanRange407] at hx hy
    exact ⟨hx.1, hx.2, hy.1, hy.2⟩
  · rintro ⟨h1, h2, h3, h4⟩
    exact ⟨p.2, (mem_scanRange407 p.2).mpr ⟨h3, h4⟩,
      List.mem_map.mpr ⟨p.1, (mem_scanRange407 p.1).mpr ⟨h1, h2⟩, rfl⟩⟩

theorem mem_pass1Remove407 (img : Img) (idx : ℤ) :
    idx ∈ pass1Remove img 407 407 ↔
      1 ≤ idx % 407 ∧ idx % 407 ≤ 405 ∧ 1 ≤ idx / 407 ∧ idx / 407 ≤ 405 ∧
        img idx = 1 ∧ zhangSuenPass1 img (idx % 407) (idx / 407) 407 := by
  unfold pass1Remove
  rw [List.mem_filterMap]
  constructor
  · rintro ⟨p, hp, hcond⟩
    rw [mem_scanCoords407] at hp
    by_cases h : img (p.2 * 407 + p.1) = 1 ∧ zhangSuenPass1 img p.1 p.2 407
    · rw [if_pos h] at hcond
      have heq : p.2 * 407 + p.1 = idx := Option.some.inj hcond
      have hx : p.1 = idx % 407 := by omega
      have hy : p.2 = idx / 407 := by omega
      refine ⟨by omega, by omega, by omega, by omega, heq ▸ h.1, hx ▸ hy ▸ h.2⟩
    · rw [if_neg h] at hcond
      exact Option.noConfusion hcond
  · rintro ⟨h1, h2, h3, h4, h5, h6⟩
    refine ⟨(idx % 407, idx / 407), (mem_scanCoords407 _).mpr ⟨h1, h2, h3, h4⟩, ?_⟩
    have heq : idx / 407 * 407 + idx % 407 = idx := by omega
    show (if img (idx / 407 * 407 + idx % 407) = 1 ∧
        zhangSuenPass1 img (idx % 407) (idx / 407) 407 then
      some (idx / 407 * 407 + idx % 407) else none) = some idx
    rw [heq, if_pos ⟨h5, h6⟩]

theorem mem_pass2Remove407 (img : Img) (idx : ℤ) :
    idx ∈ pass2Remove img 407 407 ↔
      1 ≤ idx % 407 ∧ idx % 407 ≤ 405 ∧ 1 ≤ idx / 407 ∧ idx / 407 ≤ 405 ∧
        img idx = 1 ∧ zhangSuenPass2 img (idx % 407) (idx / 407) 407 := by
  unfold pass2Remove
  rw [List.mem_filterMap]
  constructor
  · rintro ⟨p, hp, hcond⟩
    rw [mem_scanCoords407] at hp
    by_cases h : img (p.2 * 407 + p.1) = 1 ∧ zhangSuenPass2 img p.1 p.2 407
    · rw [if_pos h] at hcond
      have heq : p.2 * 407 + p.1 = idx := Option.some.inj hcond
      have hx : p.1 = idx % 407 := by omega
      have hy : p.2 = idx / 407 := by omega
      refine ⟨by omega, by omega, by omega, by omega, heq ▸ h.1, hx ▸ hy ▸ h.2⟩
    · rw [if_neg h] at hcond
      exact Option.noConfusion hcond
  · rintro ⟨h1, h2, h3, h4, h5, h6⟩
    refine ⟨(idx % 407, idx / 407), (mem_scanCoords407 _).mpr ⟨h1, h2, h3, h4⟩, ?_⟩
    have heq : idx / 407 * 407 + idx % 407 = idx := by omega
    show (if img (idx / 407 * 407 + idx % 407) = 1 ∧
        zhangSuenPass2 img (idx % 407) (idx / 407) 407 then
      some (idx / 407 * 407 + idx % 407) else none) = some idx
    rw [heq, if_pos ⟨h5, h6⟩]

/-! ### Evaluating the neighbour ring on a coordinate-defined raster -/

theorem neighborsT_eval (F : ℤ → ℤ → ℕ) (x y : ℤ)
    (hx : 1 ≤ x) (hx2 : x ≤ 405) (hy : 1 ≤ y) (hy2 : y ≤ 405) :
    neighborsT (fun idx => F (idx % 407) (idx / 407)) x y 407 =
      [F x (y - 1), F (x + 1) (y - 1), F (x + 1) y, F (x + 1) (y + 1), F x (y + 1),
       F (x - 1) (y + 1), F (x - 1) y, F (x - 1) (y - 1)] := by
  unfold neighborsT
  simp only [show ((y - 1) * 407 + x) % 407 = x from by omega,
    show ((y - 1) * 407 + x) / 407 = y - 1 from by omega,
    show ((y - 1) * 407 + x + 1) % 407 = x + 1 from by omega,
    show ((y - 1) * 407 + x + 1) / 407 = y - 1 from by omega,
    show (y * 407 + x + 1) % 407 = x + 1 from by omega,
    show (y * 407 + x + 1) / 407 = y from by omega,
    show ((y + 1) * 407 + x + 1) % 407 = x + 1 from by omega,
    show ((y + 1) * 407 + x + 1) / 407 = y + 1 from by omega,
    show ((y + 1) * 407 + x) % 407 = x from by omega,
    show ((y + 1) * 407 + x) / 407 = y + 1 from by omega,
    show ((y + 1) * 407 + x - 1) % 407 = x - 1 from by omega,
    show ((y + 1) * 407 + x - 1) / 407 = y + 1 from by omega,
    show (y * 407 + x - 1) % 407 = x - 1 from by omega,
    show (y * 407 + x - 1) / 407 = y from by omega,
    show ((y - 1) * 407 + x - 1) % 407 = x - 1 from by omega,
    show ((y - 1) * 407 + x - 1) / 407 = y - 1 from by omega]

theorem shapeImg_eq (i : ℕ) :
    shapeImg i = fun idx => shapeAt i (idx % 407) (idx / 407) := rfl

theorem midImg_eq (i : ℕ) :
    midImg i = fun idx => midAt i (idx % 407) (idx / 407) := rfl

theorem zS1_iff_of_nb {img : Img} {x y w : ℤ} {ns : List ℕ}
    (h : neighborsT img x y w = ns) :
    zhangSuenPass1 img x y w ↔
      (2 ≤ countNeighborsT ns ∧ countNeighborsT ns ≤ 6 ∧ countTransitions ns = 1 ∧
        ns.getD 0 0 * ns.getD 2 0 * ns.getD 4 0 = 0 ∧
        ns.getD 2 0 * ns.getD 4 0 * ns.getD 6 0 = 0) := by
  simp only [zhangSuenPass1, h]

theorem zS2_iff_of_nb {img : Img} {x y w : ℤ} {ns : List ℕ}
    (h : neighborsT img x y w = ns) :
    zhangSuenPass2 img x y w ↔
      (2 ≤ countNeighborsT ns ∧ countNeighborsT ns ≤ 6 ∧ countTransitions ns = 1 ∧
        ns.getD 0 0 * ns.getD 2 0 * ns.getD 6 0 = 0 ∧
        ns.getD 0 0 * ns.getD 4 0 * ns.getD 6 0 = 0) := by
  simp only [zhangSuenPass2, h]

theorem shapeAt_pos {i : ℕ} {x y : ℤ}
    (h : 1 + (i : ℤ) ≤ x ∧ x ≤ 405 - (i : ℤ) ∧ 1 + (i : ℤ) ≤ y ∧ y ≤ 405 - (i : ℤ) ∧
      ¬(1 ≤ i ∧ x = 405 - (i : ℤ) ∧ y = 405 - (i : ℤ))) : shapeAt i x y = 1 := if_pos h

theorem shapeAt_zero {i : ℕ} {x y : ℤ}
    (h : ¬(1 + (i : ℤ) ≤ x ∧ x ≤ 405 - (i : ℤ) ∧ 1 + (i : ℤ) ≤ y ∧ y ≤ 405 - (i : ℤ) ∧
      ¬(1 ≤ i ∧ x = 405 - (i : ℤ) ∧ y = 405 - (i : ℤ)))) : shapeAt i x y = 0 := if_neg h

theorem midAt_pos {i : ℕ} {x y : ℤ}
    (h : 1 + (i : ℤ) ≤ x ∧ x ≤ 404 - (i : ℤ) ∧ 1 + (i : ℤ) ≤ y ∧ y ≤ 404 - (i : ℤ) ∧
      ¬(x = 1 + (i : ℤ) ∧ y = 1 + (i : ℤ))) : midAt i x y = 1 := if_pos h

theorem midAt_zero {i : ℕ} {x y : ℤ}
    (h : ¬(1 + (i : ℤ) ≤ x ∧ x ≤ 404 - (i : ℤ) ∧ 1 + (i : ℤ) ≤ y ∧ y ≤ 404 - (i : ℤ) ∧
      ¬(x = 1 + (i : ℤ) ∧ y = 1 + (i : ℤ)))) : midAt i x y = 0 := if_neg h

theorem shapeAt_cases (i : ℕ) (x y : ℤ) : shapeAt i x y = 0 ∨ shapeAt i x y = 1 := by
  unfold shapeAt
  split_ifs
  · exact Or.inr rfl
  · exact Or.inl rfl

theorem midAt_cases (i : ℕ) (x y : ℤ) : midAt i x y = 0 ∨ midAt i x y = 1 := by
  unfold midAt
  split_ifs
  · exact Or.inr rfl
  · exact Or.inl rfl

theorem shapeAt_one_iff (i : ℕ) (x y : ℤ) : shapeAt i x y = 1 ↔
    (1 + (i : ℤ) ≤ x ∧ x ≤ 405 - (i : ℤ) ∧ 1 + (i : ℤ) ≤ y ∧ y ≤ 405 - (i : ℤ) ∧
      ¬(1 ≤ i ∧ x = 405 - (i : ℤ) ∧ y = 405 - (i : ℤ))) := by
  unfold shapeAt
  split_ifs with h
  · exact iff_of_true rfl h
  · exact iff_of_false (by decide) h

theorem midAt_one_iff (i : ℕ) (x y : ℤ) : midAt i x y = 1 ↔
    (1 + (i : ℤ) ≤ x ∧ x ≤ 404 - (i : ℤ) ∧ 1 + (i : ℤ) ≤ y ∧ y ≤ 404 - (i : ℤ) ∧
      ¬(x = 1 + (i : ℤ) ∧ y = 1 + (i : ℤ))) := by
  unfold midAt
  split_ifs with h
  · exact iff_of_true rfl h
  · exact iff_of_false (by decide) h

/-- Pass 1 on the stage-`i` shape removes exactly the south edge, the
east edge and the north-west corner: for a foreground pixel of the shape,
the pass-1 condition holds iff the pixel is outside the intermediate
shape `midAt`. -/
theorem key1 (i : ℕ) (hi : i ≤ 199) (x y : ℤ)
    (hin : 1 + (i : ℤ) ≤ x ∧ x ≤ 405 - (i : ℤ) ∧ 1 + (i : ℤ) ≤ y ∧ y ≤ 405 - (i : ℤ) ∧
      ¬(1 ≤ i ∧ x = 405 - (i : ℤ) ∧ y = 405 - (i : ℤ))) :
    zhangSuenPass1 (shapeImg i) x y 407 ↔ midAt i x y = 0 := by
  have hNB : neighborsT (shapeImg i) x y 407 =
      [shapeAt i x (y - 1), shapeAt i (x + 1) (y - 1), shapeAt i (x + 1) y,
       shapeAt i (x + 1) (y + 1), shapeAt i x (y + 1), shapeAt i (x - 1) (y + 1),
       shapeAt i (x - 1) y, shapeAt i (x - 1) (y - 1)] := by
    rw [shapeImg_eq]
    exact neighborsT_eval (shapeAt i) x y (by omega) (by omega) (by omega) (by omega)
  rw [zS1_iff_of_nb hNB]
  rcases eq_or_lt_of_le hin.1 with hxL | hxL
  · rcases eq_or_lt_of_le hin.2.2.1 with hyL | hyL
    · rw [@shapeAt_zero i x (y - 1) (by omega), @shapeAt_zero i (x + 1) (y - 1) (by omega),
        @shapeAt_pos i (x + 1) y (by omega), @shapeAt_pos i (x + 1) (y + 1) (by omega),
        @shapeAt_pos i x (y + 1) (by omega), @shapeAt_zero i (x - 1) (y + 1) (by omega),
        @shapeAt_zero i (x - 1) y (by omega), @shapeAt_zero i (x - 1) (y - 1) (by omega),
        @midAt_zero i x y (by omega)]
      decide
    · rcases eq_or_lt_of_le hin.2.2.2.1 with hyR | hyR
      · rw [@shapeAt_pos i x (y - 1) (by omega), @shapeAt_pos i (x + 1) (y - 1) (by omega),
          @shapeAt_pos i (x + 1) y (by omega), @shapeAt_zero i (x + 1) (y + 1) (by omega),
          @shapeAt_zero i x (y + 1) (by omega), @shapeAt_zero i (x - 1) (y + 1) (by omega),
          @shapeAt_zero i (x - 1) y (by omega), @shapeAt_zero i (x - 1) (y - 1) (by omega),
          @midAt_zero i x y (by omega)]
        decide
      · rw [@shapeAt_pos i x (y - 1) (by omega), @shapeAt_pos i (x + 1) (y - 1) (by omega),
          @shapeAt_pos i (x + 1) y (by omega), @shapeAt_pos i (x + 1) (y + 1) (by omega),
          @shapeAt_pos i x (y + 1) (by omega), @shapeAt_zero i (x - 1) (y + 1) (by omega),
          @shapeAt_zero i (x - 1) y (by omega), @shapeAt_zero i (x - 1) (y - 1) (by omega),
          @midAt_pos i x y (by omega)]
        decide
  · rcases eq_or_lt_of_le hin.2.1 with hxR | hxR
    · rcases eq_or_lt_of_le hin.2.2.1 with hyL | hyL
      · rw [@shapeAt_zero i x (y - 1) (by omega), @shapeAt_zero i (x + 1) (y - 1) (by omega),
          @shapeAt_zero i (x + 1) y (by omega), @shapeAt_zero i (x + 1) (y + 1) (by omega),
          @shapeAt_pos i x (y + 1) (by omega), @shapeAt_pos i (x - 1) (y + 1) (by omega),
          @shapeAt_pos i (x - 1) y (by omega), @shapeAt_zero i (x - 1) (y - 1) (by omega),
          @midAt_zero i x y (by omega)]
        decide
      · rcases eq_or_lt_of_le hin.2.2.2.1 with hyR | hyR
        · rw [@shapeAt_pos i x (y - 1) (by omega), @shapeAt_zero i (x + 1) (y - 1) (by omega),
            @shapeAt_zero i (x + 1) y (by omega), @shapeAt_zero i (x + 1) (y + 1) (by omega),
            @shapeAt_zero i x (y + 1) (by omega), @shapeAt_zero i (x - 1) (y + 1) (by omega),
            @shapeAt_pos i (x - 1) y (by omega), @shapeAt_pos i (x - 1) (y - 1) (by omega),
            @midAt_zero i x y (by omega)]
          decide
        · by_cases hd : 1 ≤ i ∧ y + 1 = 405 - (i : ℤ)
          · rw [@shapeAt_pos i x (y - 1) (by omega), @shapeAt_zero i (x + 1) (y - 1) (by omega),
              @shapeAt_zero i (x + 1) y (by omega), @shapeAt_zero i (x + 1) (y + 1) (by omega),
              @shapeAt_zero i x (y + 1) (by omega), @shapeAt_pos i (x - 1) (y + 1) (by omega),
              @shapeAt_pos i (x - 1) y (by omega), @shapeAt_pos i (x - 1) (y - 1) (by omega),
              @midAt_zero i x y (by omega)]
            decide
          · rw [@shapeAt_pos i x (y - 1) (by omega), @shapeAt_zero i (x + 1) (y - 1) (by omega),
              @shapeAt_zero i (x + 1) y (by omega), @shapeAt_zero i (x + 1) (y + 1) (by omega),
              @shapeAt_pos i x (y + 1) (by omega), @shapeAt_pos i (x - 1) (y + 1) (by omega),
              @shapeAt_pos i (x - 1) y (by omega), @shapeAt_pos i (x - 1) (y - 1) (by omega),
              @midAt_zero i x y (by omega)]
            decide
    · rcases eq_or_lt_of_le hin.2.2.1 with hyL | hyL
      · rw [@shapeAt_zero i x (y - 1) (by omega), @shapeAt_zero i (x + 1) (y - 1) (by omega),
          @shapeAt_pos i (x + 1) y (by omega), @shapeAt_pos i (x + 1) (y + 1) (by omega),
          @shapeAt_pos i x (y + 1) (by omega), @shapeAt_pos i (x - 1) (y + 1) (by omega),
          @shapeAt_pos i (x - 1) y (by omega), @shapeAt_zero i (x - 1) (y - 1) (by omega),
          @midAt_pos i x y (by omega)]
        decide
      · rcases eq_or_lt_of_le hin.2.2.2.1 with hyR | hyR
        · by_cases hd : 1 ≤ i ∧ x + 1 = 405 - (i : ℤ)
          · rw [@shapeAt_pos i x (y - 1) (by omega), @shapeAt_pos i (x + 1) (y - 1) (by omega),
              @shapeAt_zero i (x + 1) y (by omega), @shapeAt_zero i (x + 1) (y + 1) (by omega),
              @shapeAt_zero i x (y + 1) (by omega), @shapeAt_zero i (x - 1) (y + 1) (by omega),
              @shapeAt_pos i (x - 1) y (by omega), @shapeAt_pos i (x - 1) (y - 1) (by omega),
              @midAt_zero i x y (by omega)]
            decide
          · rw [@shapeAt_pos i x (y - 1) (by omega), @shapeAt_pos i (x + 1) (y - 1) (by omega),
              @shapeAt_pos i (x + 1) y (by omega), @shapeAt_zero i (x + 1) (y + 1) (by omega),
              @shapeAt_zero i x (y + 1) (by omega), @shapeAt_zero i (x - 1) (y + 1) (by omega),
              @shapeAt_pos i (x - 1) y (by omega), @shapeAt_pos i (x - 1) (y - 1) (by omega),
              @midAt_zero i x y (by omega)]
            decide
        · by_cases hd : 1 ≤ i ∧ x = 404 - (i : ℤ) ∧ y = 404 - (i : ℤ)
          · rw [@shapeAt_pos i x (y - 1) (by omega), @shapeAt_pos i (x + 1) (y - 1) (by omega),
              @shapeAt_pos i (x + 1) y (by omega), @shapeAt_zero i (x + 1) (y + 1) (by omega),
              @shapeAt_pos i x (y + 1) (by omega), @shapeAt_pos i (x - 1) (y + 1) (by omega),
              @shapeAt_pos i (x - 1) y (by omega), @shapeAt_pos i (x - 1) (y - 1) (by omega),
              @midAt_pos i x y (by omega)]
            decide
          · rw [@shapeAt_pos i x (y - 1) (by omega), @shapeAt_pos i (x + 1) (y - 1) (by omega),
              @shapeAt_pos i (x + 1) y (by omega), @shapeAt_pos i (x + 1) (y + 1) (by omega),
              @shapeAt_pos i x (y + 1) (by omega), @shapeAt_pos i (x - 1) (y + 1) (by omega),
              @shapeAt_pos i (x - 1) y (by omega), @shapeAt_pos i (x - 1) (y - 1) (by omega),
              @midAt_pos i x y (by omega)]
            decide

/-- Pass 2 on the intermediate shape removes exactly the north edge, the
west edge and the south-east corner, leaving the stage-`i + 1` shape. -/
theorem key2 (i : ℕ) (hi : i ≤ 199) (x y : ℤ)
    (hin : 1 + (i : ℤ) ≤ x ∧ x ≤ 404 - (i : ℤ) ∧ 1 + (i : ℤ) ≤ y ∧ y ≤ 404 - (i : ℤ) ∧
      ¬(x = 1 + (i : ℤ) ∧ y = 1 + (i : ℤ))) :
    zhangSuenPass2 (midImg i) x y 407 ↔ shapeAt (i + 1) x y = 0 := by
  have hNB : neighborsT (midImg i) x y 407 =
      [midAt i x (y - 1), midAt i (x + 1) (y - 1), midAt i (x + 1) y,
       midAt i (x + 1) (y + 1), midAt i x (y + 1), midAt i (x - 1) (y + 1),
       midAt i (x - 1) y, midAt i (x - 1) (y - 1)] := by
    rw [midImg_eq]
    exact neighborsT_eval (midAt i) x y (by omega) (by omega) (by omega) (by omega)
  rw [zS2_iff_of_nb hNB]
  rcases eq_or_lt_of_le hin.1 with hxL | hxL
  · rcases eq_or_lt_of_le hin.2.2.1 with hyL | hyL
    · exact absurd ⟨hxL.symm, hyL.symm⟩ hin.2.2.2.2
    · rcases eq_or_lt_of_le hin.2.2.2.1 with hyR | hyR
      · rw [@midAt_pos i x (y - 1) (by omega), @midAt_pos i (x + 1) (y - 1) (by omega),
          @midAt_pos i (x + 1) y (by omega), @midAt_zero i (x + 1) (y + 1) (by omega),
          @midAt_zero i x (y + 1) (by omega), @midAt_zero i (x - 1) (y + 1) (by omega),
          @midAt_zero i (x - 1) y (by omega), @midAt_zero i (x - 1) (y - 1) (by omega),
          @shapeAt_zero (i + 1) x y (by omega)]
        decide
      · by_cases hd : y = 2 + (i : ℤ)
        · rw [@midAt_zero i x (y - 1) (by omega), @midAt_pos i (x + 1) (y - 1) (by omega),
            @midAt_pos i (x + 1) y (by omega), @midAt_pos i (x + 1) (y + 1) (by omega),
            @midAt_pos i x (y + 1) (by omega), @midAt_zero i (x - 1) (y + 1) (by omega),
            @midAt_zero i (x - 1) y (by omega), @midAt_zero i (x - 1) (y - 1) (by omega),
            @shapeAt_zero (i + 1) x y (by omega)]
          decide
        · rw [@midAt_pos i x (y - 1) (by omega), @midAt_pos i (x + 1) (y - 1) (by omega),
            @midAt_pos i (x + 1) y (by omega), @midAt_pos i (x + 1) (y + 1) (by omega),
            @midAt_pos i x (y + 1) (by omega), @midAt_zero i (x - 1) (y + 1) (by omega),
            @midAt_zero i (x - 1) y (by omega), @midAt_zero i (x - 1) (y - 1) (by omega),
            @shapeAt_zero (i + 1) x y (by omega)]
          decide
  · rcases eq_or_lt_of_le hin.2.1 with hxR | hxR
    · rcases eq_or_lt_of_le hin.2.2.1 with hyL | hyL
      · rw [@midAt_zero i x (y - 1) (by omega), @midAt_zero i (x + 1) (y - 1) (by omega),
          @midAt_zero i (x + 1) y (by omega), @midAt_zero i (x + 1) (y + 1) (by omega),
          @midAt_pos i x (y + 1) (by omega), @midAt_pos i (x - 1) (y + 1) (by omega),
          @midAt_pos i (x - 1) y (by omega), @midAt_zero i (x - 1) (y - 1) (by omega),
          @shapeAt_zero (i + 1) x y (by omega)]
        decide
      · rcases eq_or_lt_of_le hin.2.2.2.1 with hyR | hyR
        · rw [@midAt_pos i x (y - 1) (by omega), @midAt_zero i (x + 1) (y - 1) (by omega),
            @midAt_zero i (x + 1) y (by omega), @midAt_zero i (x + 1) (y + 1) (by omega),
            @midAt_zero i x (y + 1) (by omega), @midAt_zero i (x - 1) (y + 1) (by omega),
            @midAt_pos i (x - 1) y (by omega), @midAt_pos i (x - 1) (y - 1) (by omega),
            @shapeAt_zero (i + 1) x y (by omega)]
          decide
        · rw [@midAt_pos i x (y - 1) (by omega), @midAt_zero i (x + 1) (y - 1) (by omega),
            @midAt_zero i (x + 1) y (by omega), @midAt_zero i (x + 1) (y + 1) (by omega),
            @midAt_pos i x (y + 1) (by omega), @midAt_pos i (x - 1) (y + 1) (by omega),
            @midAt_pos i (x - 1) y (by omega), @midAt_pos i (x - 1) (y - 1) (by omega),
            @shapeAt_pos (i + 1) x y (by omega)]
          decide
    · rcases eq_or_lt_of_le hin.2.2.1 with hyL | hyL
      · by_cases hd : x = 2 + (i : ℤ)
        · rw [@midAt_zero i x (y - 1) (by omega), @midAt_zero i (x + 1) (y - 1) (by omega),
            @midAt_pos i (x + 1) y (by omega), @midAt_pos i (x + 1) (y + 1) (by omega),
            @midAt_pos i x (y + 1) (by omega), @midAt_pos i (x - 1) (y + 1) (by omega),
            @midAt_zero i (x - 1) y (by omega), @midAt_zero i (x - 1) (y - 1) (by omega),
            @shapeAt_zero (i + 1) x y (by omega)]
          decide
        · rw [@midAt_zero i x (y - 1) (by omega), @midAt_zero i (x + 1) (y - 1) (by omega),
            @midAt_pos i (x + 1) y (by omega), @midAt_pos i (x + 1) (y + 1) (by omega),
            @midAt_pos i x (y + 1) (by omega), @midAt_pos i (x - 1) (y + 1) (by omega),
            @midAt_pos i (x - 1) y (by omega), @midAt_zero i (x - 1) (y - 1) (by omega),
            @shapeAt_zero (i + 1) x y (by omega)]
          decide
      · rcases eq_or_lt_of_le hin.2.2.2.1 with hyR | hyR
        · rw [@midAt_pos i x (y - 1) (by omega), @midAt_pos i (x + 1) (y - 1) (by omega),
            @midAt_pos i (x + 1) y (by omega), @midAt_zero i (x + 1) (y + 1) (by omega),
            @midAt_zero i x (y + 1) (by omega), @midAt_zero i (x - 1) (y + 1) (by omega),
            @midAt_pos i (x - 1) y (by omega), @midAt_pos i (x - 1) (y - 1) (by omega),
            @shapeAt_pos (i + 1) x y (by omega)]
          decide
        · by_cases hd : x = 2 + (i : ℤ) ∧ y = 2 + (i : ℤ)
          · rw [@midAt_pos i x (y - 1) (by omega), @midAt_pos i (x + 1) (y - 1) (by omega),
              @midAt_pos i (x + 1) y (by omega), @midAt_pos i (x + 1) (y + 1) (by omega),
              @midAt_pos i x (y + 1) (by omega), @midAt_pos i (x - 1) (y + 1) (by omega),
              @midAt_pos i (x - 1) y (by omega), @midAt_zero i (x - 1) (y - 1) (by omega),
              @shapeAt_pos (i + 1) x y (by omega)]
            decide
          · rw [@midAt_pos i x (y - 1) (by omega), @midAt_pos i (x + 1) (y - 1) (by omega),
              @midAt_pos i (x + 1) y (by omega), @midAt_pos i (x + 1) (y + 1) (by omega),
              @midAt_pos i x (y + 1) (by omega), @midAt_pos i (x - 1) (y + 1) (by omega),
              @midAt_pos i (x - 1) y (by omega), @midAt_pos i (x - 1) (y - 1) (by omega),
              @shapeAt_pos (i + 1) x y (by omega)]
            decide

/-- Pass 1 carves the stage-`i` shape down to the intermediate shape. -/
theorem pass1_shape (i : ℕ) (hi : i ≤ 199) :
    removeAll (shapeImg i) (pass1Remove (shapeImg i) 407 407) = midImg i := by
  funext idx
  show (if idx ∈ pass1Remove (shapeImg i) 407 407 then 0 else shapeImg i idx) =
    midImg i idx
  by_cases hmem : idx ∈ pass1Remove (shapeImg i) 407 407
  · rw [if_pos hmem]
    obtain ⟨h1, h2, h3, h4, h5, h6⟩ := (mem_pass1Remove407 _ _).mp hmem
    have h5' : shapeAt i (idx % 407) (idx / 407) = 1 := h5
    have hin := (shapeAt_one_iff i (idx % 407) (idx / 407)).mp h5'
    have hz := (key1 i hi (idx % 407) (idx / 407) hin).mp h6
    show (0 : ℕ) = midAt i (idx % 407) (idx / 407)
    rw [hz]
  · rw [if_neg hmem]
    show shapeAt i (idx % 407) (idx / 407) = midAt i (idx % 407) (idx / 407)
    rcases shapeAt_cases i (idx % 407) (idx / 407) with hs | hs
    · rcases midAt_cases i (idx % 407) (idx / 407) with hm | hm
      · rw [hs, hm]
      · have hmc := (midAt_one_iff _ _ _).mp hm
        have hsc : shapeAt i (idx % 407) (idx / 407) = 1 :=
          (shapeAt_one_iff _ _ _).mpr (by omega)
        rw [hs] at hsc
        exact absurd hsc (by decide)
    · have hin := (shapeAt_one_iff _ _ _).mp hs
      have hnz : ¬ zhangSuenPass1 (shapeImg i) (idx % 407) (idx / 407) 407 := by
        intro hz
        exact hmem ((mem_pass1Remove407 _ _).mpr
          ⟨by omega, by omega, by omega, by omega, hs, hz⟩)
      rcases midAt_cases i (idx % 407) (idx / 407) with hm | hm
      · exact absurd hm ((not_congr (key1 i hi _ _ hin)).mp hnz)
      · rw [hs, hm]

/-- Pass 2 carves the intermediate shape down to the stage-`i + 1`
shape. -/
theorem pass2_mid (i : ℕ) (hi : i ≤ 199) :
    removeAll (midImg i) (pass2Remove (midImg i) 407 407) = shapeImg (i + 1) := by
  funext idx
  show (if idx ∈ pass2Remove (midImg i) 407 407 then 0 else midImg i idx) =
    shapeImg (i + 1) idx
  by_cases hmem : idx ∈ pass2Remove (midImg i) 407 407
  · rw [if_pos hmem]
    obtain ⟨h1, h2, h3, h4, h5, h6⟩ := (mem_pass2Remove407 _ _).mp hmem
    have h5' : midAt i (idx % 407) (idx / 407) = 1 := h5
    have hin := (midAt_one_iff i (idx % 407) (idx / 407)).mp h5'
    have hz := (key2 i hi (idx % 407) (idx / 407) hin).mp h6
    show (0 : ℕ) = shapeAt (i + 1) (idx % 407) (idx / 407)
    rw [hz]
  · rw [if_neg hmem]
    show midAt i (idx % 407) (idx / 407) = shapeAt (i + 1) (idx % 407) (idx / 407)
    rcases midAt_cases i (idx % 407) (idx / 407) with hs | hs
    · rcases shapeAt_cases (i + 1) (idx % 407) (idx / 407) with hm | hm
      · rw [hs, hm]
      · have hmc := (shapeAt_one_iff _ _ _).mp hm
        have hsc : midAt i (idx % 407) (idx / 407) = 1 :=
          (midAt_one_iff _ _ _).mpr (by omega)
        rw [hs] at hsc
        exact absurd hsc (by decide)
    · have hin := (midAt_one_iff _ _ _).mp hs
      have hnz : ¬ zhangSuenPass2 (midImg i) (idx % 407) (idx / 407) 407 := by
        intro hz
        exact hmem ((mem_pass2Remove407 _ _).mpr
          ⟨by omega, by omega, by omega, by omega, hs, hz⟩)
      rcases shapeAt_cases (i + 1) (idx % 407) (idx / 407) with hm | hm
      · exact absurd hm ((not_congr (key2 i hi _ _ hin)).mp hnz)
      · rw [hs, hm]

/-- The south-edge pixel `(202, 405 - i)` is removed by pass 1 at every
stage `i ≤ 199`, so every capped iteration still changes the raster. -/
theorem pass1_witness_mem (i : ℕ) (hi : i ≤ 199) :
    ((405 - (i : ℤ)) * 407 + 202) ∈ pass1Remove (shapeImg i) 407 407 := by
  apply (mem_pass1Remove407 _ _).mpr
  have hx : ((405 - (i : ℤ)) * 407 + 202) % 407 = 202 := by omega
  have hy : ((405 - (i : ℤ)) * 407 + 202) / 407 = 405 - (i : ℤ) := by omega
  rw [hx, hy]
  refine ⟨by omega, by omega, by omega, by omega, ?_, ?_⟩
  · show shapeAt i (((405 - (i : ℤ)) * 407 + 202) % 407)
      (((405 - (i : ℤ)) * 407 + 202) / 407) = 1
    rw [hx, hy]
    exact shapeAt_pos (by omega)
  · exact (key1 i hi 202 (405 - (i : ℤ)) (by omega)).mpr (midAt_zero (by omega))

/-- One capped iteration maps the stage-`i` shape to the stage-`i + 1`
shape and reports a change, for every `i ≤ 199`. -/
theorem thinIter_shape (i : ℕ) (hi : i ≤ 199) :
    thinIter (shapeImg i) 407 407 = (shapeImg (i + 1), true) := by
  have hne : (pass1Remove (shapeImg i) 407 407).isEmpty = false := by
    rcases hL : pass1Remove (shapeImg i) 407 407 with _ | ⟨a, l⟩
    · have := pass1_witness_mem i hi
      rw [hL] at this
      exact absurd this (List.not_mem_nil _)
    · rfl
  have hfst : (thinIter (shapeImg i) 407 407).1 = shapeImg (i + 1) := by
    show removeAll (removeAll (shapeImg i) (pass1Remove (shapeImg i) 407 407))
      (pass2Remove (removeAll (shapeImg i) (pass1Remove (shapeImg i) 407 407)) 407 407) =
      shapeImg (i + 1)
    rw [pass1_shape i hi]
    exact pass2_mid i hi
  have hsnd : (thinIter (shapeImg i) 407 407).2 = true := by
    show (!(pass1Remove (shapeImg i) 407 407).isEmpty ||
      !(pass2Remove (removeAll (shapeImg i) (pass1Remove (shapeImg i) 407 407))
        407 407).isEmpty) = true
    rw [hne]
    rfl
  exact Prod.ext hfst hsnd

/-- Running `n ≤ 200 - j` capped iterations from the stage-`j` shape
reaches the stage-`j + n` shape, always spending the full fuel. -/
theorem skelLoop_shape : ∀ (n j : ℕ), j + n ≤ 200 →
    skelLoop 407 407 n (shapeImg j) = shapeImg (j + n) := by
  intro n
  induction n with
  | zero => intro j _; rfl
  | succ n ih =>
    intro j hj
    rw [skelLoop_succ, thinIter_shape j (by omega)]
    rw [if_pos (rfl : ((shapeImg (j + 1), true) : Img × Bool).2 = true)]
    rw [show ((shapeImg (j + 1), true) : Img × Bool).1 = shapeImg (j + 1) from rfl]
    rw [ih (j + 1) (by omega), show j + 1 + n = j + (n + 1) from by omega]

/-- C4 counterexample: the solid 405-square is still changing when the
100-iteration cap stops the loop, so a second `skeletonize` keeps
eroding: the two sides differ at pixel `(101, 101)`. -/
theorem c4_counterexample :
    skeletonize (skeletonize solidSquare wSq wSq) wSq wSq ≠
      skeletonize solidSquare wSq wSq := by
  have h1 : skeletonize solidSquare wSq wSq = shapeImg 100 := by
    show skelLoop 407 407 100 (shapeImg 0) = shapeImg 100
    exact skelLoop_shape 100 0 (by omega)
  have h2 : skeletonize (shapeImg 100) wSq wSq = shapeImg 200 := by
    show skelLoop 407 407 100 (shapeImg 100) = shapeImg 200
    exact skelLoop_shape 100 100 (by omega)
  rw [h1, h2]
  intro h
  have hpt := congrFun h (101 * 407 + 101)
  have hv1 : shapeImg 100 (101 * 407 + 101) = 1 := by
    show shapeAt 100 ((101 * 407 + 101 : ℤ) % 407) ((101 * 407 + 101 : ℤ) / 407) = 1
    rw [show ((101 * 407 + 101 : ℤ)) % 407 = 101 from by omega,
      show ((101 * 407 + 101 : ℤ)) / 407 = 101 from by omega]
    exact shapeAt_pos (by omega)
  have hv2 : shapeImg 200 (101 * 407 + 101) = 0 := by
    show shapeAt 200 ((101 * 407 + 101 : ℤ) % 407) ((101 * 407 + 101 : ℤ) / 407) = 0
    rw [show ((101 * 407 + 101 : ℤ)) % 407 = 101 from by omega,
      show ((101 * 407 + 101 : ℤ)) / 407 = 101 from by omega]
    exact shapeAt_zero (by omega)
  rw [hv1, hv2] at hpt
  exact absurd hpt (by decide)

/-! ## Claim C10: traced paths are pairwise disjoint -/

theorem traceGo_zero (skel : Img) (w h : ℤ) (x y : ℤ) (v : Finset ℤ)
    (acc : List (ℤ × ℤ)) : traceGo skel w h 0 x y v acc = (acc.reverse, v) := rfl

theorem traceGo_succ (skel : Img) (w h : ℤ) (fuel : ℕ) (x y : ℤ) (v : Finset ℤ)
    (acc : List (ℤ × ℤ)) :
    traceGo skel w h (fuel + 1) x y v acc =
      if y * w + x ∈ v then (acc.reverse, v)
      else
        match findNb skel w h (insert (y * w + x) v) x y with
        | some p => traceGo skel w h fuel p.1 p.2 (insert (y * w + x) v) ((x, y) :: acc)
        | none => (((x, y) :: acc).reverse, insert (y * w + x) v) := rfl

/-- The walk only grows the visited set, and every pixel of the returned
path either was already in the accumulator or is newly visited: marked in
the final visited set but not in the incoming one. -/
theorem traceGo_inv (skel : Img) (w h : ℤ) : ∀ (fuel : ℕ) (x y : ℤ) (v : Finset ℤ)
    (acc : List (ℤ × ℤ)),
    v ⊆ (traceGo skel w h fuel x y v acc).2 ∧
    ∀ p ∈ (traceGo skel w h fuel x y v acc).1, p ∈ acc ∨
      (p.2 * w + p.1 ∈ (traceGo skel w h fuel x y v acc).2 ∧ p.2 * w + p.1 ∉ v) := by
  intro fuel
  induction fuel with
  | zero =>
    intro x y v acc
    rw [traceGo_zero]
    exact ⟨Finset.Subset.refl v, fun p hp => Or.inl (List.mem_reverse.mp hp)⟩
  | succ fuel ih =>
    intro x y v acc
    rw [traceGo_succ]
    by_cases hv : y * w + x ∈ v
    · rw [if_pos hv]
      exact ⟨Finset.Subset.refl v, fun p hp => Or.inl (List.mem_reverse.mp hp)⟩
    · rw [if_neg hv]
      have hsub : v ⊆ insert (y * w + x) v := Finset.subset_insert _ v
      rcases hnb : findNb skel w h (insert (y * w + x) v) x y with _ | q
      · refine ⟨hsub, fun p hp => ?_⟩
        rcases List.mem_cons.mp (List.mem_reverse.mp hp) with hpx | hpa
        · subst hpx
          exact Or.inr ⟨Finset.mem_insert_self _ _, hv⟩
        · exact Or.inl hpa
      · obtain ⟨ihs, ihm⟩ := ih q.1 q.2 (insert (y * w + x) v) ((x, y) :: acc)
        refine ⟨hsub.trans ihs, fun p hp => ?_⟩
        rcases ihm p hp with hpa | ⟨hin, hnotin⟩
        · rcases List.mem_cons.mp hpa with hpx | hpa2
          · subst hpx
            exact Or.inr ⟨ihs (Finset.mem_insert_self _ _), hv⟩
          · exact Or.inl hpa2
        · exact Or.inr ⟨hin, fun hc => hnotin (hsub hc)⟩

theorem dpScan_some (pts : List Pt) (p1 p2 : Pt) :
    ∀ (idxs : List ℕ) (init : ℚ × Option ℕ) (i : ℕ),
    (dpScan pts p1 p2 idxs init).2 = some i → init.2 = some i ∨ i ∈ idxs := by
  intro idxs
  induction idxs with
  | nil => intro init i h; exact Or.inl h
  | cons j rest ih =>
    intro init i h
    rw [show dpScan pts p1 p2 (j :: rest) init = dpScan pts p1 p2 rest
      (if init.1 < getSqSegDist (pts.getD j (Pt.mk 0 0)) p1 p2 then
        (getSqSegDist (pts.getD j (Pt.mk 0 0)) p1 p2, some j) else init) from rfl] at h
    rcases ih _ i h with h2 | h2
    · by_cases hlt : init.1 < getSqSegDist (pts.getD j (Pt.mk 0 0)) p1 p2
      · rw [if_pos hlt] at h2
        right
        rw [List.mem_cons]
        exact Or.inl (Option.some.inj h2).symm
      · rw [if_neg hlt] at h2
        exact Or.inl h2
    · exact Or.inr (List.mem_cons_of_mem _ h2)

theorem dpRun_subset (pts : List Pt) (sqTol : ℚ) : ∀ (fuel first last : ℕ),
    last < pts.length →
    ∀ x ∈ dpRun pts sqTol fuel first last, x ∈ pts := by
  intro fuel
  induction fuel with
  | zero => intro first last _ x hx; exact absurd hx (List.not_mem_nil x)
  | succ fuel ih =>
    intro first last hlast x hx
    unfold dpRun at hx
    by_cases hc : sqTol < (dpScan pts (pts.getD first (Pt.mk 0 0))
        (pts.getD last (Pt.mk 0 0)) (List.range' (first + 1) (last - first - 1))
        (sqTol, none)).1
    · rw [if_pos hc] at hx
      rcases hs : (dpScan pts (pts.getD first (Pt.mk 0 0)) (pts.getD last (Pt.mk 0 0))
          (List.range' (first + 1) (last - first - 1)) (sqTol, none)).2 with _ | index
      · rw [hs] at hx
        exact absurd hx (List.not_mem_nil x)
      · rw [hs] at hx
        have hidx : index ∈ List.range' (first + 1) (last - first - 1) := by
          rcases dpScan_some pts _ _ _ _ _ hs with h | h
          · exact absurd h (Option.noConfusion)
          · exact h
        have hidx2 : index < pts.length := by
          rw [List.mem_range'_1] at hidx
          omega
        rcases List.mem_append.mp hx with h | h
        · by_cases hf : 1 < index - first
          · rw [if_pos hf] at h
            exact ih first index (by omega) x h
          · rw [if_neg hf] at h
            exact absurd h (List.not_mem_nil x)
        · rcases List.mem_cons.mp h with h2 | h2
          · subst h2
            exact getD_mem_of_lt pts index (Pt.mk 0 0) hidx2
          · by_cases hf : 1 < last - index
            · rw [if_pos hf] at h2
              exact ih index last hlast x h2
            · rw [if_neg hf] at h2
              exact absurd h2 (List.not_mem_nil x)
    · rw [if_neg hc] at hx
      exact absurd hx (List.not_mem_nil x)

theorem simplifyPath_subset (pts : List Pt) (tol : ℚ) :
    ∀ x ∈ simplifyPath pts tol, x ∈ pts := by
  intro x hx
  unfold simplifyPath at hx
  by_cases h : pts.length ≤ 2
  · rw [if_pos h] at hx
    exact hx
  · rw [if_neg h] at hx
    rcases List.mem_append.mp hx with h2 | h2
    · rcases List.mem_cons.mp h2 with h3 | h3
      · subst h3
        exact getD_mem_of_lt pts 0 (Pt.mk 0 0) (by omega)
      · exact dpRun_subset pts (tol * tol) pts.length 0 (pts.length - 1)
          (by omega) x h3
    · rcases List.mem_cons.mp h2 with h3 | h3
      · subst h3
        exact getD_mem_of_lt pts (pts.length - 1) (Pt.mk 0 0) (by omega)
      · exact absurd h3 (List.not_mem_nil x)

theorem pixelPt_inj {p1 p2 : ℤ × ℤ} (h : pixelPt p1 = pixelPt p2) : p1 = p2 := by
  unfold pixelPt at h
  have h1 : ((p1.1 : ℚ)) = (p2.1 : ℚ) := congrArg Pt.x h
  have h2 : ((p1.2 : ℚ)) = (p2.2 : ℚ) := congrArg Pt.y h
  have e1 : p1.1 = p2.1 := by exact_mod_cast h1
  have e2 : p1.2 = p2.2 := by exact_mod_cast h2
  exact Prod.ext e1 e2

/-- `tracePath` only grows the visited set, and every point of the
returned (simplified) path is the image of a pixel that is newly marked
visited: in the outgoing set, not in the incoming one. -/
theorem tracePath_inv (skel : Img) (w h : ℤ) (sx sy : ℤ) (v : Finset ℤ) :
    v ⊆ (tracePath skel w h sx sy v).2 ∧
    ∀ q ∈ (tracePath skel w h sx sy v).1, ∃ p : ℤ × ℤ, q = pixelPt p ∧
      p.2 * w + p.1 ∈ (tracePath skel w h sx sy v).2 ∧ p.2 * w + p.1 ∉ v := by
  obtain ⟨hs, hm⟩ := traceGo_inv skel w h 10000 sx sy v []
  refine ⟨hs, fun q hq => ?_⟩
  have hq2 := simplifyPath_subset _ _ q hq
  obtain ⟨p, hp, rfl⟩ := List.mem_map.mp hq2
  rcases hm p hp with hpa | ⟨hin, hnotin⟩
  · exact absurd hpa (List.not_mem_nil p)
  · exact ⟨p, rfl, hin, hnotin⟩

/-- The invariant carried through one extraction phase: every already
extracted point is the image of a visited pixel, and the extracted paths
are pairwise disjoint. -/
theorem extractPhase_inv (skel : Img) (w h : ℤ) (checkFg : Bool) :
    ∀ (starts : List (ℤ × ℤ)) (v : Finset ℤ) (acc : List (List Pt)),
    (∀ path ∈ acc, ∀ q ∈ path, ∃ p : ℤ × ℤ, q = pixelPt p ∧ p.2 * w + p.1 ∈ v) →
    List.Pairwise (fun p1 p2 => ∀ z ∈ p1, z ∉ p2) acc →
    (∀ path ∈ (extractPhase skel w h checkFg starts v acc).2, ∀ q ∈ path,
      ∃ p : ℤ × ℤ, q = pixelPt p ∧
        p.2 * w + p.1 ∈ (extractPhase skel w h checkFg starts v acc).1) ∧
    List.Pairwise (fun p1 p2 => ∀ z ∈ p1, z ∉ p2)
      (extractPhase skel w h checkFg starts v acc).2 := by
  intro starts
  induction starts with
  | nil => intro v acc hmem hpw; exact ⟨hmem, hpw⟩
  | cons s rest ih =>
    intro v acc hmem hpw
    rw [show extractPhase skel w h checkFg (s :: rest) v acc =
      (if (checkFg → skel (s.2 * w + s.1) = 1) ∧ (s.2 * w + s.1) ∉ v then
        if 5 ≤ (tracePath skel w h s.1 s.2 v).1.length then
          extractPhase skel w h checkFg rest (tracePath skel w h s.1 s.2 v).2
            (acc ++ [(tracePath skel w h s.1 s.2 v).1])
        else extractPhase skel w h checkFg rest (tracePath skel w h s.1 s.2 v).2 acc
      else extractPhase skel w h checkFg rest v acc) from rfl]
    obtain ⟨htv, htm⟩ := tracePath_inv skel w h s.1 s.2 v
    by_cases hg : (checkFg → skel (s.2 * w + s.1) = 1) ∧ (s.2 * w + s.1) ∉ v
    · rw [if_pos hg]
      by_cases hlen : 5 ≤ (tracePath skel w h s.1 s.2 v).1.length
      · rw [if_pos hlen]
        apply ih
        · intro path hpath q hq
          rcases List.mem_append.mp hpath with hold | hnew
          · obtain ⟨p, hp1, hp2⟩ := hmem path hold q hq
            exact ⟨p, hp1, htv hp2⟩
          · rw [List.mem_singleton] at hnew
            subst hnew
            obtain ⟨p, hp1, hp2, _⟩ := htm q hq
            exact ⟨p, hp1, hp2⟩
        · rw [List.pairwise_append]
          refine ⟨hpw, List.pairwise_singleton _ _, ?_⟩
          intro a ha b hb z hza hzb
          rw [List.mem_singleton] at hb
          subst hb
          obtain ⟨p1, he1, hv1⟩ := hmem a ha z hza
          obtain ⟨p2, he2, _, hnv2⟩ := htm z hzb
          have : p1 = p2 := pixelPt_inj (he1 ▸ he2)
          exact hnv2 (this ▸ hv1)
      · rw [if_neg hlen]
        apply ih
        · intro path hpath q hq
          obtain ⟨p, hp1, hp2⟩ := hmem path hpath q hq
          exact ⟨p, hp1, htv hp2⟩
        · exact hpw
    · rw [if_neg hg]
      exact ih v acc hmem hpw

/-- C10 (confirmed).  The paths extracted from a skeleton are pairwise
disjoint: the walk marks each pixel visited before appending it, never
enters a visited pixel, the simplification step only keeps a subset of
the walked pixels, and one visited set is shared by both extraction
phases, so no point appears in two returned paths. -/
theorem c10_disjoint (skel : Img) (w h : ℤ) :
    List.Pairwise (fun p1 p2 => ∀ z ∈ p1, z ∉ p2) (extractSkeletonPaths skel w h) := by
  unfold extractSkeletonPaths
  obtain ⟨h1, h2⟩ := extractPhase_inv skel w h false (endpointsOf skel w h) ∅ []
    (fun path hpath => absurd hpath (List.not_mem_nil path))
    List.Pairwise.nil
  exact (extractPhase_inv skel w h true (scanCoords w h) _ _ h1 h2).2
